import Mathlib

/-! Verification of departures: scanner, row decoder, catalog and route resolver.

A shallow embedding of `departures.c`, `parser.c` and `stations.c`.

Conventions of the embedding

* A C string value (the bytes a `char *` points to, up to the terminating NUL)
  is a `Str = List Char`, one `Char` per byte.  A `char *` that may be `NULL`
  is an `Option Str`.
* `SLIST` linked lists are Lean lists, head first.
* `err`/`errx` (process exit with a message) and undefined behaviour that the
  code can reach (a `NULL` handed to `strcmp`/`strdup`, a dereferenced `NULL`
  list cursor) are results `Except.error` of type `Fault`.
* `size_t` counters that only count list nodes are `Nat`: a list of `2^64`
  nodes does not fit in memory, so they cannot wrap.
* The program is modelled with `debug = 0` and `debug_server = 0`.
-/

namespace Departures

/-- A C string value: the bytes before the terminating NUL. -/
abbrev Str := List Char

/-- Ways a run stops abnormally. -/
inductive Fault where
  /-- The functions `err(1, msg)` and `errx(1, msg)`: the process exits. -/
  | fatal (msg : String)
  /-- A `NULL` pointer is dereferenced or handed to `strcmp`, `strdup`. -/
  | nullDeref
  /-- A read or write outside the allocated object. -/
  | overrun
  deriving DecidableEq, Repr

/-! ## stations.c -/

/-- The table of `stations_defs.c` (not part of the sources at hand): entry `i`
is the pair `(stations[i], codes[i])`, for `i < n_stations`. -/
abbrev StationTable := List (Str × Str)

/-- The function `station_name`: name of the first entry with this code. -/
def station_name (tbl : StationTable) (code : Str) : Option Str :=
  match tbl with
  | [] => none
  | (n, c) :: rest => if code = c then some n else station_name rest code

/-- The function `station_code`: code of the first entry with this name. -/
def station_code (tbl : StationTable) (name : Str) : Option Str :=
  match tbl with
  | [] => none
  | (n, c) :: rest => if name = n then some c else station_code rest name

/-- The function `station_verify_code`: `NULL` for `NULL`, else the table's
code equal to the argument, or `NULL` when there is none. -/
def station_verify_code (tbl : StationTable) (code : Option Str) : Option Str :=
  match code with
  | none => none
  | some code =>
    match tbl with
    | [] => none
    | (_, c) :: rest => if code = c then some c else station_verify_code rest (some code)

/-! ## Data structures of departures.c -/

/-- The struct `departure`, with the strings its pointers designate. -/
structure departure where
  /-- departure time -/
  time : Str
  /-- destination station name -/
  destination : Str
  /-- rail route name -/
  line : Str
  /-- train label or number -/
  train : Str
  /-- departure track label or number -/
  track : Str
  /-- train status, `NULL` when the row has no sixth cell -/
  status : Option Str
  /-- station code, `NULL` when `station_code` found none -/
  code : Option Str
  /-- next train order starting from 1 -/
  next : Nat
  deriving DecidableEq, Repr

/-- The struct `departures`: the list and its size field. -/
structure departures where
  list : List departure
  size : Nat
  deriving DecidableEq, Repr

/-- The value of the `status` pointer of a `stop`. -/
inductive stop_status where
  /-- Points at the text after the `&nbsp;&nbsp;` marker. -/
  | text (s : Str)
  /-- The value `NULL + 12` that `parse_par` stores when `strstr` found no marker. -/
  | wild
  deriving DecidableEq, Repr

/-- The struct `stop`. -/
structure stop where
  name : Str
  code : Option Str
  status : stop_status
  deriving DecidableEq, Repr

/-! ## departures_calculate_next -/

/-- The `SLIST_FOREACH` of `departures_calculate_next`, `num` being the counter
on entry: a departure whose code equals `dest_code` gets `next = ++num`. -/
def calculate_next_loop (dest_code : Str) :
    List departure → Nat → Except Fault (List departure × Nat)
  | [], num => .ok ([], num)
  | dep :: rest, num =>
    match dep.code with
    | none => .error .nullDeref
    | some c =>
      if c = dest_code then
        match calculate_next_loop dest_code rest (num + 1) with
        | .ok (rest', n) => .ok ({ dep with next := num + 1 } :: rest', n)
        | .error e => .error e
      else
        match calculate_next_loop dest_code rest num with
        | .ok (rest', n) => .ok (dep :: rest', n)
        | .error e => .error e

/-- The function `departures_calculate_next`: the catalog after the call and
the returned count. -/
def departures_calculate_next (deps : departures) (dest_code : Str) :
    Except Fault (departures × Nat) :=
  match calculate_next_loop dest_code deps.list 0 with
  | .ok (l, n) => .ok ({ deps with list := l }, n)
  | .error e => .error e

/-! ## reversed -/

/-- The function `reversed`: each stop is copied (`memcpy`) into a new node that
is inserted at the head of the new list. -/
def reversed (list : List stop) : List stop :=
  list.foldl (fun nl stop => stop :: nl) []

/-- A list node in memory: the stop's fields and `entries.sle_next`. -/
structure stop_node where
  val : stop
  next : Option Nat
  deriving DecidableEq, Repr

/-- The memory holding `stop` nodes: the address of a node is its index, and
`calloc` returns the first unused index. -/
abbrev StopHeap := List stop_node

/-- The loop of `reversed` over memory: `cur` is the cursor of `SLIST_FOREACH`,
`nl` the head of the new list.  `none` when the cursor leaves the memory or the
fuel runs out. -/
def reversed_heap_loop : Nat → StopHeap → Option Nat → Option Nat → Option (StopHeap × Option Nat)
  | _, h, none, nl => some (h, nl)
  | 0, _, some _, _ => none
  | fuel + 1, h, some a, nl =>
    match h[a]? with
    | none => none
    | some node =>
      reversed_heap_loop fuel (h ++ [{ val := node.val, next := nl }]) node.next (some h.length)

/-- The function `reversed` over memory: the new memory and the head of the new
list. -/
def reversed_heap (fuel : Nat) (h : StopHeap) (list : Option Nat) : Option (StopHeap × Option Nat) :=
  reversed_heap_loop fuel h list none

/-- The list starting at address `p` in memory `h` holds exactly the stops `s`,
in nodes at addresses `lo` and above. -/
def is_list_from (lo : Nat) (h : StopHeap) : Option Nat → List stop → Prop
  | p, [] => p = none
  | p, x :: xs =>
    ∃ a node, p = some a ∧ lo ≤ a ∧ h[a]? = some node ∧ node.val = x ∧ is_list_from lo h node.next xs

/-- The list starting at address `p` in memory `h` holds exactly the stops `s`. -/
def is_list (h : StopHeap) (p : Option Nat) (s : List stop) : Prop := is_list_from 0 h p s

/-! ## Document memory

The buffer `read_text` returns is modified in place by the scanner (`*p = 0`,
`strcpy`, `memset`), and the records keep pointers into it.  `Mem` is that
buffer, a pointer into it is an index, and the string a pointer designates is
read with `cstr`. -/

/-- The bytes of a document buffer; byte `i` is `mem[i]`. -/
abbrev Mem := List Char

/-- The NUL byte. -/
def NUL : Char := Char.ofNat 0

/-- The byte at index `i`.  The buffer ends with a NUL; an index past the end
reads as NUL. -/
def peek (m : Mem) (i : Nat) : Char := m.getD i NUL

/-- The assignment `m[i] = c`. -/
def poke (m : Mem) (i : Nat) (c : Char) : Mem := m.set i c

/-- The C string at index `i`: the bytes from `i` up to the first NUL. -/
def cstr (m : Mem) (i : Nat) : Str := (m.drop i).takeWhile (fun c => c != NUL)

/-- The function `strlen` at index `i`. -/
def strlen (m : Mem) (i : Nat) : Nat := (cstr m i).length

/-- Writes the bytes `s` at indices `i`, `i+1`, ... -/
def write_bytes (m : Mem) (i : Nat) : Str → Mem
  | [] => m
  | c :: cs => write_bytes (poke m i c) (i + 1) cs

/-- The function `strcpy(&m[i], s)`: the bytes of `s` and a NUL. -/
def strcpy (m : Mem) (i : Nat) (s : Str) : Mem := write_bytes m i (s ++ [NUL])

/-- The function `memset(&m[i], 0, n)`. -/
def memset0 (m : Mem) (i : Nat) (n : Nat) : Mem := write_bytes m i (List.replicate n NUL)

/-- Index of the first occurrence of `needle` in `hay`. -/
def find_sub (needle : Str) : Str → Option Nat
  | [] => if needle = [] then some 0 else none
  | c :: cs =>
    if needle.isPrefixOf (c :: cs) then some 0
    else (find_sub needle cs).map (fun k => k + 1)

/-- The function `strstr(&m[i], needle)`: index in `m` of the first occurrence of
`needle` in the C string at `i`, `none` for `NULL`. -/
def strstr (m : Mem) (i : Nat) (needle : Str) : Option Nat :=
  (find_sub needle (cstr m i)).map (fun k => i + k)

/-- The function `strchr(&m[i], c)`. -/
def strchr (m : Mem) (i : Nat) (c : Char) : Option Nat :=
  (find_sub [c] (cstr m i)).map (fun k => i + k)

/-- The function `isspace` in the C locale. -/
def isspace (c : Char) : Bool :=
  c == ' ' || c == '\t' || c == '\n' || c == Char.ofNat 11 || c == Char.ofNat 12 || c == '\r'

/-! ## Regular expressions

The program uses two shapes of POSIX pattern, always through `regexec` with
`REG_STARTEND`: an open tag `<tag[^>]*>` and a literal close tag.  With
`REG_STARTEND` the subject is the byte range `[rm_so, rm_eo)` of the string,
NUL bytes are ordinary bytes, and the reported offsets are relative to the
string. -/

/-- Leftmost match of `<tag[^>]*>` in `subj`, as (start, end): the bracket
cannot cross a `>`, so from a given start the match ends at the first `>`. -/
def find_open (tag : Str) : Str → Option (Nat × Nat)
  | [] => none
  | c :: cs =>
    if ('<' :: tag).isPrefixOf (c :: cs) then
      match find_sub ['>'] ((c :: cs).drop (tag.length + 1)) with
      | some j => some (0, tag.length + 1 + j + 1)
      | none => (find_open tag cs).map (fun r => (r.1 + 1, r.2 + 1))
    else (find_open tag cs).map (fun r => (r.1 + 1, r.2 + 1))

/-- Leftmost match of the literal `lit` in `subj`, as (start, end). -/
def find_lit (lit : Str) (subj : Str) : Option (Nat × Nat) :=
  (find_sub lit subj).map (fun k => (k, k + lit.length))

/-- The function `regexec(p, &m[text], 1, &match, REG_STARTEND)` with
`match = (so, eo)` on entry: `none` is `REG_NOMATCH`, otherwise the offsets of
the match relative to `text`. -/
def regexec (find : Str → Option (Nat × Nat)) (m : Mem) (text : Nat) (so eo : Nat) :
    Option (Nat × Nat) :=
  (find (((m.drop (text + so)).take (eo - so)))).map (fun r => (so + r.1, so + r.2))

/-! ## parser.c -/

/-- The struct `trscanner`; `text`, `sbeg` and `send` are indices into the
document memory, the `regmatch_t` offsets are relative to `text`. -/
structure trscanner where
  /-- text to scan -/
  text : Nat
  /-- maximum length -/
  len : Nat
  /-- td start match -/
  m1 : Nat × Nat
  /-- td end match -/
  m2 : Nat × Nat
  /-- td inner text start -/
  sbeg : Nat
  /-- td inner text end -/
  send : Nat
  /-- td inner text length, a `size_t` -/
  mlen : Nat
  deriving DecidableEq, Repr

/-- The function `trscanner_create`. -/
def trscanner_create (text : Nat) (len : Nat) : trscanner :=
  { text := text, len := len, m1 := (0, len), m2 := (0, 0), sbeg := 0, send := 0, mlen := 0 }

/-- The statement `mlen--` on a `size_t`. -/
def size_dec (n : Nat) : Nat := (n + 2 ^ 64 - 1) % 2 ^ 64

/-- The loop `while (isspace(*sbeg)) { sbeg++; mlen--; }`, over the bytes from
`sbeg` on: the new `sbeg` and `mlen`. -/
def skip_space : List Char → Nat → Nat → Nat × Nat
  | [], sbeg, mlen => (sbeg, mlen)
  | c :: cs, sbeg, mlen =>
    if isspace c then skip_space cs (sbeg + 1) (size_dec mlen) else (sbeg, mlen)

/-- The loop `while (isspace(*p) || *p == '<') { *p = 0; mlen--; p--; }`.
Inside `trscanner_next` the byte before the inner text is the `>` of the open
tag, so the loop stops before `p` leaves the buffer; at `p = 0` the model stops
after the write. -/
def trim_end : Nat → Mem → Nat → Mem × Nat
  | 0, m, mlen =>
    if isspace (peek m 0) || peek m 0 == '<' then (poke m 0 NUL, size_dec mlen) else (m, mlen)
  | p + 1, m, mlen =>
    if isspace (peek m (p + 1)) || peek m (p + 1) == '<' then
      trim_end p (poke m (p + 1) NUL) (size_dec mlen)
    else (m, mlen)

/-- The function `trscanner_next`: `none` is the return value 0, otherwise the
memory and the scanner after the call (return value 1). -/
def trscanner_next (m : Mem) (s : trscanner) : Option (Mem × trscanner) :=
  match regexec (find_open ['t', 'd']) m s.text s.m1.1 s.m1.2 with
  | none => none
  | some m1 =>
    match regexec (find_lit ['<', '/', 't', 'd', '>']) m s.text m1.2 s.len with
    | none => none
    | some m2 =>
      let sbeg := s.text + m1.2
      let send := s.text + m2.1
      let mlen := (m2.1 - m1.2) % 2 ^ 64
      let m := poke m send NUL
      let (sbeg, mlen) := skip_space (m.drop sbeg) sbeg mlen
      let p := match strchr m sbeg '<' with
        | some p => p
        | none => send
      let (m, mlen) := trim_end p m mlen
      some (m, { s with m1 := (m2.2, s.len), m2 := m2, sbeg := sbeg, send := send, mlen := mlen })

/-! ## parse_tr and station_load -/

/-- The struct `departure` as `parse_tr` builds it: the string fields are
pointers into the document memory. -/
structure departure_ptr where
  time : Nat
  destination : Nat
  line : Nat
  train : Nat
  track : Nat
  status : Option Nat
  code : Option Str
  next : Nat
  deriving DecidableEq, Repr

/-- The struct `departures` over `departure_ptr`. -/
structure departures_ptr where
  list : List departure_ptr
  size : Nat
  deriving DecidableEq, Repr

/-- The tail-tracking append of `parse_tr` and `parse_train_stops`:
`SLIST_INSERT_HEAD` when `last` is `NULL`, else `SLIST_INSERT_AFTER(last, x)`;
`last` is the position of the last added node. -/
def slist_append {α : Type} (list : List α) (last : Option Nat) (x : α) : List α × Option Nat :=
  match last with
  | none => (x :: list, some 0)
  | some k => (list.take (k + 1) ++ x :: list.drop (k + 1), some (k + 1))

/-- Lines 159-162 of `parse_tr`: when the destination contains `&nbsp;-`, its
last seven bytes are overwritten with ` (SEC)` and a NUL. -/
def parse_tr_destination (m : Mem) (destination : Nat) : Mem :=
  if (strstr m destination "&nbsp;-".toList).isSome then
    strcpy m (destination + (strlen m destination - 7)) " (SEC)".toList
  else m

/-- Lines 167-169 of `parse_tr`: a track equal to `Single` becomes `1`. -/
def parse_tr_track (m : Mem) (track : Nat) : Mem :=
  if cstr m track = "Single".toList then strcpy m track "1".toList else m

/-- The function `parse_tr` on the row at `text` of length `len`: the memory, the
catalog and `*last_added` after the call. -/
def parse_tr (tbl : StationTable) (m : Mem) (text len : Nat) (deps : departures_ptr)
    (last_added : Option Nat) : Except Fault (Mem × departures_ptr × Option Nat) :=
  if (strstr m text "<td colspan=".toList).isSome then .ok (m, deps, last_added) else
  match trscanner_next m (trscanner_create text len) with
  | none => .error (.fatal "first table cell doesn't contain a time")
  | some (m, scan) =>
    let time := scan.sbeg
    if "DEP".toList.isPrefixOf (cstr m time) then .ok (m, deps, last_added) else
    match trscanner_next m scan with
    | none => .error (.fatal "second table cell doesn't contain a destination station")
    | some (m, scan) =>
      let destination := scan.sbeg
      let m := parse_tr_destination m destination
      match trscanner_next m scan with
      | none => .error (.fatal "Cannot parse track")
      | some (m, scan) =>
        let track := scan.sbeg
        let m := parse_tr_track m track
        match trscanner_next m scan with
        | none => .error (.fatal "Cannot parse line")
        | some (m, scan) =>
          let line := scan.sbeg
          match trscanner_next m scan with
          | none => .error (.fatal "Cannot parse train")
          | some (m, scan) =>
            let train := scan.sbeg
            let (m, status) :=
              match trscanner_next m scan with
              | some (m, scan) => (m, some scan.sbeg)
              | none => (m, none)
            let dep : departure_ptr :=
              { time := time, destination := destination, line := line, train := train,
                track := track, status := status,
                code := station_code tbl (cstr m destination), next := 0 }
            let (list, last) := slist_append deps.list last_added dep
            .ok (m, { list := list, size := deps.size + 1 }, last)

/-- The row loop of `station_load`; `so` is `m1.rm_so`.  Every round moves `so`
forward, so `len + 1` rounds of fuel are never used up. -/
def station_load_loop (tbl : StationTable) (len : Nat) :
    Nat → Mem → Nat → departures_ptr → Option Nat → Except Fault (Mem × departures_ptr)
  | 0, m, _, deps, _ => .ok (m, deps)
  | fuel + 1, m, so, deps, last_added =>
    match regexec (find_open ['t', 'r']) m 0 so len with
    | none => .ok (m, deps)
    | some m1 =>
      match regexec (find_lit ['<', '/', 't', 'r', '>']) m 0 m1.2 len with
      | none => .ok (m, deps)
      | some m2 =>
        match parse_tr tbl m m1.2 (m2.1 - m1.2) deps last_added with
        | .error e => .error e
        | .ok (m, deps, last_added) => station_load_loop tbl len fuel m m2.2 deps last_added

/-- The strings a `departure_ptr` designates in memory `m`. -/
def departure_ptr.read (m : Mem) (d : departure_ptr) : departure :=
  { time := cstr m d.time, destination := cstr m d.destination, line := cstr m d.line,
    train := cstr m d.train, track := cstr m d.track,
    status := d.status.map (cstr m), code := d.code, next := d.next }

/-- The function `station_load` on a file with contents `text`: the catalog, its
strings read from the memory as `station_load` leaves it. -/
def station_load (tbl : StationTable) (text : Str) : Except Fault departures :=
  match station_load_loop tbl text.length (text.length + 1) (text ++ [NUL]) 0
      { list := [], size := 0 } none with
  | .error e => .error e
  | .ok (m, deps) => .ok { list := deps.list.map (departure_ptr.read m), size := deps.size }

/-- The struct `station`. -/
structure station where
  code : Str
  name : Str
  deps : departures
  deriving DecidableEq, Repr

/-- What the fetch collaborator (`expired`, `fetch_url`, `read_text`) delivers
during one query: the document of a station code, and the document of a train
seen from a station; `none` when it cannot be obtained. -/
structure World where
  station_doc : Str → Option Str
  train_doc : Str → Str → Option Str

/-- The function `station_create`.  The argument may be `NULL` (a stop without a
code); `strdup` of a `NULL` code or name is a fault. -/
def station_create (tbl : StationTable) (w : World) (station_code : Option Str) :
    Except Fault station :=
  match station_code with
  | none => .error .nullDeref
  | some code =>
    match station_name tbl code with
    | none => .error .nullDeref
    | some name =>
      match w.station_doc code with
      | none => .error (.fatal "Cannot fetch departures for station")
      | some text =>
        match station_load tbl text with
        | .error e => .error e
        | .ok deps => .ok { code := code, name := name, deps := deps }

/-! ## parse_par, parse_train_stops, get_prev_stations -/

/-- The value of a `stop`'s `status` pointer. -/
inductive status_ptr where
  | addr (i : Nat)
  /-- The value `NULL + 12`. -/
  | wild
  deriving DecidableEq, Repr

/-- The struct `stop` as `parse_train_stops` builds it. -/
structure stop_ptr where
  name : Nat
  code : Option Str
  status : status_ptr
  deriving DecidableEq, Repr

/-- The function `parse_par` on the row at `text`: the memory after the call and
`(*stop_name, *stop_status)`, `none` when `*stop_name` is left `NULL`. -/
def parse_par (m : Mem) (text len : Nat) : Mem × Option (Nat × status_ptr) :=
  match regexec (find_open ['p']) m text 0 len with
  | none => (m, none)
  | some m1 =>
    match regexec (find_lit ['<', '/', 'p', '>']) m text m1.2 len with
    | none => (m, none)
    | some m2 =>
      let ptext := text + m1.2
      match strstr m ptext "&nbsp;&nbsp;".toList with
      | some p => (poke (memset0 m p 12) (text + m2.1) NUL, some (ptext, status_ptr.addr (p + 12)))
      | none => (poke m (text + m2.1) NUL, some (ptext, status_ptr.wild))

/-- The row loop of `parse_train_stops`.  The list is empty on entry of the
function, so `last` is set whenever the list is not empty. -/
def parse_train_stops_loop (tbl : StationTable) (len : Nat) :
    Nat → Mem → Nat → List stop_ptr → Option Nat → Mem × List stop_ptr
  | 0, m, _, list, _ => (m, list)
  | fuel + 1, m, so, list, last =>
    match regexec (find_open ['t', 'r']) m 0 so len with
    | none => (m, list)
    | some m1 =>
      match regexec (find_lit ['<', '/', 't', 'r', '>']) m 0 m1.2 len with
      | none => (m, list)
      | some m2 =>
        match parse_par m m1.2 (m2.1 - m1.2) with
        | (m, none) => parse_train_stops_loop tbl len fuel m m2.2 list last
        | (m, some (name, status)) =>
          let stop : stop_ptr := { name := name, code := station_code tbl (cstr m name), status := status }
          let (list, last) :=
            if list.isEmpty then (stop :: list, some 0) else slist_append list last stop
          parse_train_stops_loop tbl len fuel m m2.2 list last

/-- The strings a `stop_ptr` designates in memory `m`. -/
def stop_ptr.read (m : Mem) (s : stop_ptr) : stop :=
  { name := cstr m s.name, code := s.code,
    status := match s.status with
      | .addr i => .text (cstr m i)
      | .wild => .wild }

/-- The function `parse_train_stops` on a file with contents `text`. -/
def parse_train_stops (tbl : StationTable) (text : Str) : List stop :=
  let r := parse_train_stops_loop tbl text.length (text.length + 1) (text ++ [NUL]) 0 [] none
  r.2.map (stop_ptr.read r.1)

/-- The function `get_prev_stations`: the list it fills.  When the fetch fails it
returns before parsing and the list stays empty. -/
def get_prev_stations (tbl : StationTable) (w : World) (from_code train : Str) : List stop :=
  match w.train_doc from_code train with
  | none => []
  | some text => parse_train_stops tbl text

/-- The function `stop_find`: the list from the first stop with this code on
(the found node and its successors), `none` for `NULL`. -/
def stop_find : List stop → Str → Except Fault (Option (List stop))
  | [], _ => .ok none
  | stop :: rest, station_code =>
    match stop.code with
    | none => .error .nullDeref
    | some c => if c = station_code then .ok (some (stop :: rest)) else stop_find rest station_code

/-! ## The report buffer -/

/-- The scratch array `char s[1024]` filled by `snprintf(s, sz, ...)` and then
handed to `buf_append(b, s, n)` with `n` the length `snprintf` returns: the
formatted text when it fits, an over-read of the array when it does not. -/
def snprintf (text : Str) : Except Fault Str :=
  if text.length < 1024 then .ok text else .error .overrun

/-- How `printf` renders a `%s` argument, `(null)` for `NULL`. -/
def fmt_s (s : Option Str) : Str :=
  match s with
  | some s => s
  | none => "(null)".toList

/-- The constant `positive` of `train_append_status`. -/
def positive : Str := " Previous stops status:\n\n".toList

/-- The constant `negative` of `departures_get_upcoming`. -/
def negative : Str := " No previous stops status.\n".toList

/-- The constant `credits`; `sz_credits = sizeof(credits)` counts the NUL. -/
def credits : Str :=
  ("\n**********************************\nData provided by NJ TRANSIT, which\n" ++
   "is the sole owner of the Data.\n**********************************\n").toList ++ [NUL]

/-- The text of one status line of `train_append_status`. -/
def status_line (tbl : StationTable) (st_code : Str) (status : Str) : Str :=
  "    ".toList ++ fmt_s (station_name tbl st_code) ++ "(".toList ++ st_code ++ "): ".toList ++
    status ++ "\n".toList

/-- The `SLIST_FOREACH` of `train_append_status`; `b` is the list of pieces
appended to the buffer so far, in order. -/
def train_append_status_loop (tbl : StationTable) (st_code : Str) (train : Str) :
    List departure → List Str → Bool → Except Fault (List Str × Bool)
  | [], b, appended => .ok (b, appended)
  | dep :: rest, b, appended =>
    if train ≠ dep.train then train_append_status_loop tbl st_code train rest b appended
    else
      match dep.status with
      | none => train_append_status_loop tbl st_code train rest b appended
      | some status =>
        if status = [] then train_append_status_loop tbl st_code train rest b appended
        else
          match snprintf (status_line tbl st_code status) with
          | .error e => .error e
          | .ok s =>
            let b := if appended then b else b ++ [positive]
            train_append_status_loop tbl st_code train rest (b ++ [s]) true

/-- The status lines of station `st` for `train`: one for every departure of
`st` with this train identifier and a non-empty status, in catalog order. -/
def status_lines (tbl : StationTable) (st : station) (train : Str) : List Str :=
  st.deps.list.filterMap (fun dep =>
    if train = dep.train then
      match dep.status with
      | some status => if status = [] then none else some (status_line tbl st.code status)
      | none => none
    else none)

/-- The function `train_append_status`. -/
def train_append_status (tbl : StationTable) (b : List Str) (st : station) (train : Str)
    (appended : Bool) : Except Fault (List Str × Bool) :=
  train_append_status_loop tbl st.code train st.deps.list b appended

/-! ## propose_destinations -/

/-- The counting loop of `propose_destinations` over the sorted array, with
`prev` and `uniq_count` on entry. -/
def uniq_count_loop : List (Option Str) → Option Str → Nat → Except Fault Nat
  | [], _, uniq_count => .ok uniq_count
  | c :: rest, prev, uniq_count =>
    match prev with
    | none => uniq_count_loop rest c (uniq_count + 1)
    | some p =>
      match c with
      | none => .error .nullDeref
      | some c' =>
        if p ≠ c' then uniq_count_loop rest c (uniq_count + 1)
        else uniq_count_loop rest prev uniq_count

/-- The printing loop of `propose_destinations`: the lines written to the
standard output.  A `NULL` slot reaches `strcmp`, in the loop test or in
`station_name`. -/
def propose_print_loop (tbl : StationTable) : List (Option Str) → Option Str → Except Fault (List Str)
  | [], _ => .ok []
  | c :: rest, prev =>
    match c with
    | none => .error .nullDeref
    | some c' =>
      if prev = none ∨ prev ≠ some c' then
        match propose_print_loop tbl rest c with
        | .error e => .error e
        | .ok out =>
          .ok ((fmt_s (station_name tbl c') ++ List.replicate (20 - (fmt_s (station_name tbl c')).length) ' ' ++
                " ".toList ++ c' ++ "\n".toList) :: out)
      else propose_print_loop tbl rest prev

/-- The function `propose_destinations`: the lines printed and the returned
code.  `qsort` stands for the call `qsort(codes, sz, sizeof(char*), compare)`:
`compare` hands the addresses of the array slots to `strcmp`, so the order it
leaves depends on the bytes of the pointers, not on the codes; the call only
rearranges the array. -/
def propose_destinations (tbl : StationTable) (qsort : List (Option Str) → List (Option Str))
    (st : station) (to_ : Option Str) : Except Fault (List Str × Option Str) :=
  match station_verify_code tbl to_ with
  | some to_ => .ok ([], some to_)
  | none =>
    let sz := st.deps.size
    if sz < st.deps.list.length then .error .overrun else
    let codes := st.deps.list.map (fun dep => dep.code) ++ List.replicate (sz - st.deps.list.length) none
    let codes := qsort codes
    match uniq_count_loop codes none 0 with
    | .error e => .error e
    | .ok uniq_count =>
      if uniq_count = 1 then .ok ([], codes.head?.join)
      else
        match propose_print_loop tbl codes none with
        | .error e => .error e
        | .ok out =>
          .ok ("Multiple destinantions found.\n".toList ::
               "Use -t parameter and station code from the list:\n".toList :: out, none)

/-! ## departures_get_upcoming -/

/-- A request to the fetch collaborator. -/
inductive Event where
  /-- The call `get_prev_stations(from_code, train, route)`. -/
  | route (from_code train : Str)
  /-- The call `station_create(code)`. -/
  | station (code : Option Str)
  deriving DecidableEq, Repr

/-- The state of a query: the pieces appended to the buffer `b`, in order, and
the requests made so far, in order (a record kept for the proofs; the program
keeps none). -/
structure Report where
  b : List Str
  log : List Event
  deriving DecidableEq, Repr

/-- The loop `while (stop != NULL)` of `departures_get_upcoming` over the stops
that follow the origin in the reversed route. -/
def prev_stops_loop (tbl : StationTable) (w : World) (train : Str) :
    List stop → Report → Bool → Except Fault (Report × Bool)
  | [], r, appended => .ok (r, appended)
  | stop :: rest, r, appended =>
    match station_create tbl w stop.code with
    | .error e => .error e
    | .ok st =>
      match train_append_status tbl r.b st train appended with
      | .error e => .error e
      | .ok (b, a) =>
        prev_stops_loop tbl w train rest { b := b, log := r.log ++ [Event.station stop.code] }
          (appended || a)

/-- The text `"%s #%s, Track %s"` of a departure. -/
def head_line (dep : departure) : Str :=
  dep.time ++ " #".toList ++ dep.train ++ ", Track ".toList ++ dep.track

/-- The text `"No route found for train %s from %s to %s\n"`. -/
def no_route_line (train from_code dest_code : Str) : Str :=
  "No route found for train ".toList ++ train ++ " from ".toList ++ from_code ++
    " to ".toList ++ dest_code ++ "\n".toList

/-- The pieces appended for a departure before its route is fetched. -/
def train_head (dep : departure) : Except Fault (List Str) :=
  match snprintf (head_line dep) with
  | .error e => .error e
  | .ok s =>
    match dep.status with
    | some status => if 0 < status.length then .ok [s, " ".toList, status, ".".toList] else .ok [s, ".".toList]
    | none => .ok [s, ".".toList]

/-- One round of the `while (i < n_next_trains)` loop for a departure with
`next != 0`, up to and including `i++`.  The flag tells whether the round ends at
the `continue` of the empty-route branch (`false`) or reaches the test
`if (i > 2) break` (`true`). -/
def upcoming_train (tbl : StationTable) (w : World) (from_code dest_code : Str)
    (dep : departure) (r : Report) : Except Fault (Report × Bool) :=
  match train_head dep with
  | .error e => .error e
  | .ok head =>
    let r : Report := { b := r.b ++ head, log := r.log ++ [Event.route from_code dep.train] }
    let route := get_prev_stations tbl w from_code dep.train
    if route.isEmpty then
      match snprintf (no_route_line dep.train from_code dest_code) with
      | .error e => .error e
      | .ok s => .ok ({ r with b := r.b ++ [s] }, false)
    else
      let rev_route := reversed route
      match stop_find rev_route from_code with
      | .error e => .error e
      | .ok none => .error (.fatal "Strange that cannot get origin stop code from reversed route")
      | .ok (some origin) =>
        match prev_stops_loop tbl w dep.train origin.tail r false with
        | .error e => .error e
        | .ok (r, appended) =>
          let b := if appended then r.b else r.b ++ [negative]
          .ok ({ r with b := b ++ ["\n".toList] }, true)

/-- The loop `while (i < n_next_trains)` of `departures_get_upcoming`; the list
is the catalog from the cursor `dep` on, empty when `dep` is `NULL`. -/
def upcoming_loop (tbl : StationTable) (w : World) (from_code dest_code : Str)
    (n_next_trains : Nat) : List departure → Nat → Report → Except Fault Report
  | [], i, r => if i < n_next_trains then .error .nullDeref else .ok r
  | dep :: rest, i, r =>
    if i < n_next_trains then
      if dep.next = 0 then upcoming_loop tbl w from_code dest_code n_next_trains rest i r
      else
        match upcoming_train tbl w from_code dest_code dep r with
        | .error e => .error e
        | .ok (r, checked) =>
          if checked && decide (i + 1 > 2) then .ok r
          else upcoming_loop tbl w from_code dest_code n_next_trains rest (i + 1) r
    else .ok r

/-- What `departures_get_upcoming` leaves: the lines `propose_destinations`
printed, the report, and the return value. -/
structure Upcoming where
  stdout : List Str
  report : Report
  rc : Nat
  deriving DecidableEq, Repr

/-- The function `departures_get_upcoming`, the buffer being empty on entry. -/
def departures_get_upcoming (tbl : StationTable) (qsort : List (Option Str) → List (Option Str))
    (w : World) (from_code : Str) (dest_code : Option Str) : Except Fault Upcoming :=
  match station_create tbl w (some from_code) with
  | .error e => .error e
  | .ok st =>
    let log := [Event.station (some from_code)]
    match propose_destinations tbl qsort st dest_code with
    | .error e => .error e
    | .ok (out, none) => .ok { stdout := out, report := { b := [], log := log }, rc := 1 }
    | .ok (out, some dest_code) =>
      match departures_calculate_next st.deps dest_code with
      | .error e => .error e
      | .ok (deps, n_next_trains) =>
        if n_next_trains = 0 then
          .error (.fatal (String.mk ("No next trains to ".toList ++ fmt_s (station_name tbl dest_code) ++
            "(".toList ++ dest_code ++ ") found".toList)))
        else
        match snprintf ("\nTrains from ".toList ++ fmt_s (station_name tbl from_code) ++ " to ".toList ++
            fmt_s (station_name tbl dest_code) ++ ":\n\n".toList) with
        | .error e => .error e
        | .ok s =>
          match upcoming_loop tbl w from_code dest_code n_next_trains deps.list 0
              { b := [s], log := log } with
          | .error e => .error e
          | .ok r => .ok { stdout := out, report := { r with b := r.b ++ [credits] }, rc := 0 }

/-! ## Concrete inputs -/

def ex_dep (train code : String) : departure :=
  { time := "5:10".toList, destination := code.toList, line := "Main".toList, train := train.toList,
    track := "1".toList, status := none, code := some code.toList, next := 0 }

def ex_catalog : departures :=
  { list := [ex_dep "T1" "NY", ex_dep "T2" "HB", ex_dep "T3" "NY"], size := 3 }

def ex_stop (name code : String) : stop :=
  { name := name.toList, code := some code.toList, status := .wild }

def ex_stops : List stop := [ex_stop "Suffern" "SF", ex_stop "Hoboken" "HB"]

def ex_heap : StopHeap :=
  [{ val := ex_stop "Suffern" "SF", next := some 1 }, { val := ex_stop "Hoboken" "HB", next := none }]

def ex_tbl : StationTable :=
  [("New York".toList, "NY".toList), ("Hoboken".toList, "HB".toList),
   ("Suffern".toList, "SF".toList), ("Ramsey".toList, "RY".toList)]

def ex_station : station := { code := "HB".toList, name := "Hoboken".toList, deps := ex_catalog }

/-- The origin's document: a header row and four departures to New York. -/
def ex_origin_doc : Str :=
  ("<tr><td>DEP</td><td>TO</td><td>TRK</td><td>LINE</td><td>TRAIN</td><td>STATUS</td></tr>" ++
   "<tr><td>5:10</td><td>New York</td><td>1</td><td>Main</td><td>T1</td></tr>" ++
   "<tr><td>5:30</td><td>New York</td><td>2</td><td>Main</td><td>T2</td></tr>" ++
   "<tr><td>5:40</td><td>New York</td><td>3</td><td>Main</td><td>T3</td></tr>" ++
   "<tr><td>5:50</td><td>New York</td><td>4</td><td>Main</td><td>T4</td></tr>").toList

/-- A train document: Suffern, Hoboken, New York. -/
def ex_route_doc : Str :=
  ("<tr><td><p>Suffern&nbsp;&nbsp;at 5:00</p></td></tr>" ++
   "<tr><td><p>Hoboken&nbsp;&nbsp;at 5:10</p></td></tr>" ++
   "<tr><td><p>New York&nbsp;&nbsp;at 5:30</p></td></tr>").toList

/-- The document of a station before the origin: train T1 has departed. -/
def ex_prev_doc : Str :=
  "<tr><td>4:10</td><td>New York</td><td>1</td><td>Main</td><td>T1</td><td>DEPARTED</td></tr>".toList

/-- A world in which the route of train T3 cannot be fetched. -/
def ex_world : World where
  station_doc := fun code => if code = "HB".toList then some ex_origin_doc else some ex_prev_doc
  train_doc := fun _ train => if train = "T3".toList then none else some ex_route_doc

def ex_dep_t1 : departure :=
  { time := "5:10".toList, destination := "New York".toList, line := "Main".toList,
    train := "T1".toList, track := "1".toList, status := none, code := some "NY".toList, next := 1 }

def ex_dep_t4 : departure :=
  { time := "5:50".toList, destination := "New York".toList, line := "Main".toList,
    train := "T4".toList, track := "4".toList, status := none, code := some "NY".toList, next := 4 }

def ex_route : List stop :=
  [{ name := "Suffern".toList, code := some "SF".toList, status := .text "at 5:00".toList },
   { name := "Hoboken".toList, code := some "HB".toList, status := .text "at 5:10".toList },
   { name := "New York".toList, code := some "NY".toList, status := .text "at 5:30".toList }]

def ex_sf_station : station :=
  { code := "SF".toList, name := "Suffern".toList,
    deps := { list := [{ time := "4:10".toList, destination := "New York".toList, line := "Main".toList,
                         train := "T1".toList, track := "1".toList, status := some "DEPARTED".toList,
                         code := some "NY".toList, next := 0 }], size := 1 } }

/-- A row whose destination cell ends with the marker, followed by the NUL that
ends the buffer. -/
def ex_row : Mem :=
  "<td>5:20</td><td>Hoboken&nbsp;-</td><td>1</td><td>Main</td><td>T9</td>".toList ++ [NUL]

/-- The memory and scanner after the first cell of `ex_row`. -/
def ex_scan1 : Mem × trscanner :=
  (trscanner_next ex_row (trscanner_create 0 (ex_row.length - 1))).getD (ex_row, trscanner_create 0 0)

/-- The memory and scanner after the second cell of `ex_row`. -/
def ex_scan2 : Mem × trscanner :=
  (trscanner_next ex_scan1.1 ex_scan1.2).getD ex_scan1

/-- What `parse_tr` returns on `ex_row` with an empty catalog. -/
def ex_parsed : Mem × departures_ptr × Option Nat :=
  match parse_tr ex_tbl ex_row 0 (ex_row.length - 1) { list := [], size := 0 } none with
  | .ok r => r
  | .error _ => (ex_row, { list := [], size := 0 }, none)

/-- The tracks `station_load` decodes from a one-row document with the given
third cell. -/
def ex_tracks (cell : String) : Option (List Str) :=
  (station_load ex_tbl ("<tr><td>5:10</td><td>New York</td>".toList ++ cell.toList ++
    "<td>Main</td><td>T1</td></tr>".toList)).toOption.map (fun deps => deps.list.map (fun d => d.track))

/-! ## Reference descriptions used by the row and scanner theorems -/

/-- The destination text after lines 159-162 of `parse_tr`, as a function of the
slice `D`: when `D` contains `&nbsp;-` its last seven bytes are replaced with
` (SEC)`, otherwise it is `D`. -/
def destination_text (D : Str) : Str :=
  if "&nbsp;-".toList <:+: D then D.take (D.length - 7) ++ " (SEC)".toList else D

/-- The track text after lines 167-169 of `parse_tr`, as a function of the
slice. -/
def track_text (T : Str) : Str :=
  if T = "Single".toList then "1".toList else T

/-- The slice as the text between the tags determines it, in the words of the
scanner's contract: the leading white space is removed and, when a `<` remains,
the text is cut at the first `<` and the white space before the cut is removed
too. -/
def slice_text (inner : Str) : Str :=
  let r := inner.dropWhile isspace
  if '<' ∈ r then (r.takeWhile (fun c => c != '<')).rdropWhile isspace else r

/-- The value of `*last_added` that goes with a list built by `parse_tr`: `NULL`
for the empty list, else the position of its last node. -/
def last_of {α : Type} (list : List α) : Option Nat :=
  if list.isEmpty then none else some (list.length - 1)

/-- Successive calls of `trscanner_next`, `n` of them, all successful. -/
def trscanner_run : Nat → Mem → trscanner → Option (Mem × trscanner)
  | 0, m, s => some (m, s)
  | n + 1, m, s =>
    match trscanner_next m s with
    | none => none
    | some (m, s) => trscanner_run n m s

/-- The memory `mb` holds the bytes of `ma` at every index up to `L`. -/
def agree_upto (L : Nat) (ma mb : Mem) : Prop := ∀ i, i ≤ L → peek mb i = peek ma i


/-- The text strictly between the end of the open match `o` and the start of
the close match `c`, both relative to `text`, in the memory before the call. -/
def cell_inner (m : Mem) (text : Nat) (o c : Nat × Nat) : Str :=
  (m.drop (text + o.2)).take (c.1 - o.2)

/-- The error of line 710 of `departures_get_upcoming`. -/
def route_error : Fault :=
  .fatal "Strange that cannot get origin stop code from reversed route"

/-- The fault a run ends with, if any. -/
def fault_of {α : Type} (x : Except Fault α) : Option Fault :=
  match x with
  | .error e => some e
  | .ok _ => none

/-- The ranks of the ranked departures of a list, in list order. -/
def ranks (l : List departure) : List Nat :=
  (l.filter (fun d => decide (d.next ≠ 0))).map (fun d => d.next)

/-- The number of calls of `get_prev_stations` in a log. -/
def routes (log : List Event) : Nat :=
  log.countP (fun e => match e with
    | Event.route _ _ => true
    | Event.station _ => false)
/-! ## Concrete rows and documents -/

/-- The memory and scanner after the third cell of `ex_row`. -/
def ex_scan3 : Mem × trscanner :=
  (trscanner_next (parse_tr_destination ex_scan2.1 ex_scan2.2.sbeg) ex_scan2.2).getD ex_scan2

/-- The memory and scanner after the fourth cell of `ex_row`. -/
def ex_scan4 : Mem × trscanner :=
  (trscanner_next (parse_tr_track ex_scan3.1 ex_scan3.2.sbeg) ex_scan3.2).getD ex_scan3

/-- The memory and scanner after the fifth cell of `ex_row`. -/
def ex_scan5 : Mem × trscanner :=
  (trscanner_next ex_scan4.1 ex_scan4.2).getD ex_scan4

/-- A row with two complete cells only. -/
def ex_row_short : Mem := "<td>5:20</td><td>Hoboken</td>".toList ++ [NUL]

/-- A row whose destination is not a name of `ex_tbl`. -/
def ex_row_unknown : Mem :=
  "<td>5:20</td><td>Atlantis</td><td>1</td><td>Main</td><td>T9</td>".toList ++ [NUL]

/-- What `parse_tr` returns on a row alone in its buffer, with an empty catalog:
the size, and per departure the strings read from the returned memory. -/
def ex_parse (tbl : StationTable) (row : Mem) : Except Fault (Nat × List departure) :=
  match parse_tr tbl row 0 (row.length - 1) { list := [], size := 0 } none with
  | .ok r => .ok (r.2.1.size, r.2.1.list.map (departure_ptr.read r.1))
  | .error e => .error e

/-- The trains of the catalog `station_load` builds from a document. -/
def ex_trains (doc : String) : Option (List Str) :=
  (station_load ex_tbl doc.toList).toOption.map (fun deps => deps.list.map (fun d => d.train))

/-- The names, codes and statuses `parse_train_stops` builds from a document. -/
def ex_stops_of (doc : String) : List (Str × Option Str × stop_status) :=
  (parse_train_stops ex_tbl doc.toList).map (fun s => (s.name, s.code, s.status))


/-- The memory and scanner after the first cell of `ex_row_short`. -/
def ex_short1 : Mem × trscanner :=
  (trscanner_next ex_row_short (trscanner_create 0 (ex_row_short.length - 1))).getD
    (ex_row_short, trscanner_create 0 0)

/-- The memory and scanner after the second cell of `ex_row_short`. -/
def ex_short2 : Mem × trscanner :=
  (trscanner_next ex_short1.1 ex_short1.2).getD ex_short1

/-- A data row of a station document, with its row tags. -/
def ex_tr_data : String :=
  "<tr><td>5:10</td><td>New York</td><td>1</td><td>Main</td><td>T1</td></tr>"

/-- A divider row of a station document, with its row tags. -/
def ex_tr_colspan : String := "<tr><td colspan=5>Later</td></tr>"

/-- A header row of a station document, with its row tags. -/
def ex_tr_header : String := "<tr><td>DEP</td><td>TO</td></tr>"

/-- A second data row of a station document, with its row tags. -/
def ex_tr_data2 : String :=
  "<tr><td>5:30</td><td>Hoboken</td><td>2</td><td>Main</td><td>T2</td></tr>"

/-- The catalog of the document made of a header row and two data rows, as far
as the times and the trains go. -/
def ex_loaded : Option (Nat × List (Str × Str)) :=
  (station_load ex_tbl (ex_tr_header ++ ex_tr_data ++ ex_tr_data2).toList).toOption.map
    (fun deps => (deps.size, deps.list.map (fun d => (d.time, d.train))))

/-- A cell with leading white space and markup inside, followed by the NUL that
ends the buffer. -/
def ex_cell : Mem := "<td>  ab <b>x</b></td>".toList ++ [NUL]

/-- The memory and scanner after the call of `trscanner_next` on `ex_cell`. -/
def ex_cell1 : Mem × trscanner :=
  (trscanner_next ex_cell (trscanner_create 0 (ex_cell.length - 1))).getD
    (ex_cell, trscanner_create 0 0)

/-- A route row whose paragraph has no status marker. -/
def ex_tr_plain_stop : String := "<tr><td><p>Ramsey</p></td></tr>"

/-- A route row whose paragraph has a status after the marker. -/
def ex_tr_status_stop : String := "<tr><td><p>Hoboken&nbsp;&nbsp;at 5:10</p></td></tr>"

/-- A route document whose first stop is not a name of `ex_tbl`. -/
def ex_unknown_stop_doc : String :=
  "<tr><td><p>Atlantis</p></td></tr><tr><td><p>Ramsey</p></td></tr>"

/-- The buffer `parse_train_stops` works on for `ex_unknown_stop_doc`. -/
def ex_unknown_stop_mem : Mem := ex_unknown_stop_doc.toList ++ [NUL]

/-- What `parse_par` returns on the first row of `ex_unknown_stop_mem`. -/
def ex_unknown_stop_par : Mem × Option (Nat × status_ptr) := parse_par ex_unknown_stop_mem 4 24

/-- A world in which every route is `ex_unknown_stop_doc` and no station document
can be fetched. -/
def ex_world_unknown : World where
  station_doc := fun _ => none
  train_doc := fun _ _ => some ex_unknown_stop_doc.toList

/-- The catalog `ex_catalog` after ranking for `NY`, with the returned count. -/
def ex_ranked : departures × Nat :=
  ((departures_calculate_next ex_catalog "NY".toList).toOption).getD (ex_catalog, 0)

/-- A route document in which a stop before the origin Hoboken has a name that
is not in `ex_tbl`. -/
def ex_null_before_doc : String :=
  "<tr><td><p>Atlantis</p></td></tr><tr><td><p>Hoboken</p></td></tr>" ++
  "<tr><td><p>New York</p></td></tr>"

/-- A route document in which a stop after the origin Hoboken has a name that
is not in `ex_tbl`. -/
def ex_null_after_doc : String :=
  "<tr><td><p>Suffern</p></td></tr><tr><td><p>Hoboken</p></td></tr>" ++
  "<tr><td><p>Atlantis</p></td></tr>"

/-- A world in which every route is `ex_null_before_doc`. -/
def ex_world_null_before : World where
  station_doc := fun _ => some ex_prev_doc
  train_doc := fun _ _ => some ex_null_before_doc.toList

/-- A world in which every route is `ex_null_after_doc`. -/
def ex_world_null_after : World where
  station_doc := fun _ => some ex_prev_doc
  train_doc := fun _ _ => some ex_null_after_doc.toList

/-- The names and codes of a route. -/
def ex_names (route : List stop) : List (Str × Option Str) :=
  route.map (fun s => (s.name, s.code))

/-- A row of five cells followed, in the same buffer, by the end of the row and
a divider row; the row itself is the first 63 bytes. -/
def ex_row_then_divider : Mem :=
  "<td>5:20</td><td>Hoboken</td><td>1</td><td>Main</td><td>T9</td>".toList ++
  "</tr><tr><td colspan=5>Later</td></tr>".toList ++ [NUL]

/-- The row of `ex_row_then_divider` alone in its buffer. -/
def ex_row_plain : Mem :=
  "<td>5:20</td><td>Hoboken</td><td>1</td><td>Main</td><td>T9</td>".toList ++ [NUL]

/-- The row of two cells of `ex_row_short` followed, in the same buffer, by the
end of the row and a divider row; the row itself is the first 29 bytes. -/
def ex_short_then_divider : Mem :=
  "<td>5:20</td><td>Hoboken</td>".toList ++
  "</tr><tr><td colspan=5>Later</td></tr>".toList ++ [NUL]

/-- What `parse_tr` returns on the row of length `len` at the start of a buffer,
with an empty catalog: the size, and per departure the strings read from the
returned memory. -/
def ex_parse_len (tbl : StationTable) (buf : Mem) (len : Nat) :
    Except Fault (Nat × List departure) :=
  match parse_tr tbl buf 0 len { list := [], size := 0 } none with
  | .ok r => .ok (r.2.1.size, r.2.1.list.map (departure_ptr.read r.1))
  | .error e => .error e
/-! ## Ranking -/

/-- The loop of `departures_calculate_next` entered with counter `num`: it
returns `num` plus the number of matching departures and ranks the matching
departure at position `i` with `num` plus the number of matches up to `i`. -/
theorem calculate_next_loop_spec (dest_code : Str) :
    ∀ (l : List departure) (num : Nat), (∀ d ∈ l, d.code ≠ none) →
      ∃ l', calculate_next_loop dest_code l num
          = .ok (l', num + l.countP (fun d : departure => decide (d.code = some dest_code))) ∧
        ∀ i : Nat, l'[i]? = (l[i]?).map (fun d : departure =>
          if d.code = some dest_code then
            { d with next := num + (l.take (i + 1)).countP (fun d : departure => decide (d.code = some dest_code)) }
          else d) := by
  intro l
  induction l with
  | nil => intro num _; exact ⟨[], by simp [calculate_next_loop], by simp⟩
  | cons d r ih =>
    intro num h
    have hr : ∀ x ∈ r, x.code ≠ none := fun x hx => h x (List.mem_cons_of_mem _ hx)
    have hd : d.code ≠ none := h d (List.mem_cons_self _ _)
    cases hc : d.code with
    | none => exact absurd hc hd
    | some c =>
      by_cases hcd : c = dest_code
      · obtain ⟨l', h1, h2⟩ := ih (num + 1) hr
        refine ⟨{ d with next := num + 1 } :: l', ?_, ?_⟩
        · simp [calculate_next_loop, hc, hcd, h1, List.countP_cons]
          omega
        · intro i
          cases i with
          | zero => simp [hc, hcd, List.countP_cons]
          | succ i =>
            simp only [List.getElem?_cons_succ, h2 i, List.take_succ_cons, List.countP_cons, hc, hcd]
            simp
            congr 1
            funext x
            split
            · congr 1; omega
            · rfl
      · obtain ⟨l', h1, h2⟩ := ih num hr
        refine ⟨d :: l', ?_, ?_⟩
        · simp [calculate_next_loop, hc, hcd, h1, List.countP_cons]
        · intro i
          cases i with
          | zero => simp [hc, hcd]
          | succ i =>
            simp only [List.getElem?_cons_succ, h2 i, List.take_succ_cons, List.countP_cons, hc]
            simp [hcd]

theorem countP_take_lt (p : departure → Bool) (l : List departure) (i j : Nat) (dj : departure)
    (hij : i < j) (hj : l[j]? = some dj) (hp : p dj = true) :
    (l.take (i + 1)).countP p < (l.take (j + 1)).countP p := by
  have hjl : j < l.length := by
    rcases Nat.lt_or_ge j l.length with h | h
    · exact h
    · rw [List.getElem?_eq_none h] at hj; cases hj
  have h1 : l.take (j + 1) = l.take j ++ [dj] := by
    rw [List.take_succ, hj]; rfl
  have h2 : (l.take (i + 1)).countP p ≤ (l.take j).countP p := by
    have : l.take (i + 1) = (l.take j).take (i + 1) := by
      rw [List.take_take]; congr 1; omega
    rw [this]
    exact List.Sublist.countP_le _ (List.take_sublist _ _)
  rw [h1, List.countP_append]
  simp [List.countP_cons, hp]
  omega

/-- C1: on a catalog whose departures all have rank 0 and a resolved code,
`departures_calculate_next` returns the number of departures whose code equals
the target, leaves the size field alone, gives the departure at position `i` the
rank "number of matching departures at positions `0..i`" when its code matches
(so the k-th matching departure gets rank k) and rank 0 otherwise, changes no
other field, and the ranks of matching departures are positive and strictly
increasing in document order. -/
theorem calculate_next_ranks (deps : departures) (dest_code : Str)
    (hfresh : ∀ d ∈ deps.list, d.next = 0 ∧ d.code ≠ none) :
    ∃ deps', departures_calculate_next deps dest_code
        = .ok (deps', deps.list.countP (fun d : departure => decide (d.code = some dest_code))) ∧
      deps'.size = deps.size ∧
      (∀ i : Nat, deps'.list[i]? = (deps.list[i]?).map (fun d : departure =>
        { d with next := if d.code = some dest_code then
            (deps.list.take (i + 1)).countP (fun d : departure => decide (d.code = some dest_code))
          else 0 })) ∧
      (∀ (i j : Nat) (di dj : departure), i < j → deps'.list[i]? = some di → deps'.list[j]? = some dj →
        di.code = some dest_code → dj.code = some dest_code → 0 < di.next ∧ di.next < dj.next) := by
  obtain ⟨l', h1, h2⟩ := calculate_next_loop_spec dest_code deps.list 0
    (fun d hd => (hfresh d hd).2)
  have h3 : ∀ i : Nat, l'[i]? = (deps.list[i]?).map (fun d : departure =>
        { d with next := if d.code = some dest_code then
            (deps.list.take (i + 1)).countP (fun d : departure => decide (d.code = some dest_code))
          else 0 }) := by
    intro i
    rw [h2 i]
    cases hi : deps.list[i]? with
    | none => rfl
    | some d =>
      have hm : d ∈ deps.list := List.getElem?_mem hi
      have h0 := (hfresh d hm).1
      simp only [Option.map_some', Option.some.injEq]
      split
      · simp
      · cases d; simp_all
  refine ⟨{ deps with list := l' }, ?_, rfl, h3, ?_⟩
  · simp [departures_calculate_next, h1]
  · intro i j di dj hij hi hj hci hcj
    simp only [h3] at hi hj
    cases hi' : deps.list[i]? with
    | none => rw [hi'] at hi; cases hi
    | some ei =>
      cases hj' : deps.list[j]? with
      | none => rw [hj'] at hj; cases hj
      | some ej =>
        rw [hi'] at hi; rw [hj'] at hj
        simp only [Option.map_some', Option.some.injEq] at hi hj
        subst hi; subst hj
        simp only at hci hcj
        simp only [hci, hcj, if_true]
        have hlt := countP_take_lt (fun d : departure => decide (d.code = some dest_code))
          deps.list i j ej hij hj' (by simp [hcj])
        have hpos : 0 < (deps.list.take (i + 1)).countP (fun d : departure => decide (d.code = some dest_code)) := by
          have hil : i < deps.list.length := by
            rcases Nat.lt_or_ge i deps.list.length with h | h
            · exact h
            · rw [List.getElem?_eq_none h] at hi'; cases hi'
          have : deps.list.take (i + 1) = deps.list.take i ++ [ei] := by
            rw [List.take_succ, hi']; rfl
          rw [this, List.countP_append]
          simp [List.countP_cons, hci]
        exact ⟨hpos, hlt⟩

theorem calculate_next_ranks_witness :
    (∀ d ∈ ex_catalog.list, d.next = 0 ∧ d.code ≠ none) ∧
    ∃ deps', departures_calculate_next ex_catalog "NY".toList = .ok (deps', 2) ∧
      deps'.list.map (fun d => d.next) = [1, 0, 2] :=
  ⟨by decide, by
    obtain ⟨deps', h, _, h3, _⟩ := calculate_next_ranks ex_catalog "NY".toList (by decide)
    refine ⟨deps', h, ?_⟩
    apply List.ext_getElem?
    intro i
    rw [List.getElem?_map, h3 i]
    match i with
    | 0 => rfl
    | 1 => rfl
    | 2 => rfl
    | i + 3 => rfl⟩

/-! ## Reversal of a stop sequence -/

/-- The loop of `reversed` computes the reverse of the list. -/
theorem reversed_eq_reverse (list : List stop) : reversed list = list.reverse := by
  unfold reversed
  have h : ∀ (l acc : List stop), l.foldl (fun nl stop => stop :: nl) acc = l.reverse ++ acc := by
    intro l
    induction l with
    | nil => intro acc; rfl
    | cons x xs ih => intro acc; simp [List.foldl_cons, ih]
  simp [h list []]

/-- Allocating new nodes keeps every list of the old memory. -/
theorem is_list_from_append (lo : Nat) (h t : StopHeap) :
    ∀ (s : List stop) (p : Option Nat), is_list_from lo h p s → is_list_from lo (h ++ t) p s := by
  intro s
  induction s with
  | nil => intro p hp; exact hp
  | cons x xs ih =>
    intro p hp
    obtain ⟨a, node, hpa, hlo, hnode, hval, hrest⟩ := hp
    refine ⟨a, node, hpa, hlo, ?_, hval, ih _ hrest⟩
    have hlt : a < h.length := by
      rcases Nat.lt_or_ge a h.length with hh | hh
      · exact hh
      · rw [List.getElem?_eq_none hh] at hnode; cases hnode
    rw [List.getElem?_append_left hlt]; exact hnode

/-- The loop of `reversed` over memory, from a cursor at the list `rest` and a new
list holding `acc`: it ends with the new list holding `rest.reverse ++ acc`, in
a memory that extends the old one. -/
theorem reversed_heap_loop_spec (lo : Nat) :
    ∀ (rest : List stop) (fuel : Nat) (h : StopHeap) (cur nl : Option Nat) (acc : List stop),
      is_list h cur rest → is_list_from lo h nl acc → lo ≤ h.length → rest.length ≤ fuel →
      ∃ h' q, reversed_heap_loop fuel h cur nl = some (h', q) ∧
        is_list_from lo h' q (rest.reverse ++ acc) ∧ ∃ t, h' = h ++ t := by
  intro rest
  induction rest with
  | nil =>
    intro fuel h cur nl acc hcur hnl _ _
    have hc : cur = none := hcur
    subst hc
    refine ⟨h, nl, ?_, by simpa using hnl, [], by simp⟩
    cases fuel <;> rfl
  | cons x xs ih =>
    intro fuel h cur nl acc hcur hnl hlo hfuel
    obtain ⟨a, node, hpa, _, hnode, hval, hrest⟩ := hcur
    subst hpa
    cases fuel with
    | zero => simp at hfuel
    | succ f =>
      have hnew : is_list_from lo (h ++ [{ val := node.val, next := nl }]) (some h.length) (x :: acc) := by
        refine ⟨h.length, { val := node.val, next := nl }, rfl, hlo, ?_, hval, ?_⟩
        · simp
        · exact is_list_from_append lo h _ acc nl hnl
      obtain ⟨h', q, hrun, hq, t, ht⟩ := ih f (h ++ [{ val := node.val, next := nl }]) node.next
        (some h.length) (x :: acc) (is_list_from_append 0 h _ xs _ hrest) hnew
        (by simp; omega) (by simpa using hfuel)
      refine ⟨h', q, ?_, ?_, _ :: t, by simpa using ht⟩
      · simp [reversed_heap_loop, hnode, hrun]
      · simpa using hq

/-- C2: for every stop sequence `s`, the empty one included,
`reversed (reversed s)` is `s`: the same length, and at every position a stop
with the same name, code and status. -/
theorem reversed_reversed (s : List stop) :
    reversed (reversed s) = s ∧
    (reversed (reversed s)).length = s.length ∧
    (∀ (i : Nat) (x y : stop), (reversed (reversed s))[i]? = some x → s[i]? = some y →
      x.name = y.name ∧ x.code = y.code ∧ x.status = y.status) := by
  have h : reversed (reversed s) = s := by simp [reversed_eq_reverse]
  refine ⟨h, by rw [h], ?_⟩
  intro i x y hx hy
  rw [h, hy] at hx
  cases hx
  exact ⟨rfl, rfl, rfl⟩

/-- C3: run over a memory `h` in which `list` is the head of a list holding the
stops `s`, `reversed` returns (given fuel for `s.length` rounds) the head `q` of
a list that holds the stops `reversed s` in nodes allocated by the call (at
addresses from `h.length` on); `reversed s` has the length of `s` and its
`i`-th stop is the `(n-1-i)`-th stop of `s`, field for field; every cell of `h`
is unchanged and `list` still heads a list holding `s` in the same order. -/
theorem reversed_is_mirror_copy (h : StopHeap) (list : Option Nat) (s : List stop) (fuel : Nat)
    (hs : is_list h list s) (hfuel : s.length ≤ fuel) :
    ∃ h' q, reversed_heap fuel h list = some (h', q) ∧
      is_list_from h.length h' q (reversed s) ∧
      (reversed s).length = s.length ∧
      (∀ i : Nat, i < s.length → (reversed s)[i]? = s[s.length - 1 - i]?) ∧
      (∀ a : Nat, a < h.length → h'[a]? = h[a]?) ∧
      is_list h' list s := by
  obtain ⟨h', q, hrun, hq, t, ht⟩ :=
    reversed_heap_loop_spec h.length s fuel h list none [] hs rfl (le_refl _) hfuel
  refine ⟨h', q, hrun, ?_, ?_, ?_, ?_, ?_⟩
  · rw [reversed_eq_reverse]; simpa using hq
  · rw [reversed_eq_reverse]; simp
  · intro i hi
    rw [reversed_eq_reverse, List.getElem?_reverse hi]
  · intro a ha
    rw [ht, List.getElem?_append_left ha]
  · rw [ht]; exact is_list_from_append 0 h t s list hs

theorem reversed_is_mirror_copy_witness :
    is_list ex_heap (some 0) ex_stops ∧
    ∃ h' q, reversed_heap 2 ex_heap (some 0) = some (h', q) ∧
      is_list_from ex_heap.length h' q (reversed ex_stops) ∧
      (reversed ex_stops).length = ex_stops.length ∧
      (∀ i : Nat, i < ex_stops.length → (reversed ex_stops)[i]? = ex_stops[ex_stops.length - 1 - i]?) ∧
      (∀ a : Nat, a < ex_heap.length → h'[a]? = ex_heap[a]?) ∧
      is_list h' (some 0) ex_stops :=
  have hs : is_list ex_heap (some 0) ex_stops :=
    ⟨0, _, rfl, Nat.le_refl 0, rfl, rfl, 1, _, rfl, Nat.zero_le 1, rfl, rfl, rfl⟩
  ⟨hs, reversed_is_mirror_copy ex_heap (some 0) ex_stops 2 hs (Nat.le_refl 2)⟩

/-! ## Destination disambiguation -/

/-- The counting loop on an array without `NULL`: it ends without fault, counts
at least one more when some slot differs from a non-`NULL` `prev`, and counts
nothing when every slot equals `prev`. -/
theorem uniq_count_loop_spec :
    ∀ (l : List (Option Str)) (prev : Option Str) (uc : Nat), (∀ x ∈ l, x ≠ none) →
      ∃ n, uniq_count_loop l prev uc = .ok n ∧ uc ≤ n ∧
        (prev ≠ none → (∃ x ∈ l, x ≠ prev) → uc + 1 ≤ n) ∧
        ((∀ x ∈ l, x = prev) → n = uc) := by
  intro l
  induction l with
  | nil =>
    intro prev uc _
    exact ⟨uc, rfl, le_refl _, by simp, by simp⟩
  | cons c rest ih =>
    intro prev uc hall
    have hrest : ∀ x ∈ rest, x ≠ none := fun x hx => hall x (List.mem_cons_of_mem _ hx)
    cases hc : c with
    | none => exact absurd hc (hall c (List.mem_cons_self _ _))
    | some c' =>
      cases prev with
      | none =>
        obtain ⟨n, h1, h2, _, _⟩ := ih (some c') (uc + 1) hrest
        refine ⟨n, by simp [uniq_count_loop, h1], by omega, by simp, ?_⟩
        intro h
        have := h (some c') (List.mem_cons_self _ _)
        cases this
      | some p =>
        by_cases hp : p = c'
        · subst hp
          obtain ⟨n, h1, h2, h3, h4⟩ := ih (some p) uc hrest
          refine ⟨n, by simp [uniq_count_loop, h1], h2, ?_, ?_⟩
          · intro _ hex
            obtain ⟨x, hx, hne⟩ := hex
            rcases List.mem_cons.1 hx with h | h
            · exact absurd h hne
            · exact h3 (by simp) ⟨x, h, hne⟩
          · intro h
            exact h4 (fun x hx => h x (List.mem_cons_of_mem _ hx))
        · obtain ⟨n, h1, h2, _, _⟩ := ih (some c') (uc + 1) hrest
          refine ⟨n, by simp [uniq_count_loop, hp, h1], by omega, fun _ _ => h2, ?_⟩
          intro h
          have := h (some c') (List.mem_cons_self _ _)
          simp at this
          exact absurd this.symm hp

/-- The printing loop ends without fault on an array without `NULL`. -/
theorem propose_print_loop_ok (tbl : StationTable) :
    ∀ (l : List (Option Str)) (prev : Option Str), (∀ x ∈ l, x ≠ none) →
      ∃ out, propose_print_loop tbl l prev = .ok out := by
  intro l
  induction l with
  | nil => intro prev _; exact ⟨[], rfl⟩
  | cons c rest ih =>
    intro prev hall
    have hrest : ∀ x ∈ rest, x ≠ none := fun x hx => hall x (List.mem_cons_of_mem _ hx)
    cases hc : c with
    | none => exact absurd hc (hall c (List.mem_cons_self _ _))
    | some c' =>
      by_cases hb : prev = none ∨ prev ≠ some c'
      · obtain ⟨out, h⟩ := ih (some c') hrest
        simp only [propose_print_loop, if_pos hb, h]
        exact ⟨_, rfl⟩
      · obtain ⟨out, h⟩ := ih prev hrest
        exact ⟨out, by simp only [propose_print_loop, if_neg hb, h]⟩

theorem station_verify_code_unknown (to_ : Str) :
    ∀ tbl : StationTable, (∀ e ∈ tbl, e.2 ≠ to_) → station_verify_code tbl (some to_) = none := by
  intro tbl
  induction tbl with
  | nil => intro _; rfl
  | cons e rest ih =>
    intro h
    obtain ⟨n, c⟩ := e
    have hc : to_ ≠ c := fun hh => h (n, c) (List.mem_cons_self _ _) hh.symm
    simp only [station_verify_code, if_neg hc]
    exact ih (fun e he => h e (List.mem_cons_of_mem _ he))

/-- C4: `propose_destinations` called without a destination code, on a catalog
whose size field is the length of its list and whose departures all carry a
resolved code, whatever rearrangement the `qsort` call leaves: when the catalog
is not empty and all its codes are the one code `c`, it prints nothing and
returns `c`; when two departures carry different codes, it returns `NULL`, and
`departures_get_upcoming` on such an origin returns 1 with an empty report. -/
theorem propose_destinations_implicit (tbl : StationTable)
    (qsort : List (Option Str) → List (Option Str)) (st : station)
    (hq : ∀ l, List.Perm (qsort l) l)
    (hsize : st.deps.size = st.deps.list.length)
    (hres : ∀ d ∈ st.deps.list, d.code ≠ none) :
    (∀ c : Str, st.deps.list ≠ [] → (∀ d ∈ st.deps.list, d.code = some c) →
      propose_destinations tbl qsort st none = .ok ([], some c)) ∧
    ((∃ d1 ∈ st.deps.list, ∃ d2 ∈ st.deps.list, d1.code ≠ d2.code) →
      ∃ out, propose_destinations tbl qsort st none = .ok (out, none) ∧
        ∀ (w : World) (from_code : Str), station_create tbl w (some from_code) = .ok st →
          departures_get_upcoming tbl qsort w from_code none =
            .ok { stdout := out, report := { b := [], log := [Event.station (some from_code)] },
                  rc := 1 }) := by
  have hcodes : st.deps.list.map (fun dep => dep.code) ++
      List.replicate (st.deps.size - st.deps.list.length) none = st.deps.list.map (fun dep => dep.code) := by
    rw [hsize]; simp
  have hmem : ∀ x, x ∈ qsort (st.deps.list.map (fun dep => dep.code)) ↔
      ∃ d ∈ st.deps.list, d.code = x := by
    intro x
    rw [(hq _).mem_iff]; simp
  have hsome : ∀ x ∈ qsort (st.deps.list.map (fun dep => dep.code)), x ≠ none := by
    intro x hx
    obtain ⟨d, hd, rfl⟩ := (hmem x).1 hx
    exact hres d hd
  have hunfold : propose_destinations tbl qsort st none =
      (match uniq_count_loop (qsort (st.deps.list.map (fun dep => dep.code))) none 0 with
        | .error e => .error e
        | .ok uniq_count =>
          if uniq_count = 1 then .ok ([], (qsort (st.deps.list.map (fun dep => dep.code))).head?.join)
          else
            match propose_print_loop tbl (qsort (st.deps.list.map (fun dep => dep.code))) none with
            | .error e => .error e
            | .ok out =>
              .ok ("Multiple destinantions found.\n".toList ::
                   "Use -t parameter and station code from the list:\n".toList :: out, none)) := by
    simp only [propose_destinations, station_verify_code, hcodes]
    rw [if_neg (by omega)]
  have hmain :
      (∀ c : Str, st.deps.list ≠ [] → (∀ d ∈ st.deps.list, d.code = some c) →
        propose_destinations tbl qsort st none = .ok ([], some c)) ∧
      ((∃ d1 ∈ st.deps.list, ∃ d2 ∈ st.deps.list, d1.code ≠ d2.code) →
        ∃ out, propose_destinations tbl qsort st none = .ok (out, none)) := by
    rw [hunfold]
    generalize hl : qsort (st.deps.list.map (fun dep => dep.code)) = l at hmem hsome
    constructor
    · intro c hne hall
      obtain ⟨d0, hd0⟩ := List.exists_mem_of_ne_nil _ hne
      have hcl : some c ∈ l := (hmem _).2 ⟨d0, hd0, hall d0 hd0⟩
      have hallc : ∀ x ∈ l, x = some c := by
        intro x hx
        obtain ⟨d, hd, rfl⟩ := (hmem x).1 hx
        exact hall d hd
      cases l with
      | nil => simp at hcl
      | cons x rest =>
        have hx : x = some c := hallc x (List.mem_cons_self _ _)
        subst hx
        obtain ⟨n, h1, _, _, h4⟩ := uniq_count_loop_spec rest (some c) 1
          (fun y hy => hsome y (List.mem_cons_of_mem _ hy))
        have hn : n = 1 := h4 (fun y hy => hallc y (List.mem_cons_of_mem _ hy))
        subst hn
        simp [uniq_count_loop, h1]
    · rintro ⟨d1, hd1, d2, hd2, hne⟩
      have h1l : d1.code ∈ l := (hmem _).2 ⟨d1, hd1, rfl⟩
      have h2l : d2.code ∈ l := (hmem _).2 ⟨d2, hd2, rfl⟩
      obtain ⟨out, hout⟩ := propose_print_loop_ok tbl l none hsome
      cases l with
      | nil => simp at h1l
      | cons x rest =>
        cases hx : x with
        | none => exact absurd hx (hsome x (List.mem_cons_self _ _))
        | some c =>
          subst hx
          obtain ⟨n, hn1, _, hn3, _⟩ := uniq_count_loop_spec rest (some c) 1
            (fun y hy => hsome y (List.mem_cons_of_mem _ hy))
          have hex : ∃ y ∈ rest, y ≠ some c := by
            by_cases h1c : d1.code = some c
            · have h2c : d2.code ≠ some c := fun h => hne (h1c.trans h.symm)
              rcases List.mem_cons.1 h2l with h | h
              · exact absurd h h2c
              · exact ⟨_, h, h2c⟩
            · rcases List.mem_cons.1 h1l with h | h
              · exact absurd h h1c
              · exact ⟨_, h, h1c⟩
          have hn2 : 2 ≤ n := hn3 (by simp) hex
          have hne1 : n ≠ 1 := by omega
          refine ⟨"Multiple destinantions found.\n".toList ::
                     "Use -t parameter and station code from the list:\n".toList :: out, ?_⟩
          simp only [uniq_count_loop, hn1, if_neg hne1, hout]
  refine ⟨hmain.1, fun hex => ?_⟩
  obtain ⟨out, hout⟩ := hmain.2 hex
  refine ⟨out, hout, ?_⟩
  intro w from_code hst
  simp only [departures_get_upcoming, hst, hout]

/-- C5: for every catalog and every supplied destination code that is not a
code of the station table, `propose_destinations` prints and returns what it
does on the same catalog with no destination code. -/
theorem propose_destinations_unknown_code (tbl : StationTable)
    (qsort : List (Option Str) → List (Option Str)) (st : station) (to_ : Str)
    (h : ∀ e ∈ tbl, e.2 ≠ to_) :
    propose_destinations tbl qsort st (some to_) = propose_destinations tbl qsort st none := by
  simp only [propose_destinations, station_verify_code_unknown to_ tbl h, station_verify_code]

theorem propose_destinations_implicit_witness :
    ((∀ l : List (Option Str), List.Perm (List.reverse l) l) ∧
      ex_station.deps.size = ex_station.deps.list.length ∧
      (∀ d ∈ ex_station.deps.list, d.code ≠ none) ∧
      (∃ d1 ∈ ex_station.deps.list, ∃ d2 ∈ ex_station.deps.list, d1.code ≠ d2.code)) ∧
    ∃ out, propose_destinations ex_tbl List.reverse ex_station none = .ok (out, none) :=
  have hq : ∀ l : List (Option Str), List.Perm (List.reverse l) l := fun l => List.reverse_perm l
  have hsize : ex_station.deps.size = ex_station.deps.list.length := by decide
  have hres : ∀ d ∈ ex_station.deps.list, d.code ≠ none := by decide
  have hex : ∃ d1 ∈ ex_station.deps.list, ∃ d2 ∈ ex_station.deps.list, d1.code ≠ d2.code :=
    ⟨ex_dep "T1" "NY", by decide, ex_dep "T2" "HB", by decide, by decide⟩
  ⟨⟨hq, hsize, hres, hex⟩,
   by
    obtain ⟨out, h, _⟩ :=
      (propose_destinations_implicit ex_tbl List.reverse ex_station hq hsize hres).2 hex
    exact ⟨out, h⟩⟩

theorem propose_destinations_unknown_code_witness :
    (∀ e ∈ ex_tbl, e.2 ≠ "XX".toList) ∧
    propose_destinations ex_tbl List.reverse ex_station (some "XX".toList) =
      propose_destinations ex_tbl List.reverse ex_station none :=
  ⟨by decide, propose_destinations_unknown_code ex_tbl List.reverse ex_station "XX".toList (by decide)⟩

/-! ## The route resolver -/

/-- The loop of `train_append_status`: it appends the station's status lines for
the train, preceded by the header unless `appended` is set or there is no line,
and returns whether anything has been appended so far. -/
theorem train_append_status_loop_spec (tbl : StationTable) (st : station) (train : Str) :
    ∀ (deps : List departure) (b : List Str) (appended : Bool),
      (∀ l ∈ status_lines tbl { st with deps := { list := deps, size := 0 } } train, l.length < 1024) →
      train_append_status_loop tbl st.code train deps b appended =
        .ok (b ++ (if appended = true ∨
                status_lines tbl { st with deps := { list := deps, size := 0 } } train = [] then
              status_lines tbl { st with deps := { list := deps, size := 0 } } train
            else positive :: status_lines tbl { st with deps := { list := deps, size := 0 } } train),
          appended || !(status_lines tbl { st with deps := { list := deps, size := 0 } } train).isEmpty) := by
  intro deps
  induction deps with
  | nil => intro b appended _; simp [train_append_status_loop, status_lines]
  | cons d rest ih =>
    intro b appended hfit
    by_cases ht : train = d.train
    · cases hs : d.status with
      | none =>
        have hl : status_lines tbl { st with deps := { list := d :: rest, size := 0 } } train =
            status_lines tbl { st with deps := { list := rest, size := 0 } } train := by
          simp [status_lines, ht, hs]
        rw [hl] at hfit ⊢
        simp only [train_append_status_loop, ht, hs, ne_eq, not_true_eq_false, if_false]
        rw [← ht]; exact ih b appended hfit
      | some status =>
        by_cases he : status = []
        · have hl : status_lines tbl { st with deps := { list := d :: rest, size := 0 } } train =
              status_lines tbl { st with deps := { list := rest, size := 0 } } train := by
            simp [status_lines, ht, hs, he]
          rw [hl] at hfit ⊢
          simp only [train_append_status_loop, ht, hs, he, ne_eq, not_true_eq_false, if_false, if_true]
          rw [← ht]; exact ih b appended hfit
        · have hl : status_lines tbl { st with deps := { list := d :: rest, size := 0 } } train =
              status_line tbl st.code status ::
                status_lines tbl { st with deps := { list := rest, size := 0 } } train := by
            simp [status_lines, ht, hs, he]
          rw [hl] at hfit ⊢
          have hfit0 : (status_line tbl st.code status).length < 1024 :=
            hfit _ (List.mem_cons_self _ _)
          have hfit' := fun l hl => hfit l (List.mem_cons_of_mem _ hl)
          simp only [train_append_status_loop, ht, hs, he, ne_eq, not_true_eq_false, if_false,
            snprintf, if_pos hfit0]
          rw [← ht, ih _ true hfit']
          cases appended <;> simp
    · have hl : status_lines tbl { st with deps := { list := d :: rest, size := 0 } } train =
          status_lines tbl { st with deps := { list := rest, size := 0 } } train := by
        simp [status_lines, ht]
      rw [hl] at hfit ⊢
      simp only [train_append_status_loop, ne_eq, ht, not_false_eq_true, if_true]
      exact ih b appended hfit

theorem status_lines_deps (tbl : StationTable) (st : station) (train : Str) :
    status_lines tbl { st with deps := { list := st.deps.list, size := 0 } } train =
      status_lines tbl st train := rfl

theorem train_append_status_spec (tbl : StationTable) (st : station) (train : Str)
    (b : List Str) (appended : Bool)
    (hfit : ∀ l ∈ status_lines tbl st train, l.length < 1024) :
    train_append_status tbl b st train appended =
      .ok (b ++ (if appended = true ∨ status_lines tbl st train = [] then status_lines tbl st train
            else positive :: status_lines tbl st train),
          appended || !(status_lines tbl st train).isEmpty) := by
  have h := train_append_status_loop_spec tbl st train st.deps.list b appended hfit
  rw [status_lines_deps] at h
  exact h

/-- The walk over the stops after the origin: the status lines of all their
stations, in order, under a single header. -/
theorem prev_stops_loop_spec (tbl : StationTable) (w : World) (train : Str) :
    ∀ (prev : List stop) (stations : List station) (r : Report) (appended : Bool),
      List.Forall₂ (fun (s : stop) (st : station) => station_create tbl w s.code = .ok st)
        prev stations →
      (∀ st ∈ stations, ∀ l ∈ status_lines tbl st train, l.length < 1024) →
      prev_stops_loop tbl w train prev r appended =
        .ok ({ b := r.b ++ (if appended = true ∨
                    stations.flatMap (fun st => status_lines tbl st train) = [] then
                  stations.flatMap (fun st => status_lines tbl st train)
                else positive :: stations.flatMap (fun st => status_lines tbl st train)),
               log := r.log ++ prev.map (fun s => Event.station s.code) },
          appended || !(stations.flatMap (fun st => status_lines tbl st train)).isEmpty) := by
  intro prev stations r appended hst
  induction hst generalizing r appended with
  | nil => intro _; simp [prev_stops_loop]
  | @cons s st prev stations h1 _ ih =>
    intro hfit
    have hfit0 := hfit st (List.mem_cons_self _ _)
    have hfit' := fun st' hs => hfit st' (List.mem_cons_of_mem _ hs)
    simp only [prev_stops_loop, h1, train_append_status_spec tbl st train r.b appended hfit0]
    rw [ih _ _ hfit']
    simp only [List.flatMap_cons]
    cases appended <;>
      cases hA : status_lines tbl st train <;>
      cases hB : List.flatMap stations (fun st => status_lines tbl st train) <;> simp

theorem status_line_second (tbl : StationTable) (c s : Str) :
    (status_line tbl c s)[1]? = some ' ' := rfl

/-- A status line starts with four spaces, so it is neither the header nor the
`No previous stops status` line. -/
theorem status_lines_ne (tbl : StationTable) (st : station) (train : Str) :
    ∀ l ∈ status_lines tbl st train, l ≠ negative ∧ l ≠ positive := by
  intro l hl
  have h2 : l[1]? = some ' ' := by
    simp only [status_lines, List.mem_filterMap] at hl
    obtain ⟨d, _, hd⟩ := hl
    split at hd
    · split at hd
      · split at hd
        · cases hd
        · cases hd; exact status_line_second _ _ _
      · cases hd
    · cases hd
  constructor
  · intro h; rw [h] at h2; revert h2; decide
  · intro h; rw [h] at h2; revert h2; decide

theorem status_lines_eq_nil (tbl : StationTable) (stations : List station) (train : Str) :
    stations.flatMap (fun st => status_lines tbl st train) = [] ↔
      ∀ st ∈ stations, ∀ d ∈ st.deps.list, d.train = train → d.status = none ∨ d.status = some [] := by
  simp only [List.flatMap_eq_nil_iff, status_lines, List.filterMap_eq_nil_iff]
  constructor
  · intro h st hst d hd ht
    have := h st hst d hd
    rw [if_pos ht.symm] at this
    cases hs : d.status with
    | none => exact Or.inl rfl
    | some s =>
      rw [hs] at this
      by_cases he : s = []
      · exact Or.inr (by rw [he])
      · simp [he] at this
  · intro h st hst d hd
    by_cases ht : train = d.train
    · rw [if_pos ht]
      rcases h st hst d hd ht.symm with hs | hs
      · rw [hs]
      · rw [hs]; simp
    · rw [if_neg ht]

/-- The pieces appended for the departure itself hold neither the header nor the
`No previous stops status` line, unless the departure's own status text is one
of them. -/
theorem train_head_count (dep : departure) (head : List Str) (hhead : train_head dep = .ok head) :
    (dep.status ≠ some negative → head.count negative = 0) ∧
    (dep.status ≠ some positive → head.count positive = 0) := by
  have hsharp : '#' ∈ head_line dep := by
    unfold head_line
    exact List.mem_append_left _ (List.mem_append_left _ (List.mem_append_left _
      (List.mem_append_right _ (by decide))))
  have hn : head_line dep ≠ negative := by
    intro h; rw [h] at hsharp; revert hsharp; decide
  have hp : head_line dep ≠ positive := by
    intro h; rw [h] at hsharp; revert hsharp; decide
  have hcases : head = [head_line dep, ".".toList] ∨
      ∃ st, dep.status = some st ∧ head = [head_line dep, " ".toList, st, ".".toList] := by
    unfold train_head snprintf at hhead
    by_cases hl : (head_line dep).length < 1024
    · rw [if_pos hl] at hhead
      cases hs : dep.status with
      | none =>
        rw [hs] at hhead
        simp only [Except.ok.injEq] at hhead
        exact Or.inl hhead.symm
      | some st =>
        rw [hs] at hhead
        by_cases h0 : 0 < st.length
        · simp only [if_pos h0, Except.ok.injEq] at hhead
          exact Or.inr ⟨st, rfl, hhead.symm⟩
        · simp only [if_neg h0, Except.ok.injEq] at hhead
          exact Or.inl hhead.symm
    · rw [if_neg hl] at hhead; cases hhead
  have hdot : ".".toList ≠ negative ∧ ".".toList ≠ positive := by decide
  have hsp : " ".toList ≠ negative ∧ " ".toList ≠ positive := by decide
  rcases hcases with h | ⟨st, hst, h⟩
  · subst h
    constructor
    · intro _
      exact List.count_eq_zero.2 (by
        simp only [List.mem_cons, List.mem_singleton, List.not_mem_nil, or_false, not_or]
        exact ⟨fun h => hn h.symm, fun h => hdot.1 h.symm⟩)
    · intro _
      exact List.count_eq_zero.2 (by
        simp only [List.mem_cons, List.mem_singleton, List.not_mem_nil, or_false, not_or]
        exact ⟨fun h => hp h.symm, fun h => hdot.2 h.symm⟩)
  · subst h
    constructor
    · intro hne
      exact List.count_eq_zero.2 (by
        simp only [List.mem_cons, List.mem_singleton, List.not_mem_nil, or_false, not_or]
        exact ⟨fun h => hn h.symm, fun h => hsp.1 h.symm,
          fun h => hne (by rw [hst, h]), fun h => hdot.1 h.symm⟩)
    · intro hne
      exact List.count_eq_zero.2 (by
        simp only [List.mem_cons, List.mem_singleton, List.not_mem_nil, or_false, not_or]
        exact ⟨fun h => hp h.symm, fun h => hsp.2 h.symm,
          fun h => hne (by rw [hst, h]), fun h => hdot.2 h.symm⟩)

/-- The section of a train whose stops all resolve: a round of the loop of
`departures_get_upcoming` for a departure whose
route is not empty and holds the origin (`stop_find` returns `origin`), every
station after the origin in the reversed route being loaded without error and
every status line fitting the scratch array: the round succeeds, requests
exactly those stations, and appends after the departure's own pieces a tail
that is `[" No previous stops status.\n", "\n"]` when no such station has a
departure with this train identifier and a non-empty status (the line occurs
once, the header never), and otherwise the header ` Previous stops status:`,
the status lines and `"\n"` (the header occurs once, the line never).  The
departure's own pieces hold neither text, unless its own status is one of
them. -/
theorem previous_status_once (tbl : StationTable) (w : World) (from_code dest_code : Str)
    (dep : departure) (r : Report) (route : List stop) (origin : List stop)
    (stations : List station) (head : List Str)
    (hhead : train_head dep = .ok head)
    (hroute : get_prev_stations tbl w from_code dep.train = route) (hne : route ≠ [])
    (horigin : stop_find (reversed route) from_code = .ok (some origin))
    (hst : List.Forall₂ (fun (s : stop) (st : station) => station_create tbl w s.code = .ok st)
      origin.tail stations)
    (hfit : ∀ st ∈ stations, ∀ l ∈ status_lines tbl st dep.train, l.length < 1024) :
    ∃ tail,
      upcoming_train tbl w from_code dest_code dep r =
        .ok ({ b := r.b ++ head ++ tail,
               log := r.log ++ Event.route from_code dep.train ::
                 origin.tail.map (fun s => Event.station s.code) }, true) ∧
      ((∀ st ∈ stations, ∀ d ∈ st.deps.list, d.train = dep.train →
          d.status = none ∨ d.status = some []) →
        tail = [negative, "\n".toList] ∧ tail.count negative = 1 ∧ tail.count positive = 0) ∧
      ((∃ st ∈ stations, ∃ d ∈ st.deps.list, d.train = dep.train ∧
          d.status ≠ none ∧ d.status ≠ some []) →
        tail = positive :: stations.flatMap (fun st => status_lines tbl st dep.train) ++ ["\n".toList] ∧
        tail.count negative = 0 ∧ tail.count positive = 1) ∧
      (dep.status ≠ some negative → head.count negative = 0) ∧
      (dep.status ≠ some positive → head.count positive = 0) := by
  have hempty : route.isEmpty = false := by
    cases route with
    | nil => exact absurd rfl hne
    | cons _ _ => rfl
  have hloop := prev_stops_loop_spec tbl w dep.train origin.tail stations
    { b := r.b ++ head, log := r.log ++ [Event.route from_code dep.train] } false hst hfit
  have hnil := status_lines_eq_nil tbl stations dep.train
  have hne' : ∀ l ∈ stations.flatMap (fun st => status_lines tbl st dep.train),
      l ≠ negative ∧ l ≠ positive := by
    intro l hl
    obtain ⟨st, _, hl'⟩ := List.mem_flatMap.1 hl
    exact status_lines_ne tbl st dep.train l hl'
  have hcn : (stations.flatMap (fun st => status_lines tbl st dep.train)).count negative = 0 :=
    List.count_eq_zero.2 (fun h => (hne' _ h).1 rfl)
  have hcp : (stations.flatMap (fun st => status_lines tbl st dep.train)).count positive = 0 :=
    List.count_eq_zero.2 (fun h => (hne' _ h).2 rfl)
  by_cases hL : stations.flatMap (fun st => status_lines tbl st dep.train) = []
  · refine ⟨[negative, "\n".toList], ?_, ?_, ?_, train_head_count dep head hhead⟩
    · simp only [upcoming_train, hhead, hroute, hempty, horigin, hloop, hL]
      simp
    · intro _; exact ⟨rfl, by decide, by decide⟩
    · rintro ⟨st, hs, d, hd, ht, h1, h2⟩
      rcases hnil.1 hL st hs d hd ht with h | h
      · exact absurd h h1
      · exact absurd h h2
  · refine ⟨positive :: stations.flatMap (fun st => status_lines tbl st dep.train) ++ ["\n".toList],
      ?_, ?_, ?_, train_head_count dep head hhead⟩
    · simp only [upcoming_train, hhead, hroute, hempty, horigin, hloop, hL]
      simp [hL]
    · intro h; exact absurd (hnil.2 h) hL
    · intro _
      refine ⟨rfl, ?_, ?_⟩
      · rw [List.cons_append, List.count_cons, List.count_append, hcn]
        decide
      · rw [List.cons_append, List.count_cons, List.count_append, hcp]
        decide

set_option maxRecDepth 100000 in
/-- C6 (the code at the failing input): the origin's catalog holds four
departures to NY, ranked 1 to 4; the route of the third train comes back empty,
so that round ends at the `continue` and skips the test `if (i > 2) break`; the
loop then fetches the route of the departure of rank 4 and appends its line. -/
theorem cap_skipped_after_empty_route :
    ((station_load ex_tbl ex_origin_doc).toOption.bind (fun deps =>
        (departures_calculate_next deps "NY".toList).toOption)).map
      (fun r => (r.1.list.map (fun d => (d.train, d.next)), r.2)) =
      some ([("T1".toList, 1), ("T2".toList, 2), ("T3".toList, 3), ("T4".toList, 4)], 4) ∧
    get_prev_stations ex_tbl ex_world "HB".toList "T3".toList = [] ∧
    (departures_get_upcoming ex_tbl id ex_world "HB".toList (some "NY".toList)).toOption.map
      (fun u => (u.rc, u.report.log, decide (head_line ex_dep_t4 ∈ u.report.b))) =
      some (0, [Event.station (some "HB".toList),
                Event.route "HB".toList "T1".toList, Event.station (some "SF".toList),
                Event.route "HB".toList "T2".toList, Event.station (some "SF".toList),
                Event.route "HB".toList "T3".toList,
                Event.route "HB".toList "T4".toList, Event.station (some "SF".toList)], true) := by
  decide

set_option maxRecDepth 100000 in
theorem previous_status_once_witness :
    (train_head ex_dep_t1 = .ok [head_line ex_dep_t1, ".".toList] ∧
      get_prev_stations ex_tbl ex_world "HB".toList ex_dep_t1.train = ex_route ∧ ex_route ≠ [] ∧
      stop_find (reversed ex_route) "HB".toList = .ok (some (ex_route.reverse.drop 1)) ∧
      station_create ex_tbl ex_world (some "SF".toList) = .ok ex_sf_station) ∧
    ∃ tail,
      upcoming_train ex_tbl ex_world "HB".toList "NY".toList ex_dep_t1 { b := [], log := [] } =
        .ok ({ b := [] ++ [head_line ex_dep_t1, ".".toList] ++ tail,
               log := [] ++ Event.route "HB".toList ex_dep_t1.train ::
                 (ex_route.reverse.drop 1).tail.map (fun s => Event.station s.code) }, true) ∧
      tail = positive :: [ex_sf_station].flatMap (fun st => status_lines ex_tbl st ex_dep_t1.train) ++
        ["\n".toList] ∧
      tail.count negative = 0 ∧ tail.count positive = 1 :=
  have h1 : train_head ex_dep_t1 = .ok [head_line ex_dep_t1, ".".toList] := rfl
  have h2 : get_prev_stations ex_tbl ex_world "HB".toList ex_dep_t1.train = ex_route := by decide
  have h3 : ex_route ≠ [] := by decide
  have h4 : stop_find (reversed ex_route) "HB".toList = .ok (some (ex_route.reverse.drop 1)) := rfl
  have h5 : station_create ex_tbl ex_world (some "SF".toList) = .ok ex_sf_station := by rfl
  ⟨⟨h1, h2, h3, h4, h5⟩, by
    obtain ⟨tail, ht, _, hb, _⟩ := previous_status_once ex_tbl ex_world "HB".toList "NY".toList
      ex_dep_t1 { b := [], log := [] } ex_route (ex_route.reverse.drop 1) [ex_sf_station]
      [head_line ex_dep_t1, ".".toList] h1 h2 h3 h4 (List.Forall₂.cons h5 List.Forall₂.nil)
      (by decide)
    exact ⟨tail, ht, hb ⟨ex_sf_station, by decide, by decide⟩⟩⟩

/-! ## Document memory: reading and writing -/

theorem peek_cons_succ (c : Char) (m : Mem) (i : Nat) : peek (c :: m) (i + 1) = peek m i := by
  simp [peek, List.getD]

theorem peek_cons_zero (c : Char) (m : Mem) : peek (c :: m) 0 = c := by
  simp [peek, List.getD]

theorem peek_nil (i : Nat) : peek [] i = NUL := by
  simp [peek, List.getD]

/-- The C string at `i` is empty when the byte at `i` is NUL, and otherwise that
byte followed by the C string at `i + 1`. -/
theorem cstr_unfold (m : Mem) (i : Nat) :
    cstr m i = if peek m i = NUL then [] else peek m i :: cstr m (i + 1) := by
  unfold cstr
  induction m generalizing i with
  | nil => simp [peek_nil]
  | cons c cs ih =>
    cases i with
    | zero =>
      simp only [List.drop_zero, peek_cons_zero, List.drop_succ_cons]
      by_cases h : c = NUL
      · simp [h, List.takeWhile_cons]
      · simp [h, List.takeWhile_cons]
    | succ i =>
      simp only [List.drop_succ_cons, peek_cons_succ]
      exact ih i

/-- A C string depends only on the bytes up to its first NUL: a memory that
agrees with `m` from `d` to a NUL of `m` holds the same string at `d`. -/
theorem cstr_frame (m m' : Mem) :
    ∀ (n d : Nat), peek m (d + n) = NUL → (∀ i, d ≤ i → i ≤ d + n → peek m' i = peek m i) →
      cstr m' d = cstr m d := by
  intro n
  induction n with
  | zero =>
    intro d hnul hag
    rw [Nat.add_zero] at hnul
    have h' : peek m' d = NUL := by rw [hag d (le_refl _) (le_refl _)]; exact hnul
    rw [cstr_unfold m d, cstr_unfold m' d, if_pos hnul, if_pos h']
  | succ n ih =>
    intro d hnul hag
    rw [cstr_unfold m d, cstr_unfold m' d, hag d (le_refl _) (by omega)]
    have := ih (d + 1) (by rw [← hnul]; congr 1; omega)
      (fun i h1 h2 => hag i (by omega) (by omega))
    rw [this]

/-- The byte after the C string at `d` is NUL. -/
theorem cstr_length_nul (m : Mem) (d : Nat) : peek m (d + strlen m d) = NUL := by
  unfold strlen cstr peek
  induction m generalizing d with
  | nil => simp [List.getD]
  | cons c cs ih =>
    cases d with
    | zero =>
      simp only [List.drop_zero, Nat.zero_add]
      by_cases h : c = NUL
      · simp [h, List.takeWhile_cons, List.getD]
      · have := ih 0
        simp only [List.drop_zero, Nat.zero_add] at this
        simp [h, List.takeWhile_cons, List.getD] at this ⊢
        exact this
    | succ d =>
      have := ih d
      simp only [List.drop_succ_cons]
      rw [show d + 1 + (List.takeWhile (fun c => c != NUL) (List.drop d cs)).length
        = (d + (List.takeWhile (fun c => c != NUL) (List.drop d cs)).length) + 1 by omega]
      simpa [List.getD] using this

theorem cstr_no_nul (m : Mem) (d : Nat) : ∀ c ∈ cstr m d, c ≠ NUL := by
  intro c hc
  unfold cstr at hc
  have := List.mem_takeWhile_imp hc
  simpa using this

theorem peek_poke (m : Mem) (i j : Nat) (c : Char) :
    peek (poke m i c) j = if i = j ∧ j < m.length then c else peek m j := by
  unfold peek poke
  simp only [List.getD, List.getElem?_set]
  by_cases h : i = j
  · subst h
    by_cases hl : i < m.length
    · simp [hl]
    · have h1 : (m.set i c)[i]? = none := List.getElem?_eq_none (by simp; omega)
      simp [hl, List.getElem?_eq_none (Nat.le_of_not_lt hl), h1]
  · simp [h]

theorem poke_length (m : Mem) (i : Nat) (c : Char) : (poke m i c).length = m.length := by
  simp [poke]

theorem peek_poke_nul (m : Mem) (i j : Nat) :
    peek (poke m i NUL) j = if i = j then NUL else peek m j := by
  rw [peek_poke]
  by_cases h : i = j
  · subst h
    by_cases hl : i < m.length
    · simp [hl]
    · simp [hl, peek, List.getD, List.getElem?_eq_none (Nat.le_of_not_lt hl)]
  · simp [h]

/-- The bytes after writing `s` at `i`, when `s` fits in the memory. -/
theorem peek_write_bytes (s : Str) :
    ∀ (m : Mem) (i j : Nat), i + s.length ≤ m.length →
      peek (write_bytes m i s) j =
        if i ≤ j ∧ j < i + s.length then s.getD (j - i) NUL else peek m j := by
  induction s with
  | nil =>
    intro m i j _
    simp only [write_bytes, List.length_nil, Nat.add_zero]
    rw [if_neg (by omega)]
  | cons c cs ih =>
    intro m i j hlen
    simp only [List.length_cons] at hlen
    simp only [write_bytes]
    rw [ih (poke m i c) (i + 1) j (by rw [poke_length]; omega)]
    by_cases h1 : i + 1 ≤ j ∧ j < i + 1 + cs.length
    · rw [if_pos h1, if_pos (by simp only [List.length_cons]; omega)]
      have : j - i = (j - (i + 1)) + 1 := by omega
      rw [this]; simp [List.getD]
    · rw [if_neg h1, peek_poke]
      by_cases h2 : i = j
      · subst h2
        rw [if_pos ⟨rfl, by omega⟩, if_pos (by simp only [List.length_cons]; omega)]
        simp [List.getD]
      · rw [if_neg (by tauto), if_neg (by simp only [List.length_cons]; omega)]

/-- The search `find_sub` succeeds exactly when the needle occurs in the text. -/
theorem find_sub_isSome (needle : Str) :
    ∀ hay : Str, (find_sub needle hay).isSome = true ↔ needle <:+: hay := by
  intro hay
  induction hay with
  | nil =>
    by_cases h : needle = []
    · simp [find_sub, h]
    · simp [find_sub, h]
  | cons c cs ih =>
    rw [List.infix_cons_iff]
    by_cases hp : needle.isPrefixOf (c :: cs) = true
    · simp only [find_sub, hp, if_true, Option.isSome_some, true_iff]
      exact Or.inl (List.isPrefixOf_iff_prefix.1 hp)
    · have hp' : needle.isPrefixOf (c :: cs) = false := Bool.eq_false_iff.2 hp
      have hm : ((find_sub needle cs).map (fun k => k + 1)).isSome = (find_sub needle cs).isSome := by
        cases find_sub needle cs <;> rfl
      simp only [find_sub, hp', Bool.false_eq_true, if_false, hm]
      rw [ih]
      constructor
      · intro h; exact Or.inr h
      · rintro (h | h)
        · exact absurd (List.isPrefixOf_iff_prefix.2 h) hp
        · exact h

theorem cstr_length_le (m : Mem) (d : Nat) : d + strlen m d ≤ m.length ∨ strlen m d = 0 := by
  unfold strlen cstr
  by_cases h : d ≤ m.length
  · left
    have := (List.takeWhile_prefix (fun c => c != NUL) (l := m.drop d)).length_le
    simp only [List.length_drop] at this
    omega
  · right
    simp [List.drop_eq_nil_of_le (Nat.le_of_not_le h)]

/-- After `strcpy(&m[d + k], s)`, where the first `k` bytes of the string at `d`
are `P` and `s` with its NUL ends inside that string, the string at `d` is
`P ++ s`. -/
theorem cstr_strcpy (m : Mem) (d : Nat) (P s : Str) (hP : P <+: cstr m d)
    (hs : ∀ c ∈ s, c ≠ NUL) (hfit : P.length + s.length + 1 ≤ strlen m d) :
    cstr (strcpy m (d + P.length) s) d = P ++ s := by
  have hnoP : ∀ c ∈ P, c ≠ NUL := fun c hc => cstr_no_nul m d c (hP.subset hc)
  have hlen : d + P.length + (s ++ [NUL]).length ≤ m.length := by
    simp only [List.length_append, List.length_singleton]
    rcases cstr_length_le m d with h | h
    · omega
    · omega
  have hpk : ∀ j, peek (strcpy m (d + P.length) s) j =
      if d + P.length ≤ j ∧ j < d + P.length + (s ++ [NUL]).length then
        (s ++ [NUL]).getD (j - (d + P.length)) NUL else peek m j :=
    fun j => peek_write_bytes (s ++ [NUL]) m (d + P.length) j hlen
  have hPm : ∀ k, k < P.length → peek m (d + k) = P.getD k NUL := by
    intro k hk
    obtain ⟨t, ht⟩ := hP
    have h1 : (m.drop d).takeWhile (fun c => c != NUL) = P ++ t := ht.symm
    have h2 := List.takeWhile_prefix (fun c => c != NUL) (l := m.drop d)
    obtain ⟨u, hu⟩ := h2
    rw [h1] at hu
    have h3 : m[d + k]? = (m.drop d)[k]? := by rw [List.getElem?_drop]
    simp only [peek, List.getD_eq_getElem?_getD, h3, ← hu, List.append_assoc]
    rw [List.getElem?_append_left hk]
  -- read the new string byte by byte
  have key : ∀ (n : Nat) (Q R : Str), Q ++ R = P ++ s → n = R.length →
      cstr (strcpy m (d + P.length) s) (d + Q.length) = R := by
    intro n
    induction n with
    | zero =>
      intro Q R hQR hn
      have hR : R = [] := List.length_eq_zero.1 hn.symm
      subst hR
      simp only [List.append_nil] at hQR
      subst hQR
      have hcond : d + P.length ≤ d + (P ++ s).length ∧
          d + (P ++ s).length < d + P.length + (s ++ [NUL]).length := by
        simp only [List.length_append, List.length_singleton]; omega
      have hval : (s ++ [NUL]).getD (d + (P ++ s).length - (d + P.length)) NUL = NUL := by
        have : d + (P ++ s).length - (d + P.length) = s.length := by
          simp only [List.length_append]; omega
        rw [this]
        simp
      rw [cstr_unfold, hpk, if_pos hcond, hval, if_pos rfl]
    | succ n ih =>
      intro Q R hQR hn
      cases R with
      | nil => simp at hn
      | cons c R' =>
        have hc : (P ++ s)[Q.length]? = some c := by
          rw [← hQR, List.getElem?_append_right (le_refl _)]; simp
        have hcne : c ≠ NUL := by
          have : c ∈ P ++ s := by rw [← hQR]; simp
          rcases List.mem_append.1 this with h | h
          · exact hnoP c h
          · exact hs c h
        have hQlen : Q.length < P.length + s.length := by
          have := congrArg List.length hQR
          simp only [List.length_append, List.length_cons] at this
          omega
        have hpeek : peek (strcpy m (d + P.length) s) (d + Q.length) = c := by
          rw [hpk]
          by_cases hq : P.length ≤ Q.length
          · have hcond : d + P.length ≤ d + Q.length ∧
                d + Q.length < d + P.length + (s ++ [NUL]).length := by
              simp only [List.length_append, List.length_singleton]; omega
            have e1 : d + Q.length - (d + P.length) = Q.length - P.length := by omega
            rw [if_pos hcond, e1]
            rw [List.getElem?_append_right hq] at hc
            simp only [List.getD_eq_getElem?_getD]
            rw [List.getElem?_append_left (by omega), hc]; rfl
          · have hcond : ¬ (d + P.length ≤ d + Q.length ∧
                d + Q.length < d + P.length + (s ++ [NUL]).length) := by omega
            rw [if_neg hcond, hPm _ (by omega)]
            rw [List.getElem?_append_left (by omega)] at hc
            simp only [List.getD_eq_getElem?_getD, hc]; rfl
        rw [cstr_unfold, hpeek, if_neg hcne]
        have := ih (Q ++ [c]) R' (by simpa using hQR) (by simpa using hn)
        simp only [List.length_append, List.length_singleton] at this
        rw [← Nat.add_assoc] at this
        rw [this]
  have := key (P ++ s).length [] (P ++ s) (by simp) rfl
  simpa using this


/-- Lines 159-162 on a destination `P ++ "&nbsp;-"`: the string becomes
`P ++ " (SEC)"`. -/
theorem parse_tr_destination_marker (m : Mem) (d : Nat) (P : Str)
    (h : cstr m d = P ++ "&nbsp;-".toList) :
    cstr (parse_tr_destination m d) d = P ++ " (SEC)".toList := by
  have hfound : (strstr m d "&nbsp;-".toList).isSome = true := by
    unfold strstr
    rw [Option.isSome_map', find_sub_isSome, h]
    exact ⟨P, [], by simp⟩
  have hlen : strlen m d = P.length + 7 := by
    unfold strlen; rw [h, List.length_append]; rfl
  unfold parse_tr_destination
  rw [if_pos hfound, hlen, Nat.add_sub_cancel]
  exact cstr_strcpy m d P " (SEC)".toList (by rw [h]; exact List.prefix_append _ _)
    (by decide) (by rw [hlen]; show P.length + 6 + 1 ≤ P.length + 7; omega)

/-- Lines 159-162 on a destination without the marker: the memory is unchanged. -/
theorem parse_tr_destination_plain (m : Mem) (d : Nat)
    (h : ¬ "&nbsp;-".toList <:+: cstr m d) : parse_tr_destination m d = m := by
  have hnot : (strstr m d "&nbsp;-".toList).isSome = false := by
    unfold strstr
    rw [Option.isSome_map']
    cases hf : (find_sub "&nbsp;-".toList (cstr m d)).isSome with
    | false => rfl
    | true => exact absurd ((find_sub_isSome _ _).1 hf) h
  unfold parse_tr_destination
  rw [hnot]; rfl
theorem peek_eq (m : Mem) (i : Nat) : peek m i = (m[i]?).getD NUL := by
  simp [peek]

theorem peek_write_bytes_lt (s : Str) :
    ∀ (m : Mem) (i j : Nat), j < i → peek (write_bytes m i s) j = peek m j := by
  induction s with
  | nil => intro m i j _; rfl
  | cons c cs ih =>
    intro m i j h
    simp only [write_bytes]
    rw [ih _ _ _ (by omega), peek_poke, if_neg (by omega)]

theorem strlen_le_of_nul (m : Mem) : ∀ (n d : Nat), peek m (d + n) = NUL → strlen m d ≤ n := by
  intro n
  induction n with
  | zero =>
    intro d h
    rw [Nat.add_zero] at h
    unfold strlen
    rw [cstr_unfold, if_pos h]; simp
  | succ n ih =>
    intro d h
    unfold strlen
    rw [cstr_unfold]
    by_cases h0 : peek m d = NUL
    · rw [if_pos h0]; simp
    · rw [if_neg h0]
      have := ih (d + 1) (by rw [← h]; congr 1; omega)
      unfold strlen at this
      simp only [List.length_cons]; omega

theorem find_sub_bound (needle : Str) :
    ∀ (hay : Str) (k : Nat), find_sub needle hay = some k → k + needle.length ≤ hay.length := by
  intro hay
  induction hay with
  | nil =>
    intro k h
    by_cases hn : needle = []
    · simp [find_sub, hn] at h; subst h; simp [hn]
    · simp [find_sub, hn] at h
  | cons c cs ih =>
    intro k h
    by_cases hp : needle.isPrefixOf (c :: cs) = true
    · simp only [find_sub, hp, if_true, Option.some.injEq] at h
      subst h
      have := (List.isPrefixOf_iff_prefix.1 hp).length_le
      omega
    · have hp' : needle.isPrefixOf (c :: cs) = false := Bool.eq_false_iff.2 hp
      simp only [find_sub, hp', Bool.false_eq_true, if_false] at h
      cases hf : find_sub needle cs with
      | none => rw [hf] at h; cases h
      | some k' =>
        rw [hf] at h
        simp only [Option.map_some', Option.some.injEq] at h
        subst h
        have := ih k' hf
        simp only [List.length_cons]; omega

theorem find_sub_at (needle : Str) :
    ∀ (hay : Str) (k : Nat), find_sub needle hay = some k → needle <+: hay.drop k := by
  intro hay
  induction hay with
  | nil =>
    intro k h
    by_cases hn : needle = []
    · simp [hn]
    · simp [find_sub, hn] at h
  | cons c cs ih =>
    intro k h
    by_cases hp : needle.isPrefixOf (c :: cs) = true
    · simp only [find_sub, hp, if_true, Option.some.injEq] at h
      subst h
      exact List.isPrefixOf_iff_prefix.1 hp
    · have hp' : needle.isPrefixOf (c :: cs) = false := Bool.eq_false_iff.2 hp
      simp only [find_sub, hp', Bool.false_eq_true, if_false] at h
      cases hf : find_sub needle cs with
      | none => rw [hf] at h; cases h
      | some k' =>
        rw [hf] at h
        simp only [Option.map_some', Option.some.injEq] at h
        subst h
        exact ih k' hf

/-- A match of `<tag[^>]*>` lies inside the subject, is at least
`tag.length + 2` bytes long, and ends with `>`. -/
theorem find_open_spec (tag : Str) :
    ∀ (subj : Str) (a b : Nat), find_open tag subj = some (a, b) →
      a + tag.length + 2 ≤ b ∧ b ≤ subj.length ∧ subj[b - 1]? = some '>' := by
  intro subj
  induction subj with
  | nil => intro a b h; simp [find_open] at h
  | cons c cs ih =>
    intro a b h
    have hrec : ∀ a b, (find_open tag cs).map (fun r => (r.1 + 1, r.2 + 1)) = some (a, b) →
        a + tag.length + 2 ≤ b ∧ b ≤ (c :: cs).length ∧ (c :: cs)[b - 1]? = some '>' := by
      intro a b h
      cases hf : find_open tag cs with
      | none => rw [hf] at h; cases h
      | some r =>
        obtain ⟨a', b'⟩ := r
        rw [hf] at h
        simp only [Option.map_some', Option.some.injEq, Prod.mk.injEq] at h
        obtain ⟨rfl, rfl⟩ := h
        obtain ⟨h1, h2, h3⟩ := ih a' b' hf
        refine ⟨by omega, by simp only [List.length_cons]; omega, ?_⟩
        have : b' + 1 - 1 = (b' - 1) + 1 := by omega
        rw [this, List.getElem?_cons_succ]; exact h3
    by_cases hp : ('<' :: tag).isPrefixOf (c :: cs) = true
    · simp only [find_open, hp, if_true] at h
      cases hf : find_sub ['>'] ((c :: cs).drop (tag.length + 1)) with
      | none => rw [hf] at h; exact hrec a b h
      | some j =>
        rw [hf] at h
        simp only [Option.some.injEq, Prod.mk.injEq] at h
        obtain ⟨rfl, rfl⟩ := h
        have hb := find_sub_bound _ _ _ hf
        have hat := find_sub_at _ _ _ hf
        simp only [List.length_drop, List.length_singleton] at hb
        refine ⟨by omega, by omega, ?_⟩
        rw [List.drop_drop] at hat
        obtain ⟨t, ht⟩ := hat
        have h1 : ((c :: cs).drop (tag.length + 1 + j))[0]? = some '>' := by
          rw [← ht]; simp
        rw [List.getElem?_drop] at h1
        have : tag.length + 1 + j + 1 - 1 = tag.length + 1 + j + 0 := by omega
        rw [this]; exact h1
    · have hp' : ('<' :: tag).isPrefixOf (c :: cs) = false := Bool.eq_false_iff.2 hp
      simp only [find_open, hp', Bool.false_eq_true, if_false] at h
      exact hrec a b h

theorem find_lit_spec (lit subj : Str) (a b : Nat) (h : find_lit lit subj = some (a, b)) :
    b = a + lit.length ∧ b ≤ subj.length := by
  unfold find_lit at h
  cases hf : find_sub lit subj with
  | none => rw [hf] at h; cases h
  | some k =>
    rw [hf] at h
    simp only [Option.map_some', Option.some.injEq, Prod.mk.injEq] at h
    obtain ⟨rfl, rfl⟩ := h
    exact ⟨rfl, find_sub_bound _ _ _ hf⟩

theorem regexec_open_spec (tag : Str) (m : Mem) (text so eo a b : Nat)
    (h : regexec (find_open tag) m text so eo = some (a, b)) :
    so + tag.length + 2 ≤ b ∧ b ≤ so + (eo - so) ∧ peek m (text + (b - 1)) = '>' := by
  unfold regexec at h
  cases hf : find_open tag ((m.drop (text + so)).take (eo - so)) with
  | none => rw [hf] at h; cases h
  | some r =>
    obtain ⟨a', b'⟩ := r
    rw [hf] at h
    simp only [Option.map_some', Option.some.injEq, Prod.mk.injEq] at h
    obtain ⟨rfl, rfl⟩ := h
    obtain ⟨h1, h2, h3⟩ := find_open_spec tag _ a' b' hf
    have hlen : ((m.drop (text + so)).take (eo - so)).length ≤ eo - so := by
      simp [List.length_take]
    refine ⟨by omega, by omega, ?_⟩
    have hb : b' - 1 < eo - so := by omega
    rw [List.getElem?_take_of_lt hb, List.getElem?_drop] at h3
    rw [peek_eq]
    have : text + (so + b' - 1) = text + so + (b' - 1) := by omega
    rw [this, h3]; rfl

theorem regexec_lit_spec (lit : Str) (m : Mem) (text so eo a b : Nat)
    (h : regexec (find_lit lit) m text so eo = some (a, b)) :
    so ≤ a ∧ b = a + lit.length ∧ b ≤ so + (eo - so) := by
  unfold regexec at h
  cases hf : find_lit lit ((m.drop (text + so)).take (eo - so)) with
  | none => rw [hf] at h; cases h
  | some r =>
    obtain ⟨a', b'⟩ := r
    rw [hf] at h
    simp only [Option.map_some', Option.some.injEq, Prod.mk.injEq] at h
    obtain ⟨rfl, rfl⟩ := h
    obtain ⟨h1, h2⟩ := find_lit_spec lit _ a' b' hf
    have hlen : ((m.drop (text + so)).take (eo - so)).length ≤ eo - so := by
      simp [List.length_take]
    exact ⟨by omega, by omega, by omega⟩

/-- The loop over leading white space moves `sbeg` forward, and not past a
byte that is not white space. -/
theorem skip_space_spec :
    ∀ (l : List Char) (sbeg mlen : Nat),
      sbeg ≤ (skip_space l sbeg mlen).1 ∧ (skip_space l sbeg mlen).1 ≤ sbeg + l.length ∧
      ∀ (k : Nat) (c : Char), l[k]? = some c → isspace c = false →
        (skip_space l sbeg mlen).1 ≤ sbeg + k := by
  intro l
  induction l with
  | nil => intro sbeg mlen; simp [skip_space]
  | cons c cs ih =>
    intro sbeg mlen
    by_cases hc : isspace c = true
    · simp only [skip_space, hc, if_true]
      obtain ⟨h1, h2, h3⟩ := ih (sbeg + 1) (size_dec mlen)
      refine ⟨by omega, by simp only [List.length_cons]; omega, ?_⟩
      intro k x hk hx
      cases k with
      | zero =>
        simp only [List.getElem?_cons_zero, Option.some.injEq] at hk
        subst hk; rw [hc] at hx; cases hx
      | succ k =>
        rw [List.getElem?_cons_succ] at hk
        have := h3 k x hk hx
        omega
    · have hc' : isspace c = false := Bool.eq_false_iff.2 hc
      simp only [skip_space, hc', Bool.false_eq_true, if_false]
      exact ⟨le_refl _, by omega, fun k x _ _ => by omega⟩

theorem trim_end_zero (m : Mem) (mlen : Nat) : trim_end 0 m mlen =
    if isspace (peek m 0) || peek m 0 == '<' then (poke m 0 NUL, size_dec mlen) else (m, mlen) := by
  rw [trim_end]

theorem trim_end_succ (p : Nat) (m : Mem) (mlen : Nat) : trim_end (p + 1) m mlen =
    if isspace (peek m (p + 1)) || peek m (p + 1) == '<' then
      trim_end p (poke m (p + 1) NUL) (size_dec mlen)
    else (m, mlen) := by
  rw [trim_end]

/-- The end trim changes no byte above its starting point. -/
theorem trim_end_high : ∀ (p : Nat) (m : Mem) (mlen i : Nat), p < i →
    peek (trim_end p m mlen).1 i = peek m i := by
  intro p
  induction p with
  | zero =>
    intro m mlen i hi
    rw [trim_end_zero]
    by_cases hc : (isspace (peek m 0) || peek m 0 == '<') = true
    · rw [if_pos hc]
      show peek (poke m 0 NUL) i = peek m i
      rw [peek_poke_nul, if_neg (by omega)]
    · rw [if_neg hc]
  | succ p ih =>
    intro m mlen i hi
    rw [trim_end_succ]
    by_cases hc : (isspace (peek m (p + 1)) || peek m (p + 1) == '<') = true
    · rw [if_pos hc, ih _ _ _ (by omega), peek_poke_nul, if_neg (by omega)]
    · rw [if_neg hc]

/-- The end trim changes no byte at or below a byte that is neither white space
nor `<`. -/
theorem trim_end_low : ∀ (p : Nat) (m : Mem) (mlen q : Nat), q ≤ p →
    (isspace (peek m q) || peek m q == '<') = false →
    ∀ i, i ≤ q → peek (trim_end p m mlen).1 i = peek m i := by
  intro p
  induction p with
  | zero =>
    intro m mlen q hq hstop i hi
    have : q = 0 := by omega
    subst this
    rw [trim_end_zero, hstop]; rfl
  | succ p ih =>
    intro m mlen q hq hstop i hi
    rw [trim_end_succ]
    by_cases hc : (isspace (peek m (p + 1)) || peek m (p + 1) == '<') = true
    · have hne : q ≠ p + 1 := by
        intro h; subst h; rw [hstop] at hc; cases hc
      have hpk : peek (poke m (p + 1) NUL) q = peek m q := by
        rw [peek_poke_nul, if_neg (by omega)]
      rw [if_pos hc, ih (poke m (p + 1) NUL) _ q (by omega) (by rw [hpk]; exact hstop) i hi,
        peek_poke_nul, if_neg (by omega)]
    · rw [if_neg hc]

/-- The end trim only writes NUL bytes. -/
theorem trim_end_nul : ∀ (p : Nat) (m : Mem) (mlen i : Nat), peek m i = NUL →
    peek (trim_end p m mlen).1 i = NUL := by
  intro p
  induction p with
  | zero =>
    intro m mlen i hi
    rw [trim_end_zero]
    by_cases hc : (isspace (peek m 0) || peek m 0 == '<') = true
    · rw [if_pos hc]
      show peek (poke m 0 NUL) i = NUL
      rw [peek_poke_nul]; split
      · rfl
      · exact hi
    · rw [if_neg hc]; exact hi
  | succ p ih =>
    intro m mlen i hi
    rw [trim_end_succ]
    by_cases hc : (isspace (peek m (p + 1)) || peek m (p + 1) == '<') = true
    · rw [if_pos hc]
      apply ih
      rw [peek_poke_nul]; split
      · rfl
      · exact hi
    · rw [if_neg hc]; exact hi

/-- The function `trscanner_next` with its local variables spelled out. -/
theorem trscanner_next_eq (m : Mem) (s : trscanner) :
    trscanner_next m s =
      match regexec (find_open ['t', 'd']) m s.text s.m1.1 s.m1.2 with
      | none => none
      | some m1 =>
        match regexec (find_lit ['<', '/', 't', 'd', '>']) m s.text m1.2 s.len with
        | none => none
        | some m2 =>
          some ((trim_end
              (match strchr (poke m (s.text + m2.1) NUL)
                  (skip_space ((poke m (s.text + m2.1) NUL).drop (s.text + m1.2)) (s.text + m1.2)
                    ((m2.1 - m1.2) % 2 ^ 64)).1 '<' with
                | some p => p
                | none => s.text + m2.1)
              (poke m (s.text + m2.1) NUL)
              (skip_space ((poke m (s.text + m2.1) NUL).drop (s.text + m1.2)) (s.text + m1.2)
                ((m2.1 - m1.2) % 2 ^ 64)).2).1,
            { s with
              m1 := (m2.2, s.len), m2 := m2,
              sbeg := (skip_space ((poke m (s.text + m2.1) NUL).drop (s.text + m1.2)) (s.text + m1.2)
                ((m2.1 - m1.2) % 2 ^ 64)).1,
              send := s.text + m2.1,
              mlen := (trim_end
                (match strchr (poke m (s.text + m2.1) NUL)
                    (skip_space ((poke m (s.text + m2.1) NUL).drop (s.text + m1.2)) (s.text + m1.2)
                      ((m2.1 - m1.2) % 2 ^ 64)).1 '<' with
                  | some p => p
                  | none => s.text + m2.1)
                (poke m (s.text + m2.1) NUL)
                (skip_space ((poke m (s.text + m2.1) NUL).drop (s.text + m1.2)) (s.text + m1.2)
                  ((m2.1 - m1.2) % 2 ^ 64)).2).2 }) := by
  unfold trscanner_next
  rfl

theorem strchr_bound (m : Mem) (i : Nat) (c : Char) (p : Nat) (h : strchr m i c = some p) :
    i ≤ p ∧ p < i + strlen m i := by
  unfold strchr at h
  cases hf : find_sub [c] (cstr m i) with
  | none => rw [hf] at h; cases h
  | some k =>
    rw [hf] at h
    simp only [Option.map_some', Option.some.injEq] at h
    subst h
    have := find_sub_bound _ _ _ hf
    simp only [List.length_singleton] at this
    unfold strlen
    omega

/-- What a successful `trscanner_next` does to the memory and the cursor: the
slice lies after the open tag and ends at `send`, where a NUL now stands; the
cursor moves to five bytes after `send`; no byte before the end of the open tag
and no byte after `send` is changed. -/
theorem trscanner_next_spec (m : Mem) (s : trscanner) (m' : Mem) (s' : trscanner)
    (h : trscanner_next m s = some (m', s')) :
    s'.text = s.text ∧ s'.len = s.len ∧ s'.m1.2 = s.len ∧
    s.text + s.m1.1 + 4 ≤ s'.sbeg ∧ s'.sbeg ≤ s'.send ∧ s'.send + 5 = s.text + s'.m1.1 ∧
    peek m' s'.send = NUL ∧
    (∀ i, i < s.text + s.m1.1 + 4 → peek m' i = peek m i) ∧
    (∀ i, s'.send < i → peek m' i = peek m i) := by
  rw [trscanner_next_eq] at h
  cases h1 : regexec (find_open ['t', 'd']) m s.text s.m1.1 s.m1.2 with
  | none => rw [h1] at h; cases h
  | some r1 =>
    obtain ⟨a1, b1⟩ := r1
    rw [h1] at h
    simp only at h
    cases h2 : regexec (find_lit ['<', '/', 't', 'd', '>']) m s.text b1 s.len with
    | none => rw [h2] at h; cases h
    | some r2 =>
      obtain ⟨a2, b2⟩ := r2
      rw [h2] at h
      simp only [Option.some.injEq, Prod.mk.injEq] at h
      obtain ⟨hm, hs⟩ := h
      obtain ⟨ho1, _, ho3⟩ := regexec_open_spec _ _ _ _ _ _ _ h1
      obtain ⟨hl1, hl2, _⟩ := regexec_lit_spec _ _ _ _ _ _ _ h2
      simp only [List.length_cons, List.length_nil] at ho1 hl2
      -- the memory after `*send = 0`
      generalize hmp : poke m (s.text + a2) NUL = mp at hm hs
      have hmpk : ∀ i, peek mp i = if s.text + a2 = i then NUL else peek m i := by
        intro i; rw [← hmp]; exact peek_poke_nul m _ i
      have hsendnul : peek mp (s.text + a2) = NUL := by rw [hmpk, if_pos rfl]
      -- the start of the slice after the leading space
      generalize hsb : (skip_space (mp.drop (s.text + b1)) (s.text + b1) ((a2 - b1) % 2 ^ 64)) = sk
        at hm hs
      obtain ⟨hk1, hk2, hk3⟩ := skip_space_spec (mp.drop (s.text + b1)) (s.text + b1)
        ((a2 - b1) % 2 ^ 64)
      rw [hsb] at hk1 hk2 hk3
      have hsk : sk.1 ≤ s.text + a2 := by
        by_cases hin : s.text + a2 < mp.length
        · have hget : (mp.drop (s.text + b1))[a2 - b1]? = some NUL := by
            rw [List.getElem?_drop]
            have e : s.text + b1 + (a2 - b1) = s.text + a2 := by omega
            rw [e]
            have := hsendnul
            rw [peek_eq] at this
            rw [List.getElem?_eq_getElem hin] at this ⊢
            simpa using this
          have := hk3 (a2 - b1) NUL hget (by decide)
          omega
        · simp only [List.length_drop] at hk2
          omega
      -- the starting point of the end trim
      generalize hp : (match strchr mp sk.1 '<' with
        | some p => p
        | none => s.text + a2) = p at hm hs
      have hp1 : sk.1 ≤ p ∧ p ≤ s.text + a2 := by
        cases hc : strchr mp sk.1 '<' with
        | none =>
          rw [hc] at hp
          have hp' : s.text + a2 = p := hp
          omega
        | some p' =>
          rw [hc] at hp
          have hp' : p' = p := hp
          subst hp'
          obtain ⟨hb1, hb2⟩ := strchr_bound _ _ _ _ hc
          have := strlen_le_of_nul mp (s.text + a2 - sk.1) sk.1
            (by rw [show sk.1 + (s.text + a2 - sk.1) = s.text + a2 by omega]; exact hsendnul)
          omega
      have hgt : peek mp (s.text + (b1 - 1)) = '>' := by
        rw [hmpk, if_neg (by omega)]; exact ho3
      have hstop : (isspace (peek mp (s.text + (b1 - 1))) || peek mp (s.text + (b1 - 1)) == '<')
          = false := by rw [hgt]; decide
      subst hm
      subst hs
      refine ⟨rfl, rfl, rfl, ?_, ?_, ?_, ?_, ?_, ?_⟩
      · show s.text + s.m1.1 + 4 ≤ sk.1
        omega
      · show sk.1 ≤ s.text + a2
        exact hsk
      · show s.text + a2 + 5 = s.text + b2
        omega
      · show peek (trim_end p mp sk.2).1 (s.text + a2) = NUL
        exact trim_end_nul _ _ _ _ hsendnul
      · intro i hi
        rw [trim_end_low p mp sk.2 (s.text + (b1 - 1)) (by omega) hstop i (by omega), hmpk,
          if_neg (by omega)]
      · intro i hi
        have hi' : s.text + a2 < i := hi
        rw [trim_end_high p mp sk.2 i (by omega), hmpk, if_neg (by omega)]

/-! ## Row decoding -/

theorem parse_tr_track_frame (m : Mem) (t i : Nat) (h : i < t) :
    peek (parse_tr_track m t) i = peek m i := by
  unfold parse_tr_track
  split
  · exact peek_write_bytes_lt _ _ _ _ h
  · rfl

/-- C9: for a row that `parse_tr` decodes (no colspan marker, a first cell that
is not the header, a second cell whose slice is the text `D` at `s2.sbeg`, and a
successful return), the appended departure's destination pointer is that slice,
and the string it designates when `parse_tr` returns is `P ++ " (SEC)"` if
`D = P ++ "&nbsp;-"`, and `D` itself if `D` does not contain `&nbsp;-`. -/
theorem destination_normalized (tbl : StationTable) (m : Mem) (text len : Nat)
    (deps : departures_ptr) (last_added : Option Nat)
    (m1 : Mem) (s1 : trscanner) (m2 : Mem) (s2 : trscanner)
    (m' : Mem) (deps' : departures_ptr) (la' : Option Nat)
    (hcol : (strstr m text "<td colspan=".toList).isSome = false)
    (h1 : trscanner_next m (trscanner_create text len) = some (m1, s1))
    (hhdr : "DEP".toList.isPrefixOf (cstr m1 s1.sbeg) = false)
    (h2 : trscanner_next m1 s1 = some (m2, s2))
    (hrun : parse_tr tbl m text len deps last_added = .ok (m', deps', la')) :
    ∃ dep : departure_ptr,
      deps'.list = (slist_append deps.list last_added dep).1 ∧
      deps'.size = deps.size + 1 ∧
      dep.destination = s2.sbeg ∧
      (∀ P : Str, cstr m2 s2.sbeg = P ++ "&nbsp;-".toList →
        (dep.read m').destination = P ++ " (SEC)".toList) ∧
      (¬ "&nbsp;-".toList <:+: cstr m2 s2.sbeg →
        (dep.read m').destination = cstr m2 s2.sbeg) := by
  obtain ⟨_, _, _, _, hsb2, hsend2, hnul2, _, _⟩ := trscanner_next_spec _ _ _ _ h2
  simp only [parse_tr, hcol, h1, hhdr, h2, Bool.false_eq_true, if_false] at hrun
  generalize hm2' : parse_tr_destination m2 s2.sbeg = m2' at hrun
  cases h3 : trscanner_next m2' s2 with
  | none => rw [h3] at hrun; cases hrun
  | some r3 =>
    obtain ⟨m3, s3⟩ := r3
    rw [h3] at hrun
    simp only at hrun
    obtain ⟨ht3, _, _, hb3, hsb3, hsend3, _, hf3, _⟩ := trscanner_next_spec _ _ _ _ h3
    cases h4 : trscanner_next (parse_tr_track m3 s3.sbeg) s3 with
    | none => rw [h4] at hrun; cases hrun
    | some r4 =>
      obtain ⟨m4, s4⟩ := r4
      rw [h4] at hrun
      simp only at hrun
      obtain ⟨ht4, _, _, hb4, hsb4, hsend4, _, hf4, _⟩ := trscanner_next_spec _ _ _ _ h4
      cases h5 : trscanner_next m4 s4 with
      | none => rw [h5] at hrun; cases hrun
      | some r5 =>
        obtain ⟨m5, s5⟩ := r5
        rw [h5] at hrun
        simp only at hrun
        obtain ⟨ht5, _, _, hb5, hsb5, hsend5, _, hf5, _⟩ := trscanner_next_spec _ _ _ _ h5
        -- the memory below the second cell's end is not touched again
        have hframe5 : ∀ i, i ≤ s2.send → peek m5 i = peek m2' i := by
          intro i hi
          rw [hf5 i (by omega), hf4 i (by omega), parse_tr_track_frame m3 s3.sbeg i (by omega),
            hf3 i (by omega)]
        have hfinal : ∀ mf : Mem, (∀ i, i ≤ s2.send → peek mf i = peek m2' i) →
            (∀ P : Str, cstr m2 s2.sbeg = P ++ "&nbsp;-".toList →
              cstr mf s2.sbeg = P ++ " (SEC)".toList) ∧
            (¬ "&nbsp;-".toList <:+: cstr m2 s2.sbeg → cstr mf s2.sbeg = cstr m2 s2.sbeg) := by
          intro mf hmf
          have hlen2 : strlen m2 s2.sbeg ≤ s2.send - s2.sbeg :=
            strlen_le_of_nul m2 _ _ (by
              rw [show s2.sbeg + (s2.send - s2.sbeg) = s2.send by omega]; exact hnul2)
          constructor
          · intro P hP
            have hres := parse_tr_destination_marker m2 s2.sbeg P hP
            rw [hm2'] at hres
            have hl : strlen m2' s2.sbeg = P.length + 6 := by
              unfold strlen; rw [hres, List.length_append]; rfl
            have hl2 : strlen m2 s2.sbeg = P.length + 7 := by
              unfold strlen; rw [hP, List.length_append]; rfl
            rw [← hres]
            apply cstr_frame m2' mf (strlen m2' s2.sbeg) s2.sbeg (cstr_length_nul _ _)
            intro i _ hi2
            exact hmf i (by omega)
          · intro hP
            have hres := parse_tr_destination_plain m2 s2.sbeg hP
            rw [hm2'] at hres
            subst hres
            apply cstr_frame m2' mf (strlen m2' s2.sbeg) s2.sbeg (cstr_length_nul _ _)
            intro i _ hi2
            exact hmf i (by omega)
        cases h6 : trscanner_next m5 s5 with
        | none =>
          rw [h6] at hrun
          simp only [Except.ok.injEq, Prod.mk.injEq] at hrun
          obtain ⟨hm, hd, _⟩ := hrun
          subst hm
          refine ⟨_, by rw [← hd], by rw [← hd], rfl, ?_⟩
          exact hfinal m5 hframe5
        | some r6 =>
          obtain ⟨m6, s6⟩ := r6
          rw [h6] at hrun
          simp only [Except.ok.injEq, Prod.mk.injEq] at hrun
          obtain ⟨hm, hd, _⟩ := hrun
          subst hm
          obtain ⟨_, _, _, _, _, _, _, hf6, _⟩ := trscanner_next_spec _ _ _ _ h6
          refine ⟨_, by rw [← hd], by rw [← hd], rfl, ?_⟩
          exact hfinal m6 (fun i hi => by rw [hf6 i (by omega)]; exact hframe5 i hi)

set_option maxRecDepth 100000 in
theorem destination_normalized_witness :
    ((strstr ex_row 0 "<td colspan=".toList).isSome = false ∧
      trscanner_next ex_row (trscanner_create 0 (ex_row.length - 1)) = some (ex_scan1.1, ex_scan1.2) ∧
      "DEP".toList.isPrefixOf (cstr ex_scan1.1 ex_scan1.2.sbeg) = false ∧
      trscanner_next ex_scan1.1 ex_scan1.2 = some (ex_scan2.1, ex_scan2.2) ∧
      parse_tr ex_tbl ex_row 0 (ex_row.length - 1) { list := [], size := 0 } none =
        .ok (ex_parsed.1, ex_parsed.2.1, ex_parsed.2.2) ∧
      cstr ex_scan2.1 ex_scan2.2.sbeg = "Hoboken".toList ++ "&nbsp;-".toList) ∧
    ∃ dep : departure_ptr,
      ex_parsed.2.1.list = (slist_append [] none dep).1 ∧
      (dep.read ex_parsed.1).destination = "Hoboken".toList ++ " (SEC)".toList :=
  have hcol : (strstr ex_row 0 "<td colspan=".toList).isSome = false := by decide
  have h1 : trscanner_next ex_row (trscanner_create 0 (ex_row.length - 1)) =
      some (ex_scan1.1, ex_scan1.2) := by decide
  have hhdr : "DEP".toList.isPrefixOf (cstr ex_scan1.1 ex_scan1.2.sbeg) = false := by decide
  have h2 : trscanner_next ex_scan1.1 ex_scan1.2 = some (ex_scan2.1, ex_scan2.2) := by decide
  have hrun : parse_tr ex_tbl ex_row 0 (ex_row.length - 1) { list := [], size := 0 } none =
      .ok (ex_parsed.1, ex_parsed.2.1, ex_parsed.2.2) := by rfl
  have hP : cstr ex_scan2.1 ex_scan2.2.sbeg = "Hoboken".toList ++ "&nbsp;-".toList := by decide
  ⟨⟨hcol, h1, hhdr, h2, hrun, hP⟩, by
    obtain ⟨dep, hl, _, _, hm, _⟩ := destination_normalized ex_tbl ex_row 0 (ex_row.length - 1)
      { list := [], size := 0 } none ex_scan1.1 ex_scan1.2 ex_scan2.1 ex_scan2.2
      ex_parsed.1 ex_parsed.2.1 ex_parsed.2.2 hcol h1 hhdr h2 hrun
    exact ⟨dep, hl, hm "Hoboken".toList hP⟩⟩

set_option maxRecDepth 100000 in
/-- C10 (the code at the failing input): the track cells `<td>Single</td>` and
`<td> Single</td>` are decoded as `1`, but for `<td>Single </td>` the slice
keeps its trailing space (the end trim starts at the NUL just written at `send`
and stops at once), `strcmp("Single", ...)` fails and the decoded track is
`Single ` with the space. -/
theorem single_trailing_space_kept :
    ex_tracks "<td>Single</td>" = some ["1".toList] ∧
    ex_tracks "<td> Single</td>" = some ["1".toList] ∧
    ex_tracks "<td>Single </td>" = some ["Single ".toList] := by
  decide

/-! ## parse_tr case by case -/

theorem parse_tr_colspan (tbl : StationTable) (m : Mem) (text len : Nat) (deps : departures_ptr)
    (last_added : Option Nat)
    (hcol : (strstr m text "<td colspan=".toList).isSome = true) :
    parse_tr tbl m text len deps last_added = .ok (m, deps, last_added) := by
  simp only [parse_tr, hcol, if_true]

theorem parse_tr_no_time (tbl : StationTable) (m : Mem) (text len : Nat) (deps : departures_ptr)
    (last_added : Option Nat)
    (hcol : (strstr m text "<td colspan=".toList).isSome = false)
    (h1 : trscanner_next m (trscanner_create text len) = none) :
    parse_tr tbl m text len deps last_added =
      .error (.fatal "first table cell doesn't contain a time") := by
  simp only [parse_tr, hcol, h1, Bool.false_eq_true, if_false]

theorem parse_tr_header (tbl : StationTable) (m : Mem) (text len : Nat) (deps : departures_ptr)
    (last_added : Option Nat) (m1 : Mem) (s1 : trscanner)
    (hcol : (strstr m text "<td colspan=".toList).isSome = false)
    (h1 : trscanner_next m (trscanner_create text len) = some (m1, s1))
    (hhdr : "DEP".toList.isPrefixOf (cstr m1 s1.sbeg) = true) :
    parse_tr tbl m text len deps last_added = .ok (m1, deps, last_added) := by
  simp only [parse_tr, hcol, h1, hhdr, Bool.false_eq_true, if_false, if_true]

theorem parse_tr_no_destination (tbl : StationTable) (m : Mem) (text len : Nat)
    (deps : departures_ptr) (last_added : Option Nat) (m1 : Mem) (s1 : trscanner)
    (hcol : (strstr m text "<td colspan=".toList).isSome = false)
    (h1 : trscanner_next m (trscanner_create text len) = some (m1, s1))
    (hhdr : "DEP".toList.isPrefixOf (cstr m1 s1.sbeg) = false)
    (h2 : trscanner_next m1 s1 = none) :
    parse_tr tbl m text len deps last_added =
      .error (.fatal "second table cell doesn't contain a destination station") := by
  simp only [parse_tr, hcol, h1, hhdr, h2, Bool.false_eq_true, if_false]

theorem parse_tr_no_track (tbl : StationTable) (m : Mem) (text len : Nat)
    (deps : departures_ptr) (last_added : Option Nat) (m1 : Mem) (s1 : trscanner)
    (m2 : Mem) (s2 : trscanner)
    (hcol : (strstr m text "<td colspan=".toList).isSome = false)
    (h1 : trscanner_next m (trscanner_create text len) = some (m1, s1))
    (hhdr : "DEP".toList.isPrefixOf (cstr m1 s1.sbeg) = false)
    (h2 : trscanner_next m1 s1 = some (m2, s2))
    (h3 : trscanner_next (parse_tr_destination m2 s2.sbeg) s2 = none) :
    parse_tr tbl m text len deps last_added = .error (.fatal "Cannot parse track") := by
  simp only [parse_tr, hcol, h1, hhdr, h2, h3, Bool.false_eq_true, if_false]

theorem parse_tr_no_line (tbl : StationTable) (m : Mem) (text len : Nat)
    (deps : departures_ptr) (last_added : Option Nat) (m1 : Mem) (s1 : trscanner)
    (m2 : Mem) (s2 : trscanner) (m3 : Mem) (s3 : trscanner)
    (hcol : (strstr m text "<td colspan=".toList).isSome = false)
    (h1 : trscanner_next m (trscanner_create text len) = some (m1, s1))
    (hhdr : "DEP".toList.isPrefixOf (cstr m1 s1.sbeg) = false)
    (h2 : trscanner_next m1 s1 = some (m2, s2))
    (h3 : trscanner_next (parse_tr_destination m2 s2.sbeg) s2 = some (m3, s3))
    (h4 : trscanner_next (parse_tr_track m3 s3.sbeg) s3 = none) :
    parse_tr tbl m text len deps last_added = .error (.fatal "Cannot parse line") := by
  simp only [parse_tr, hcol, h1, hhdr, h2, h3, h4, Bool.false_eq_true, if_false]

theorem parse_tr_no_train (tbl : StationTable) (m : Mem) (text len : Nat)
    (deps : departures_ptr) (last_added : Option Nat) (m1 : Mem) (s1 : trscanner)
    (m2 : Mem) (s2 : trscanner) (m3 : Mem) (s3 : trscanner) (m4 : Mem) (s4 : trscanner)
    (hcol : (strstr m text "<td colspan=".toList).isSome = false)
    (h1 : trscanner_next m (trscanner_create text len) = some (m1, s1))
    (hhdr : "DEP".toList.isPrefixOf (cstr m1 s1.sbeg) = false)
    (h2 : trscanner_next m1 s1 = some (m2, s2))
    (h3 : trscanner_next (parse_tr_destination m2 s2.sbeg) s2 = some (m3, s3))
    (h4 : trscanner_next (parse_tr_track m3 s3.sbeg) s3 = some (m4, s4))
    (h5 : trscanner_next m4 s4 = none) :
    parse_tr tbl m text len deps last_added = .error (.fatal "Cannot parse train") := by
  simp only [parse_tr, hcol, h1, hhdr, h2, h3, h4, h5, Bool.false_eq_true, if_false]

theorem parse_tr_five (tbl : StationTable) (m : Mem) (text len : Nat)
    (deps : departures_ptr) (last_added : Option Nat) (m1 : Mem) (s1 : trscanner)
    (m2 : Mem) (s2 : trscanner) (m3 : Mem) (s3 : trscanner) (m4 : Mem) (s4 : trscanner)
    (m5 : Mem) (s5 : trscanner)
    (hcol : (strstr m text "<td colspan=".toList).isSome = false)
    (h1 : trscanner_next m (trscanner_create text len) = some (m1, s1))
    (hhdr : "DEP".toList.isPrefixOf (cstr m1 s1.sbeg) = false)
    (h2 : trscanner_next m1 s1 = some (m2, s2))
    (h3 : trscanner_next (parse_tr_destination m2 s2.sbeg) s2 = some (m3, s3))
    (h4 : trscanner_next (parse_tr_track m3 s3.sbeg) s3 = some (m4, s4))
    (h5 : trscanner_next m4 s4 = some (m5, s5))
    (h6 : trscanner_next m5 s5 = none) :
    parse_tr tbl m text len deps last_added =
      .ok (m5,
        { list := (slist_append deps.list last_added
            { time := s1.sbeg, destination := s2.sbeg, line := s4.sbeg, train := s5.sbeg,
              track := s3.sbeg, status := none,
              code := station_code tbl (cstr m5 s2.sbeg), next := 0 }).1,
          size := deps.size + 1 },
        (slist_append deps.list last_added
            { time := s1.sbeg, destination := s2.sbeg, line := s4.sbeg, train := s5.sbeg,
              track := s3.sbeg, status := none,
              code := station_code tbl (cstr m5 s2.sbeg), next := 0 }).2) := by
  simp only [parse_tr, hcol, h1, hhdr, h2, h3, h4, h5, h6, Bool.false_eq_true, if_false]

theorem parse_tr_six (tbl : StationTable) (m : Mem) (text len : Nat)
    (deps : departures_ptr) (last_added : Option Nat) (m1 : Mem) (s1 : trscanner)
    (m2 : Mem) (s2 : trscanner) (m3 : Mem) (s3 : trscanner) (m4 : Mem) (s4 : trscanner)
    (m5 : Mem) (s5 : trscanner) (m6 : Mem) (s6 : trscanner)
    (hcol : (strstr m text "<td colspan=".toList).isSome = false)
    (h1 : trscanner_next m (trscanner_create text len) = some (m1, s1))
    (hhdr : "DEP".toList.isPrefixOf (cstr m1 s1.sbeg) = false)
    (h2 : trscanner_next m1 s1 = some (m2, s2))
    (h3 : trscanner_next (parse_tr_destination m2 s2.sbeg) s2 = some (m3, s3))
    (h4 : trscanner_next (parse_tr_track m3 s3.sbeg) s3 = some (m4, s4))
    (h5 : trscanner_next m4 s4 = some (m5, s5))
    (h6 : trscanner_next m5 s5 = some (m6, s6)) :
    parse_tr tbl m text len deps last_added =
      .ok (m6,
        { list := (slist_append deps.list last_added
            { time := s1.sbeg, destination := s2.sbeg, line := s4.sbeg, train := s5.sbeg,
              track := s3.sbeg, status := some s6.sbeg,
              code := station_code tbl (cstr m6 s2.sbeg), next := 0 }).1,
          size := deps.size + 1 },
        (slist_append deps.list last_added
            { time := s1.sbeg, destination := s2.sbeg, line := s4.sbeg, train := s5.sbeg,
              track := s3.sbeg, status := some s6.sbeg,
              code := station_code tbl (cstr m6 s2.sbeg), next := 0 }).2) := by
  simp only [parse_tr, hcol, h1, hhdr, h2, h3, h4, h5, h6, Bool.false_eq_true, if_false]

theorem trim_end_length : ∀ (p : Nat) (m : Mem) (mlen : Nat),
    (trim_end p m mlen).1.length = m.length := by
  intro p
  induction p with
  | zero =>
    intro m mlen
    rw [trim_end_zero]
    by_cases hc : (isspace (peek m 0) || peek m 0 == '<') = true
    · rw [if_pos hc]; exact poke_length _ _ _
    · rw [if_neg hc]
  | succ p ih =>
    intro m mlen
    rw [trim_end_succ]
    by_cases hc : (isspace (peek m (p + 1)) || peek m (p + 1) == '<') = true
    · rw [if_pos hc, ih, poke_length]
    · rw [if_neg hc]

/-- More on a successful `trscanner_next`: the matches it used, the new cursor at
the end of the close match and inside the row, and the unchanged length of the
memory. -/
theorem trscanner_next_matches (m : Mem) (s : trscanner) (m' : Mem) (s' : trscanner)
    (h : trscanner_next m s = some (m', s')) :
    ∃ o : Nat × Nat,
      regexec (find_open ['t', 'd']) m s.text s.m1.1 s.m1.2 = some o ∧
      regexec (find_lit ['<', '/', 't', 'd', '>']) m s.text o.2 s.len = some s'.m2 ∧
      s'.m1 = (s'.m2.2, s.len) ∧
      s'.send = s.text + s'.m2.1 ∧
      s.text + o.2 ≤ s'.sbeg ∧
      s.m1.1 + 4 ≤ o.2 ∧ o.2 ≤ s'.m2.1 ∧ s'.m2.2 = s'.m2.1 + 5 ∧
      (s.m1.2 = s.len → s'.m2.2 ≤ s.len) ∧
      m'.length = m.length := by
  rw [trscanner_next_eq] at h
  cases h1 : regexec (find_open ['t', 'd']) m s.text s.m1.1 s.m1.2 with
  | none => rw [h1] at h; cases h
  | some r1 =>
    obtain ⟨a1, b1⟩ := r1
    rw [h1] at h
    simp only at h
    cases h2 : regexec (find_lit ['<', '/', 't', 'd', '>']) m s.text b1 s.len with
    | none => rw [h2] at h; cases h
    | some r2 =>
      obtain ⟨a2, b2⟩ := r2
      rw [h2] at h
      simp only [Option.some.injEq, Prod.mk.injEq] at h
      obtain ⟨hm, hs⟩ := h
      obtain ⟨ho1, ho2, _⟩ := regexec_open_spec _ _ _ _ _ _ _ h1
      obtain ⟨hl1, hl2, hl3⟩ := regexec_lit_spec _ _ _ _ _ _ _ h2
      simp only [List.length_cons, List.length_nil] at ho1 hl2
      subst hs
      subst hm
      refine ⟨(a1, b1), rfl, h2, rfl, rfl, ?_, ?_, ?_, ?_, ?_, ?_⟩
      · exact (skip_space_spec ((poke m (s.text + a2) NUL).drop (s.text + b1)) (s.text + b1)
          ((a2 - b1) % 2 ^ 64)).1
      · show s.m1.1 + 4 ≤ b1
        omega
      · show b1 ≤ a2
        exact hl1
      · show b2 = a2 + 5
        omega
      · intro hlen
        show b2 ≤ s.len
        omega
      · rw [trim_end_length, poke_length]

theorem parse_tr_destination_frame (m : Mem) (d i : Nat) (h : i < d) :
    peek (parse_tr_destination m d) i = peek m i := by
  unfold parse_tr_destination
  split
  · exact peek_write_bytes_lt _ _ _ _ (by omega)
  · rfl

/-- Lines 159-162 of `parse_tr` turn the string `D` at `d` into
`destination_text D`. -/
theorem parse_tr_destination_text (m : Mem) (d : Nat) :
    cstr (parse_tr_destination m d) d = destination_text (cstr m d) := by
  unfold destination_text
  by_cases h : "&nbsp;-".toList <:+: cstr m d
  · rw [if_pos h]
    have hfound : (strstr m d "&nbsp;-".toList).isSome = true := by
      unfold strstr
      rw [Option.isSome_map', find_sub_isSome]; exact h
    have hge : 7 ≤ (cstr m d).length := by
      obtain ⟨a, b, hab⟩ := h
      have := congrArg List.length hab
      simp only [List.length_append] at this
      have h7 : "&nbsp;-".toList.length = 7 := rfl
      omega
    have hP : ((cstr m d).take ((cstr m d).length - 7)).length = strlen m d - 7 := by
      unfold strlen; rw [List.length_take]; omega
    unfold parse_tr_destination
    rw [if_pos hfound, ← hP]
    exact cstr_strcpy m d _ " (SEC)".toList (List.take_prefix _ _) (by decide)
      (by rw [hP]; unfold strlen; show _ - 7 + 6 + 1 ≤ _; omega)
  · rw [if_neg h, parse_tr_destination_plain m d h]

/-- Lines 167-169 of `parse_tr` turn the string `T` at `t` into `track_text T`. -/
theorem parse_tr_track_text (m : Mem) (t : Nat) :
    cstr (parse_tr_track m t) t = track_text (cstr m t) := by
  unfold track_text parse_tr_track
  by_cases h : cstr m t = "Single".toList
  · rw [if_pos h, if_pos h]
    have := cstr_strcpy m t [] "1".toList (List.nil_prefix) (by decide)
      (by unfold strlen; rw [h]; decide)
    simpa using this
  · rw [if_neg h, if_neg h]

theorem destination_text_length (D : Str) : (destination_text D).length ≤ D.length := by
  unfold destination_text
  split
  · rename_i h
    have hge : 7 ≤ D.length := by
      obtain ⟨a, b, hab⟩ := h
      have := congrArg List.length hab
      simp only [List.length_append] at this
      have h7 : "&nbsp;-".toList.length = 7 := rfl
      omega
    rw [List.length_append, List.length_take]
    have h6 : " (SEC)".toList.length = 6 := rfl
    omega
  · exact le_refl _

theorem track_text_length (T : Str) : (track_text T).length ≤ T.length := by
  unfold track_text
  split
  · rename_i h; rw [h]; decide
  · exact le_refl _

/-- A slice is kept by everything that only writes above its end: if `ma` holds
a NUL at or below `L`, at or after `d`, and `mb` agrees with `ma` up to `L`, the
string at `d` is the same in both. -/
theorem cstr_kept (ma mb : Mem) (d L : Nat) (hd : d + strlen ma d ≤ L)
    (hag : ∀ i, i ≤ L → peek mb i = peek ma i) : cstr mb d = cstr ma d :=
  cstr_frame ma mb (strlen ma d) d (cstr_length_nul ma d) (fun i _ hi => hag i (by omega))

/-- The string of a slice ends at or before `send`. -/
theorem slice_end (m : Mem) (s : trscanner) (m' : Mem) (s' : trscanner)
    (h : trscanner_next m s = some (m', s')) : s'.sbeg + strlen m' s'.sbeg ≤ s'.send := by
  obtain ⟨_, _, _, _, hsb, _, hnul, _, _⟩ := trscanner_next_spec m s m' s' h
  have := strlen_le_of_nul m' (s'.send - s'.sbeg) s'.sbeg
    (by rw [show s'.sbeg + (s'.send - s'.sbeg) = s'.send by omega]; exact hnul)
  omega

theorem agree_upto_refl (L : Nat) (m : Mem) : agree_upto L m m := fun _ _ => rfl

theorem agree_upto_trans {L : Nat} {ma mb mc : Mem} (h1 : agree_upto L ma mb)
    (h2 : agree_upto L mb mc) : agree_upto L ma mc :=
  fun i hi => (h2 i hi).trans (h1 i hi)

/-- The end of a slice is behind the cursor the call leaves. -/
theorem behind_after (m : Mem) (s : trscanner) (m' : Mem) (s' : trscanner)
    (h : trscanner_next m s = some (m', s')) : s'.send < s'.text + s'.m1.1 := by
  obtain ⟨ht, _, _, _, _, hsend, _, _, _⟩ := trscanner_next_spec m s m' s' h
  omega

/-- What is behind the cursor stays behind it, lies before the next slice, and
is not written by the next call. -/
theorem behind_next (m : Mem) (s : trscanner) (m' : Mem) (s' : trscanner) (L : Nat)
    (h : trscanner_next m s = some (m', s')) (hL : L < s.text + s.m1.1) :
    L < s'.text + s'.m1.1 ∧ L < s'.sbeg ∧ agree_upto L m m' := by
  obtain ⟨ht, _, _, hb, hsb, hsend, _, hf, _⟩ := trscanner_next_spec m s m' s' h
  exact ⟨by omega, by omega, fun i hi => hf i (by omega)⟩

theorem agree_destination (m : Mem) (d L : Nat) (h : L < d) :
    agree_upto L m (parse_tr_destination m d) :=
  fun i hi => parse_tr_destination_frame m d i (by omega)

theorem agree_track (m : Mem) (t L : Nat) (h : L < t) :
    agree_upto L m (parse_tr_track m t) :=
  fun i hi => parse_tr_track_frame m t i (by omega)

theorem rest_from5 (m4 : Mem) (s4 : trscanner) (m5 : Mem) (s5 : trscanner) (L : Nat)
    (h5 : trscanner_next m4 s4 = some (m5, s5)) (hL : L < s4.text + s4.m1.1) :
    L < s5.text + s5.m1.1 ∧ agree_upto L m4 m5 :=
  have h := behind_next m4 s4 m5 s5 L h5 hL
  ⟨h.1, h.2.2⟩

theorem rest_from4 (m3 : Mem) (s3 : trscanner) (m4 : Mem) (s4 : trscanner)
    (m5 : Mem) (s5 : trscanner) (L : Nat)
    (h4 : trscanner_next (parse_tr_track m3 s3.sbeg) s3 = some (m4, s4))
    (h5 : trscanner_next m4 s4 = some (m5, s5)) (hL : L < s3.text + s3.m1.1) :
    L < s5.text + s5.m1.1 ∧ agree_upto L (parse_tr_track m3 s3.sbeg) m5 :=
  have h := behind_next _ s3 m4 s4 L h4 hL
  have h' := rest_from5 m4 s4 m5 s5 L h5 h.1
  ⟨h'.1, agree_upto_trans h.2.2 h'.2⟩

theorem rest_from3 (m2 : Mem) (s2 : trscanner) (m3 : Mem) (s3 : trscanner)
    (m4 : Mem) (s4 : trscanner) (m5 : Mem) (s5 : trscanner) (L : Nat)
    (h3 : trscanner_next (parse_tr_destination m2 s2.sbeg) s2 = some (m3, s3))
    (h4 : trscanner_next (parse_tr_track m3 s3.sbeg) s3 = some (m4, s4))
    (h5 : trscanner_next m4 s4 = some (m5, s5)) (hL : L < s2.text + s2.m1.1) :
    L < s5.text + s5.m1.1 ∧ agree_upto L (parse_tr_destination m2 s2.sbeg) m5 :=
  have h := behind_next _ s2 m3 s3 L h3 hL
  have h' := rest_from4 m3 s3 m4 s4 m5 s5 L h4 h5 h.1
  ⟨h'.1, agree_upto_trans (agree_upto_trans h.2.2 (agree_track m3 s3.sbeg L h.2.1)) h'.2⟩

theorem rest_from2 (m1 : Mem) (s1 : trscanner) (m2 : Mem) (s2 : trscanner)
    (m3 : Mem) (s3 : trscanner) (m4 : Mem) (s4 : trscanner) (m5 : Mem) (s5 : trscanner) (L : Nat)
    (h2 : trscanner_next m1 s1 = some (m2, s2))
    (h3 : trscanner_next (parse_tr_destination m2 s2.sbeg) s2 = some (m3, s3))
    (h4 : trscanner_next (parse_tr_track m3 s3.sbeg) s3 = some (m4, s4))
    (h5 : trscanner_next m4 s4 = some (m5, s5)) (hL : L < s1.text + s1.m1.1) :
    L < s5.text + s5.m1.1 ∧ agree_upto L m1 m5 :=
  have h := behind_next m1 s1 m2 s2 L h2 hL
  have h' := rest_from3 m2 s2 m3 s3 m4 s4 m5 s5 L h3 h4 h5 h.1
  ⟨h'.1, agree_upto_trans (agree_upto_trans h.2.2 (agree_destination m2 s2.sbeg L h.2.1)) h'.2⟩

theorem agree_below {L : Nat} {ma mb : Mem} (c : Nat) (hL : L < c)
    (h : ∀ i, i < c → peek mb i = peek ma i) : agree_upto L ma mb :=
  fun i hi => h i (by omega)

/-- The strings of the five slices when the fifth call of a decoded row has
returned, read in any memory `mf` that agrees with `m5` behind the cursor: no
later call and neither normalization writes at or below the end of an earlier
slice. -/
theorem parse_tr_slices_kept (m : Mem) (text len : Nat) (m1 : Mem) (s1 : trscanner)
    (m2 : Mem) (s2 : trscanner) (m3 : Mem) (s3 : trscanner) (m4 : Mem) (s4 : trscanner)
    (m5 : Mem) (s5 : trscanner)
    (h1 : trscanner_next m (trscanner_create text len) = some (m1, s1))
    (h2 : trscanner_next m1 s1 = some (m2, s2))
    (h3 : trscanner_next (parse_tr_destination m2 s2.sbeg) s2 = some (m3, s3))
    (h4 : trscanner_next (parse_tr_track m3 s3.sbeg) s3 = some (m4, s4))
    (h5 : trscanner_next m4 s4 = some (m5, s5))
    (mf : Mem) (hmf : ∀ i, i < s5.text + s5.m1.1 → peek mf i = peek m5 i) :
    cstr mf s1.sbeg = cstr m1 s1.sbeg ∧
    cstr mf s2.sbeg = destination_text (cstr m2 s2.sbeg) ∧
    cstr mf s3.sbeg = track_text (cstr m3 s3.sbeg) ∧
    cstr mf s4.sbeg = cstr m4 s4.sbeg ∧
    cstr mf s5.sbeg = cstr m5 s5.sbeg := by
  have b1 := behind_after _ _ _ _ h1
  have b2 := behind_after _ _ _ _ h2
  have b3 := behind_after _ _ _ _ h3
  have b4 := behind_after _ _ _ _ h4
  have b5 := behind_after _ _ _ _ h5
  have r1 := rest_from2 m1 s1 m2 s2 m3 s3 m4 s4 m5 s5 s1.send h2 h3 h4 h5 b1
  have r2 := rest_from3 m2 s2 m3 s3 m4 s4 m5 s5 s2.send h3 h4 h5 b2
  have r3 := rest_from4 m3 s3 m4 s4 m5 s5 s3.send h4 h5 b3
  have r4 := rest_from5 m4 s4 m5 s5 s4.send h5 b4
  have hDl : s2.sbeg + strlen (parse_tr_destination m2 s2.sbeg) s2.sbeg ≤ s2.send := by
    have he := slice_end _ _ _ _ h2
    have hl : strlen (parse_tr_destination m2 s2.sbeg) s2.sbeg ≤ strlen m2 s2.sbeg := by
      unfold strlen; rw [parse_tr_destination_text]; exact destination_text_length _
    omega
  have hKl : s3.sbeg + strlen (parse_tr_track m3 s3.sbeg) s3.sbeg ≤ s3.send := by
    have he := slice_end _ _ _ _ h3
    have hl : strlen (parse_tr_track m3 s3.sbeg) s3.sbeg ≤ strlen m3 s3.sbeg := by
      unfold strlen; rw [parse_tr_track_text]; exact track_text_length _
    omega
  refine ⟨?_, ?_, ?_, ?_, ?_⟩
  · exact cstr_kept m1 mf s1.sbeg s1.send (slice_end _ _ _ _ h1)
      (agree_upto_trans r1.2 (agree_below _ r1.1 hmf))
  · rw [← parse_tr_destination_text]
    exact cstr_kept _ mf s2.sbeg s2.send hDl (agree_upto_trans r2.2 (agree_below _ r2.1 hmf))
  · rw [← parse_tr_track_text]
    exact cstr_kept _ mf s3.sbeg s3.send hKl (agree_upto_trans r3.2 (agree_below _ r3.1 hmf))
  · exact cstr_kept m4 mf s4.sbeg s4.send (slice_end _ _ _ _ h4)
      (agree_upto_trans r4.2 (agree_below _ r4.1 hmf))
  · exact cstr_kept m5 mf s5.sbeg s5.send (slice_end _ _ _ _ h5) (agree_below _ b5 hmf)

/-- What `parse_tr` returns on a row on which five calls of the scanner succeed:
the appended departure, its pointers and the strings they designate on return. -/
theorem parse_tr_row (tbl : StationTable) (m : Mem) (text len : Nat)
    (deps : departures_ptr) (last_added : Option Nat) (m1 : Mem) (s1 : trscanner)
    (m2 : Mem) (s2 : trscanner) (m3 : Mem) (s3 : trscanner) (m4 : Mem) (s4 : trscanner)
    (m5 : Mem) (s5 : trscanner) (r6 : Option (Mem × trscanner))
    (hcol : (strstr m text "<td colspan=".toList).isSome = false)
    (h1 : trscanner_next m (trscanner_create text len) = some (m1, s1))
    (hhdr : "DEP".toList.isPrefixOf (cstr m1 s1.sbeg) = false)
    (h2 : trscanner_next m1 s1 = some (m2, s2))
    (h3 : trscanner_next (parse_tr_destination m2 s2.sbeg) s2 = some (m3, s3))
    (h4 : trscanner_next (parse_tr_track m3 s3.sbeg) s3 = some (m4, s4))
    (h5 : trscanner_next m4 s4 = some (m5, s5))
    (h6 : trscanner_next m5 s5 = r6) :
    ∃ (mf : Mem) (dep : departure_ptr),
      parse_tr tbl m text len deps last_added =
        .ok (mf, { list := (slist_append deps.list last_added dep).1, size := deps.size + 1 },
          (slist_append deps.list last_added dep).2) ∧
      dep.time = s1.sbeg ∧ dep.destination = s2.sbeg ∧ dep.track = s3.sbeg ∧
      dep.line = s4.sbeg ∧ dep.train = s5.sbeg ∧
      dep.status = r6.map (fun r => r.2.sbeg) ∧
      dep.read mf =
        { time := cstr m1 s1.sbeg,
          destination := destination_text (cstr m2 s2.sbeg),
          line := cstr m4 s4.sbeg,
          train := cstr m5 s5.sbeg,
          track := track_text (cstr m3 s3.sbeg),
          status := r6.map (fun r => cstr r.1 r.2.sbeg),
          code := station_code tbl (destination_text (cstr m2 s2.sbeg)),
          next := 0 } := by
  cases r6 with
  | none =>
    obtain ⟨k1, k2, k3, k4, k5⟩ := parse_tr_slices_kept m text len m1 s1 m2 s2 m3 s3 m4 s4 m5 s5
      h1 h2 h3 h4 h5 m5 (fun _ _ => rfl)
    refine ⟨m5, _, parse_tr_five tbl m text len deps last_added m1 s1 m2 s2 m3 s3 m4 s4 m5 s5
      hcol h1 hhdr h2 h3 h4 h5 h6, rfl, rfl, rfl, rfl, rfl, rfl, ?_⟩
    simp only [departure_ptr.read, k1, k2, k3, k4, k5, Option.map_none']
  | some r =>
    obtain ⟨m6, s6⟩ := r
    have hf6 : ∀ i, i < s5.text + s5.m1.1 → peek m6 i = peek m5 i := fun i hi =>
      (trscanner_next_spec _ _ _ _ h6).2.2.2.2.2.2.2.1 i (Nat.lt_add_right 4 hi)
    obtain ⟨k1, k2, k3, k4, k5⟩ := parse_tr_slices_kept m text len m1 s1 m2 s2 m3 s3 m4 s4 m5 s5
      h1 h2 h3 h4 h5 m6 hf6
    refine ⟨m6, _, parse_tr_six tbl m text len deps last_added m1 s1 m2 s2 m3 s3 m4 s4 m5 s5
      m6 s6 hcol h1 hhdr h2 h3 h4 h5 h6, rfl, rfl, rfl, rfl, rfl, rfl, ?_⟩
    simp only [departure_ptr.read, k1, k2, k3, k4, k5, Option.map_some']

/-- The fields of a decoded row: for a row without colspan marker (from the
row's start to the end of
the buffer text) whose first cell does not start with `DEP` and on which five
calls of the scanner succeed, `parse_tr` appends exactly one departure (the
sixth call may fail or succeed).  Its pointers are, by position, the five or
six slices; the strings they designate when `parse_tr` returns are the first
slice for the time, `destination_text` of the second for the destination,
`track_text` of the third for the track, the fourth for the line, the fifth for
the train, and the sixth, when there is one, for the status, which is `NULL`
otherwise.  Nothing in this depends on what the cells hold. -/
theorem parse_tr_fields (tbl : StationTable) (m : Mem) (text len : Nat)
    (deps : departures_ptr) (last_added : Option Nat) (m1 : Mem) (s1 : trscanner)
    (m2 : Mem) (s2 : trscanner) (m3 : Mem) (s3 : trscanner) (m4 : Mem) (s4 : trscanner)
    (m5 : Mem) (s5 : trscanner) (r6 : Option (Mem × trscanner))
    (hcol : (strstr m text "<td colspan=".toList).isSome = false)
    (h1 : trscanner_next m (trscanner_create text len) = some (m1, s1))
    (hhdr : "DEP".toList.isPrefixOf (cstr m1 s1.sbeg) = false)
    (h2 : trscanner_next m1 s1 = some (m2, s2))
    (h3 : trscanner_next (parse_tr_destination m2 s2.sbeg) s2 = some (m3, s3))
    (h4 : trscanner_next (parse_tr_track m3 s3.sbeg) s3 = some (m4, s4))
    (h5 : trscanner_next m4 s4 = some (m5, s5))
    (h6 : trscanner_next m5 s5 = r6) :
    ∃ (mf : Mem) (dep : departure_ptr),
      parse_tr tbl m text len deps last_added =
        .ok (mf, { list := (slist_append deps.list last_added dep).1, size := deps.size + 1 },
          (slist_append deps.list last_added dep).2) ∧
      dep.time = s1.sbeg ∧ dep.destination = s2.sbeg ∧ dep.track = s3.sbeg ∧
      dep.line = s4.sbeg ∧ dep.train = s5.sbeg ∧
      dep.status = r6.map (fun r => r.2.sbeg) ∧
      dep.read mf =
        { time := cstr m1 s1.sbeg,
          destination := destination_text (cstr m2 s2.sbeg),
          line := cstr m4 s4.sbeg,
          train := cstr m5 s5.sbeg,
          track := track_text (cstr m3 s3.sbeg),
          status := r6.map (fun r => cstr r.1 r.2.sbeg),
          code := station_code tbl (destination_text (cstr m2 s2.sbeg)),
          next := 0 } :=
  parse_tr_row tbl m text len deps last_added m1 s1 m2 s2 m3 s3 m4 s4 m5 s5 r6
    hcol h1 hhdr h2 h3 h4 h5 h6

set_option maxRecDepth 100000 in
theorem parse_tr_fields_witness :
    ((strstr ex_row 0 "<td colspan=".toList).isSome = false ∧
      trscanner_next ex_row (trscanner_create 0 (ex_row.length - 1)) = some (ex_scan1.1, ex_scan1.2) ∧
      "DEP".toList.isPrefixOf (cstr ex_scan1.1 ex_scan1.2.sbeg) = false ∧
      trscanner_next ex_scan1.1 ex_scan1.2 = some (ex_scan2.1, ex_scan2.2) ∧
      trscanner_next (parse_tr_destination ex_scan2.1 ex_scan2.2.sbeg) ex_scan2.2 =
        some (ex_scan3.1, ex_scan3.2) ∧
      trscanner_next (parse_tr_track ex_scan3.1 ex_scan3.2.sbeg) ex_scan3.2 =
        some (ex_scan4.1, ex_scan4.2) ∧
      trscanner_next ex_scan4.1 ex_scan4.2 = some (ex_scan5.1, ex_scan5.2) ∧
      trscanner_next ex_scan5.1 ex_scan5.2 = none) ∧
    ∃ (mf : Mem) (dep : departure_ptr),
      parse_tr ex_tbl ex_row 0 (ex_row.length - 1) { list := [], size := 0 } none =
        .ok (mf, { list := (slist_append [] none dep).1, size := 0 + 1 },
          (slist_append [] none dep).2) ∧
      dep.read mf =
        { time := "5:20".toList, destination := "Hoboken (SEC)".toList, line := "Main".toList,
          train := "T9".toList, track := "1".toList, status := none, code := none, next := 0 } :=
  have hcol : (strstr ex_row 0 "<td colspan=".toList).isSome = false := by decide
  have h1 : trscanner_next ex_row (trscanner_create 0 (ex_row.length - 1)) =
      some (ex_scan1.1, ex_scan1.2) := by decide
  have hhdr : "DEP".toList.isPrefixOf (cstr ex_scan1.1 ex_scan1.2.sbeg) = false := by decide
  have h2 : trscanner_next ex_scan1.1 ex_scan1.2 = some (ex_scan2.1, ex_scan2.2) := by decide
  have h3 : trscanner_next (parse_tr_destination ex_scan2.1 ex_scan2.2.sbeg) ex_scan2.2 =
      some (ex_scan3.1, ex_scan3.2) := by decide
  have h4 : trscanner_next (parse_tr_track ex_scan3.1 ex_scan3.2.sbeg) ex_scan3.2 =
      some (ex_scan4.1, ex_scan4.2) := by decide
  have h5 : trscanner_next ex_scan4.1 ex_scan4.2 = some (ex_scan5.1, ex_scan5.2) := by decide
  have h6 : trscanner_next ex_scan5.1 ex_scan5.2 = none := by decide
  ⟨⟨hcol, h1, hhdr, h2, h3, h4, h5, h6⟩, by
    obtain ⟨mf, dep, hp, _, _, _, _, _, _, hr⟩ := parse_tr_fields ex_tbl ex_row 0
      (ex_row.length - 1) { list := [], size := 0 } none ex_scan1.1 ex_scan1.2 ex_scan2.1
      ex_scan2.2 ex_scan3.1 ex_scan3.2 ex_scan4.1 ex_scan4.2 ex_scan5.1 ex_scan5.2 none
      hcol h1 hhdr h2 h3 h4 h5 h6
    refine ⟨mf, dep, hp, ?_⟩
    rw [hr]
    decide⟩

/-! ## Missing cells -/

/-- The error of a decoded row: on a row for which the colspan test finds no
marker up to the end of the buffer text, `parse_tr` stops with a fatal error at
the first call of the scanner that fails among the first five, and the message
is that of the missing field: time, destination, track, line, train, in that
order (the header test comes after the first cell, so a header row is not
concerned beyond it); nothing is appended, the result being the error.  When
five calls succeed and the sixth fails, `parse_tr` succeeds and appends one
departure whose status is `NULL`. -/
theorem parse_tr_missing_cell (tbl : StationTable) (m : Mem) (text len : Nat)
    (deps : departures_ptr) (last_added : Option Nat)
    (hcol : (strstr m text "<td colspan=".toList).isSome = false) :
    (trscanner_next m (trscanner_create text len) = none →
      parse_tr tbl m text len deps last_added =
        .error (.fatal "first table cell doesn't contain a time")) ∧
    (∀ (m1 : Mem) (s1 : trscanner),
      trscanner_next m (trscanner_create text len) = some (m1, s1) →
      "DEP".toList.isPrefixOf (cstr m1 s1.sbeg) = false →
      (trscanner_next m1 s1 = none →
        parse_tr tbl m text len deps last_added =
          .error (.fatal "second table cell doesn't contain a destination station")) ∧
      (∀ (m2 : Mem) (s2 : trscanner), trscanner_next m1 s1 = some (m2, s2) →
        (trscanner_next (parse_tr_destination m2 s2.sbeg) s2 = none →
          parse_tr tbl m text len deps last_added = .error (.fatal "Cannot parse track")) ∧
        (∀ (m3 : Mem) (s3 : trscanner),
          trscanner_next (parse_tr_destination m2 s2.sbeg) s2 = some (m3, s3) →
          (trscanner_next (parse_tr_track m3 s3.sbeg) s3 = none →
            parse_tr tbl m text len deps last_added = .error (.fatal "Cannot parse line")) ∧
          (∀ (m4 : Mem) (s4 : trscanner),
            trscanner_next (parse_tr_track m3 s3.sbeg) s3 = some (m4, s4) →
            (trscanner_next m4 s4 = none →
              parse_tr tbl m text len deps last_added = .error (.fatal "Cannot parse train")) ∧
            (∀ (m5 : Mem) (s5 : trscanner), trscanner_next m4 s4 = some (m5, s5) →
              trscanner_next m5 s5 = none →
              ∃ dep : departure_ptr,
                parse_tr tbl m text len deps last_added =
                  .ok (m5, { list := (slist_append deps.list last_added dep).1,
                             size := deps.size + 1 },
                    (slist_append deps.list last_added dep).2) ∧
                dep.status = none ∧ (dep.read m5).status = none))))) := by
  refine ⟨fun h1 => parse_tr_no_time tbl m text len deps last_added hcol h1, ?_⟩
  intro m1 s1 h1 hhdr
  refine ⟨fun h2 => parse_tr_no_destination tbl m text len deps last_added m1 s1 hcol h1 hhdr h2, ?_⟩
  intro m2 s2 h2
  refine ⟨fun h3 => parse_tr_no_track tbl m text len deps last_added m1 s1 m2 s2 hcol h1 hhdr h2 h3,
    ?_⟩
  intro m3 s3 h3
  refine ⟨fun h4 => parse_tr_no_line tbl m text len deps last_added m1 s1 m2 s2 m3 s3
    hcol h1 hhdr h2 h3 h4, ?_⟩
  intro m4 s4 h4
  refine ⟨fun h5 => parse_tr_no_train tbl m text len deps last_added m1 s1 m2 s2 m3 s3 m4 s4
    hcol h1 hhdr h2 h3 h4 h5, ?_⟩
  intro m5 s5 h5 h6
  exact ⟨_, parse_tr_five tbl m text len deps last_added m1 s1 m2 s2 m3 s3 m4 s4 m5 s5
    hcol h1 hhdr h2 h3 h4 h5 h6, rfl, rfl⟩

set_option maxRecDepth 100000 in
theorem parse_tr_missing_cell_witness :
    ((strstr ex_row_short 0 "<td colspan=".toList).isSome = false ∧
      trscanner_next ex_row_short (trscanner_create 0 (ex_row_short.length - 1)) =
        some (ex_short1.1, ex_short1.2) ∧
      "DEP".toList.isPrefixOf (cstr ex_short1.1 ex_short1.2.sbeg) = false ∧
      trscanner_next ex_short1.1 ex_short1.2 = some (ex_short2.1, ex_short2.2) ∧
      trscanner_next (parse_tr_destination ex_short2.1 ex_short2.2.sbeg) ex_short2.2 = none) ∧
    parse_tr ex_tbl ex_row_short 0 (ex_row_short.length - 1) { list := [], size := 0 } none =
      .error (.fatal "Cannot parse track") :=
  have hcol : (strstr ex_row_short 0 "<td colspan=".toList).isSome = false := by decide
  have h1 : trscanner_next ex_row_short (trscanner_create 0 (ex_row_short.length - 1)) =
      some (ex_short1.1, ex_short1.2) := by decide
  have hhdr : "DEP".toList.isPrefixOf (cstr ex_short1.1 ex_short1.2.sbeg) = false := by decide
  have h2 : trscanner_next ex_short1.1 ex_short1.2 = some (ex_short2.1, ex_short2.2) := by decide
  have h3 : trscanner_next (parse_tr_destination ex_short2.1 ex_short2.2.sbeg) ex_short2.2 =
      none := by decide
  ⟨⟨hcol, h1, hhdr, h2, h3⟩,
    (((parse_tr_missing_cell ex_tbl ex_row_short 0 (ex_row_short.length - 1)
      { list := [], size := 0 } none hcol).2 ex_short1.1 ex_short1.2 h1 hhdr).2
        ex_short2.1 ex_short2.2 h2).1 h3⟩
/-! ## The destination code -/

/-- The function `station_code` returns `NULL` exactly when no entry of the
table has the name. -/
theorem station_code_eq_none (tbl : StationTable) (name : Str) :
    station_code tbl name = none ↔ ∀ e ∈ tbl, e.1 ≠ name := by
  induction tbl with
  | nil => simp [station_code]
  | cons e rest ih =>
    obtain ⟨n, c⟩ := e
    by_cases h : name = n
    · subst h
      simp [station_code]
    · have h' : ¬ n = name := fun e => h e.symm
      simp [station_code, h, h', ih]

set_option maxRecDepth 100000 in
/-- C13 (counterexample): the row `5:20 | Atlantis | 1 | Main | T9`, whose
destination is not a name of the table, raises no error: `parse_tr` appends it,
the size becomes 1 and the departure's code is `NULL`. -/
theorem unknown_destination_appended :
    station_code ex_tbl "Atlantis".toList = none ∧
    (ex_parse ex_tbl ex_row_unknown).toOption =
      some (1, [{ time := "5:20".toList, destination := "Atlantis".toList, line := "Main".toList,
                  train := "T9".toList, track := "1".toList, status := none, code := none,
                  next := 0 }]) := by
  decide

/-- C13 (amended): for every decoded row (no colspan marker, no header, five
successful scanner calls) `parse_tr` succeeds and appends the departure whatever
its destination; the code stored is `station_code` of the normalized
destination, which is `NULL` exactly when that text is not a name of the
station table. -/
theorem parse_tr_code (tbl : StationTable) (m : Mem) (text len : Nat)
    (deps : departures_ptr) (last_added : Option Nat) (m1 : Mem) (s1 : trscanner)
    (m2 : Mem) (s2 : trscanner) (m3 : Mem) (s3 : trscanner) (m4 : Mem) (s4 : trscanner)
    (m5 : Mem) (s5 : trscanner) (r6 : Option (Mem × trscanner))
    (hcol : (strstr m text "<td colspan=".toList).isSome = false)
    (h1 : trscanner_next m (trscanner_create text len) = some (m1, s1))
    (hhdr : "DEP".toList.isPrefixOf (cstr m1 s1.sbeg) = false)
    (h2 : trscanner_next m1 s1 = some (m2, s2))
    (h3 : trscanner_next (parse_tr_destination m2 s2.sbeg) s2 = some (m3, s3))
    (h4 : trscanner_next (parse_tr_track m3 s3.sbeg) s3 = some (m4, s4))
    (h5 : trscanner_next m4 s4 = some (m5, s5))
    (h6 : trscanner_next m5 s5 = r6) :
    ∃ (mf : Mem) (dep : departure_ptr),
      parse_tr tbl m text len deps last_added =
        .ok (mf, { list := (slist_append deps.list last_added dep).1, size := deps.size + 1 },
          (slist_append deps.list last_added dep).2) ∧
      cstr mf dep.destination = destination_text (cstr m2 s2.sbeg) ∧
      dep.code = station_code tbl (cstr mf dep.destination) ∧
      (dep.code = none ↔ ∀ e ∈ tbl, e.1 ≠ cstr mf dep.destination) := by
  obtain ⟨mf, dep, hp, _, _, _, _, _, _, hr⟩ := parse_tr_row tbl m text len deps last_added
    m1 s1 m2 s2 m3 s3 m4 s4 m5 s5 r6 hcol h1 hhdr h2 h3 h4 h5 h6
  have hd : cstr mf dep.destination = destination_text (cstr m2 s2.sbeg) :=
    congrArg departure.destination hr
  have hc : dep.code = station_code tbl (destination_text (cstr m2 s2.sbeg)) :=
    congrArg departure.code hr
  refine ⟨mf, dep, hp, hd, ?_, ?_⟩
  · rw [hd]; exact hc
  · rw [hd, hc]; exact station_code_eq_none tbl _

set_option maxRecDepth 100000 in
theorem parse_tr_code_witness :
    ((strstr ex_row 0 "<td colspan=".toList).isSome = false ∧
      trscanner_next ex_row (trscanner_create 0 (ex_row.length - 1)) = some (ex_scan1.1, ex_scan1.2) ∧
      "DEP".toList.isPrefixOf (cstr ex_scan1.1 ex_scan1.2.sbeg) = false ∧
      trscanner_next ex_scan1.1 ex_scan1.2 = some (ex_scan2.1, ex_scan2.2) ∧
      trscanner_next (parse_tr_destination ex_scan2.1 ex_scan2.2.sbeg) ex_scan2.2 =
        some (ex_scan3.1, ex_scan3.2) ∧
      trscanner_next (parse_tr_track ex_scan3.1 ex_scan3.2.sbeg) ex_scan3.2 =
        some (ex_scan4.1, ex_scan4.2) ∧
      trscanner_next ex_scan4.1 ex_scan4.2 = some (ex_scan5.1, ex_scan5.2) ∧
      trscanner_next ex_scan5.1 ex_scan5.2 = none) ∧
    ∃ (mf : Mem) (dep : departure_ptr),
      parse_tr ex_tbl ex_row 0 (ex_row.length - 1) { list := [], size := 0 } none =
        .ok (mf, { list := (slist_append [] none dep).1, size := 0 + 1 },
          (slist_append [] none dep).2) ∧
      cstr mf dep.destination = "Hoboken (SEC)".toList ∧ dep.code = none :=
  have hcol : (strstr ex_row 0 "<td colspan=".toList).isSome = false := by decide
  have h1 : trscanner_next ex_row (trscanner_create 0 (ex_row.length - 1)) =
      some (ex_scan1.1, ex_scan1.2) := by decide
  have hhdr : "DEP".toList.isPrefixOf (cstr ex_scan1.1 ex_scan1.2.sbeg) = false := by decide
  have h2 : trscanner_next ex_scan1.1 ex_scan1.2 = some (ex_scan2.1, ex_scan2.2) := by decide
  have h3 : trscanner_next (parse_tr_destination ex_scan2.1 ex_scan2.2.sbeg) ex_scan2.2 =
      some (ex_scan3.1, ex_scan3.2) := by decide
  have h4 : trscanner_next (parse_tr_track ex_scan3.1 ex_scan3.2.sbeg) ex_scan3.2 =
      some (ex_scan4.1, ex_scan4.2) := by decide
  have h5 : trscanner_next ex_scan4.1 ex_scan4.2 = some (ex_scan5.1, ex_scan5.2) := by decide
  have h6 : trscanner_next ex_scan5.1 ex_scan5.2 = none := by decide
  ⟨⟨hcol, h1, hhdr, h2, h3, h4, h5, h6⟩, by
    obtain ⟨mf, dep, hp, hd, hc, _⟩ := parse_tr_code ex_tbl ex_row 0
      (ex_row.length - 1) { list := [], size := 0 } none ex_scan1.1 ex_scan1.2 ex_scan2.1
      ex_scan2.2 ex_scan3.1 ex_scan3.2 ex_scan4.1 ex_scan4.2 ex_scan5.1 ex_scan5.2 none
      hcol h1 hhdr h2 h3 h4 h5 h6
    have hd' : cstr mf dep.destination = "Hoboken (SEC)".toList := by
      rw [hd]; decide
    refine ⟨mf, dep, hp, hd', ?_⟩
    rw [hc, hd']; decide⟩
/-! ## The colspan test -/

set_option maxRecDepth 100000 in
/-- C14 (evaluation): a document made of the data row of train T1 followed by a
divider row gives an empty catalog, the test `strstr(text, "<td colspan=")` of
the data row finding the marker of the row after it; the data row alone, or
placed after the divider row, is decoded. -/
theorem colspan_of_later_row_skips_row :
    ex_trains (ex_tr_data ++ ex_tr_colspan) = some [] ∧
    ex_trains ex_tr_data = some ["T1".toList] ∧
    ex_trains (ex_tr_colspan ++ ex_tr_data) = some ["T1".toList] := by
  decide
/-! ## The catalog invariant -/

/-- A successful `parse_tr` either leaves the catalog as it is or appends one
departure whose time pointer is the first slice of the row. -/
theorem parse_tr_ok (tbl : StationTable) (m : Mem) (text len : Nat)
    (deps : departures_ptr) (last_added : Option Nat) (m' : Mem) (deps' : departures_ptr)
    (last' : Option Nat)
    (h : parse_tr tbl m text len deps last_added = .ok (m', deps', last')) :
    (deps' = deps ∧ last' = last_added) ∨
    ∃ (m1 : Mem) (s1 : trscanner) (dep : departure_ptr),
      trscanner_next m (trscanner_create text len) = some (m1, s1) ∧ dep.time = s1.sbeg ∧
      dep.next = 0 ∧
      deps' = { list := (slist_append deps.list last_added dep).1, size := deps.size + 1 } ∧
      last' = (slist_append deps.list last_added dep).2 := by
  cases hcol : (strstr m text "<td colspan=".toList).isSome with
  | true =>
    rw [parse_tr_colspan tbl m text len deps last_added hcol] at h
    injection h with h
    injection h with _ h
    injection h with hd hl
    exact Or.inl ⟨hd.symm, hl.symm⟩
  | false =>
  cases h1 : trscanner_next m (trscanner_create text len) with
  | none => rw [parse_tr_no_time tbl m text len deps last_added hcol h1] at h; cases h
  | some r1 =>
  obtain ⟨m1, s1⟩ := r1
  cases hhdr : "DEP".toList.isPrefixOf (cstr m1 s1.sbeg) with
  | true =>
    rw [parse_tr_header tbl m text len deps last_added m1 s1 hcol h1 hhdr] at h
    injection h with h
    injection h with _ h
    injection h with hd hl
    exact Or.inl ⟨hd.symm, hl.symm⟩
  | false =>
  cases h2 : trscanner_next m1 s1 with
  | none =>
    rw [parse_tr_no_destination tbl m text len deps last_added m1 s1 hcol h1 hhdr h2] at h
    cases h
  | some r2 =>
  obtain ⟨m2, s2⟩ := r2
  cases h3 : trscanner_next (parse_tr_destination m2 s2.sbeg) s2 with
  | none =>
    rw [parse_tr_no_track tbl m text len deps last_added m1 s1 m2 s2 hcol h1 hhdr h2 h3] at h
    cases h
  | some r3 =>
  obtain ⟨m3, s3⟩ := r3
  cases h4 : trscanner_next (parse_tr_track m3 s3.sbeg) s3 with
  | none =>
    rw [parse_tr_no_line tbl m text len deps last_added m1 s1 m2 s2 m3 s3 hcol h1 hhdr h2 h3
      h4] at h
    cases h
  | some r4 =>
  obtain ⟨m4, s4⟩ := r4
  cases h5 : trscanner_next m4 s4 with
  | none =>
    rw [parse_tr_no_train tbl m text len deps last_added m1 s1 m2 s2 m3 s3 m4 s4 hcol h1 hhdr
      h2 h3 h4 h5] at h
    cases h
  | some r5 =>
  obtain ⟨m5, s5⟩ := r5
  cases h6 : trscanner_next m5 s5 with
  | none =>
    rw [parse_tr_five tbl m text len deps last_added m1 s1 m2 s2 m3 s3 m4 s4 m5 s5 hcol h1 hhdr
      h2 h3 h4 h5 h6] at h
    injection h with h
    injection h with _ h
    injection h with hd hl
    exact Or.inr ⟨m1, s1, _, rfl, rfl, rfl, hd.symm, hl.symm⟩
  | some r6 =>
    obtain ⟨m6, s6⟩ := r6
    rw [parse_tr_six tbl m text len deps last_added m1 s1 m2 s2 m3 s3 m4 s4 m5 s5 m6 s6 hcol h1
      hhdr h2 h3 h4 h5 h6] at h
    injection h with h
    injection h with _ h
    injection h with hd hl
    exact Or.inr ⟨m1, s1, _, rfl, rfl, rfl, hd.symm, hl.symm⟩

/-- The tail-tracking append puts the new node at the end of the list when
`last` designates the last node. -/
theorem slist_append_last {α : Type} (list : List α) (x : α) :
    slist_append list (last_of list) x = (list ++ [x], last_of (list ++ [x])) := by
  cases list with
  | nil => rfl
  | cons a l =>
    have h1 : last_of (a :: l) = some l.length := by simp [last_of]
    have h2 : last_of ((a :: l) ++ [x]) = some (l.length + 1) := by simp [last_of]
    rw [h1, h2]
    simp [slist_append]

/-- The first slice of a row lies inside the row. -/
theorem first_slice_in_row (m : Mem) (text len : Nat) (m1 : Mem) (s1 : trscanner)
    (h : trscanner_next m (trscanner_create text len) = some (m1, s1)) :
    text + 4 ≤ s1.sbeg ∧ s1.sbeg + 5 ≤ text + len := by
  obtain ⟨o, _, _, _, hsend, hsb, ho, _, h5, hin, _⟩ := trscanner_next_matches _ _ _ _ h
  have hs := (trscanner_next_spec _ _ _ _ h).2.2.2.2.1
  have hin' := hin rfl
  have e1 : (trscanner_create text len).text = text := rfl
  have e2 : (trscanner_create text len).len = len := rfl
  have e3 : (trscanner_create text len).m1.1 = 0 := rfl
  rw [e1] at hsb hsend
  rw [e2] at hin'
  rw [e3] at ho
  omega

/-- One call of `parse_tr` keeps the catalog invariant. -/
theorem parse_tr_invariant (tbl : StationTable) (m : Mem) (text len : Nat)
    (deps : departures_ptr) (last_added : Option Nat) (m' : Mem) (deps' : departures_ptr)
    (last' : Option Nat)
    (hsize : deps.size = deps.list.length) (hlast : last_added = last_of deps.list)
    (h : parse_tr tbl m text len deps last_added = .ok (m', deps', last')) :
    deps'.size = deps'.list.length ∧ last' = last_of deps'.list ∧
    (deps' = deps ∨
      ∃ dep : departure_ptr, deps'.list = deps.list ++ [dep] ∧ deps'.size = deps.size + 1 ∧
        text + 4 ≤ dep.time ∧ dep.time + 5 ≤ text + len) := by
  rcases parse_tr_ok tbl m text len deps last_added m' deps' last' h with
    ⟨hd, hl⟩ | ⟨m1, s1, dep, h1, ht, _, hd, hl⟩
  · subst hd; subst hl
    exact ⟨hsize, hlast, Or.inl rfl⟩
  · have hb := first_slice_in_row m text len m1 s1 h1
    rw [hlast, slist_append_last] at hd hl
    subst hd; subst hl
    refine ⟨by simp [hsize], rfl, Or.inr ⟨dep, rfl, rfl, ?_, ?_⟩⟩
    · rw [ht]; exact hb.1
    · rw [ht]; exact hb.2
/-- The row loop of `station_load` keeps the catalog invariant: the size is the
length of the list, the departures already in the list stay at its head, and
the time pointers increase along the list (document order). -/
theorem station_load_loop_invariant (tbl : StationTable) (len : Nat) :
    ∀ (fuel : Nat) (m : Mem) (so : Nat) (deps : departures_ptr) (last_added : Option Nat)
      (m' : Mem) (deps' : departures_ptr),
      deps.size = deps.list.length → last_added = last_of deps.list →
      (∀ d ∈ deps.list, d.time < so) →
      deps.list.Pairwise (fun a b => a.time < b.time) →
      station_load_loop tbl len fuel m so deps last_added = .ok (m', deps') →
      deps'.size = deps'.list.length ∧ deps.list <+: deps'.list ∧
      deps'.list.Pairwise (fun a b => a.time < b.time) := by
  intro fuel
  induction fuel with
  | zero =>
    intro m so deps last_added m' deps' hsize _ _ hord h
    simp only [station_load_loop, Except.ok.injEq, Prod.mk.injEq] at h
    obtain ⟨_, hd⟩ := h
    subst hd
    exact ⟨hsize, List.prefix_refl _, hord⟩
  | succ fuel ih =>
    intro m so deps last_added m' deps' hsize hlast hbefore hord h
    rw [station_load_loop] at h
    cases hr1 : regexec (find_open ['t', 'r']) m 0 so len with
    | none =>
      rw [hr1] at h
      simp only [Except.ok.injEq, Prod.mk.injEq] at h
      obtain ⟨_, hd⟩ := h
      subst hd
      exact ⟨hsize, List.prefix_refl _, hord⟩
    | some a =>
      rw [hr1] at h
      simp only at h
      cases hr2 : regexec (find_lit ['<', '/', 't', 'r', '>']) m 0 a.2 len with
      | none =>
        rw [hr2] at h
        simp only [Except.ok.injEq, Prod.mk.injEq] at h
        obtain ⟨_, hd⟩ := h
        subst hd
        exact ⟨hsize, List.prefix_refl _, hord⟩
      | some b =>
        rw [hr2] at h
        simp only at h
        cases hp : parse_tr tbl m a.2 (b.1 - a.2) deps last_added with
        | error e => rw [hp] at h; cases h
        | ok r =>
          obtain ⟨mr, depsr, lastr⟩ := r
          rw [hp] at h
          simp only at h
          have ha := regexec_open_spec ['t', 'r'] m 0 so len a.1 a.2 hr1
          have hb := regexec_lit_spec ['<', '/', 't', 'r', '>'] m 0 a.2 len b.1 b.2 hr2
          have hlen2 : (['t', 'r'] : Str).length = 2 := rfl
          have hlen5 : (['<', '/', 't', 'r', '>'] : Str).length = 5 := rfl
          rw [hlen2] at ha
          rw [hlen5] at hb
          obtain ⟨hs', hl', hcase⟩ :=
            parse_tr_invariant tbl m a.2 (b.1 - a.2) deps last_added mr depsr lastr hsize hlast hp
          rcases hcase with hd | ⟨dep, hlist, _, hlo, hhi⟩
          · subst hd
            exact ih mr b.2 depsr lastr m' deps' hsize hl'
              (fun d hd => Nat.lt_of_lt_of_le (hbefore d hd) (by omega)) hord h
          · have hbefore' : ∀ d ∈ depsr.list, d.time < b.2 := by
              intro d hd
              rw [hlist, List.mem_append, List.mem_singleton] at hd
              rcases hd with hd | hd
              · have := hbefore d hd
                omega
              · subst hd
                omega
            have hord' : depsr.list.Pairwise (fun a b => a.time < b.time) := by
              rw [hlist, List.pairwise_append]
              refine ⟨hord, List.pairwise_singleton _ _, ?_⟩
              intro x hx y hy
              rw [List.mem_singleton] at hy
              subst hy
              have := hbefore x hx
              omega
            obtain ⟨r1, r2, r3⟩ := ih mr b.2 depsr lastr m' deps' hs' hl' hbefore' hord' h
            refine ⟨r1, ?_, r3⟩
            exact List.IsPrefix.trans (by rw [hlist]; exact List.prefix_append _ _) r2

/-- The row loop of `station_load` does not depend on its fuel once the fuel is
at least `len + 1 - so`: every round moves `so` forward, and no round starts
with `so` beyond `len`. -/
theorem station_load_loop_fuel (tbl : StationTable) (len : Nat) :
    ∀ (f1 f2 : Nat) (m : Mem) (so : Nat) (deps : departures_ptr) (last_added : Option Nat),
      len + 1 - so ≤ f1 → len + 1 - so ≤ f2 →
      station_load_loop tbl len f1 m so deps last_added =
        station_load_loop tbl len f2 m so deps last_added := by
  have stop : ∀ (m : Mem) (so : Nat), len + 1 - so ≤ 0 →
      regexec (find_open ['t', 'r']) m 0 so len = none := by
    intro m so hso
    cases hr1 : regexec (find_open ['t', 'r']) m 0 so len with
    | none => rfl
    | some a =>
      have ha := regexec_open_spec ['t', 'r'] m 0 so len a.1 a.2 hr1
      have hlen2 : (['t', 'r'] : Str).length = 2 := rfl
      rw [hlen2] at ha
      omega
  intro f1
  induction f1 with
  | zero =>
    intro f2 m so deps last_added h1 _
    cases f2 with
    | zero => rfl
    | succ k =>
      rw [station_load_loop, station_load_loop, stop m so h1]
  | succ f1 ih =>
    intro f2 m so deps last_added h1 h2
    cases f2 with
    | zero =>
      rw [station_load_loop, station_load_loop, stop m so h2]
    | succ k =>
      rw [station_load_loop, station_load_loop]
      cases hr1 : regexec (find_open ['t', 'r']) m 0 so len with
      | none => rfl
      | some a =>
        simp only
        cases hr2 : regexec (find_lit ['<', '/', 't', 'r', '>']) m 0 a.2 len with
        | none => rfl
        | some b =>
          simp only
          cases hp : parse_tr tbl m a.2 (b.1 - a.2) deps last_added with
          | error e => rfl
          | ok r =>
            obtain ⟨mr, depsr, lastr⟩ := r
            simp only
            have ha := regexec_open_spec ['t', 'r'] m 0 so len a.1 a.2 hr1
            have hb := regexec_lit_spec ['<', '/', 't', 'r', '>'] m 0 a.2 len b.1 b.2 hr2
            have hlen2 : (['t', 'r'] : Str).length = 2 := rfl
            have hlen5 : (['<', '/', 't', 'r', '>'] : Str).length = 5 := rfl
            rw [hlen2] at ha
            rw [hlen5] at hb
            exact ih k mr b.2 depsr lastr (by omega) (by omega)
/-- A call of `parse_tr` keeps every rank of the catalog at 0, the new
departure coming from `calloc`. -/
theorem parse_tr_fresh (tbl : StationTable) (m : Mem) (text len : Nat)
    (deps : departures_ptr) (last_added : Option Nat) (m' : Mem) (deps' : departures_ptr)
    (last' : Option Nat)
    (hz : ∀ d ∈ deps.list, d.next = 0) (hlast : last_added = last_of deps.list)
    (h : parse_tr tbl m text len deps last_added = .ok (m', deps', last')) :
    (∀ d ∈ deps'.list, d.next = 0) ∧ last' = last_of deps'.list := by
  rcases parse_tr_ok tbl m text len deps last_added m' deps' last' h with
    ⟨hd, hl⟩ | ⟨m1, s1, dep, _, _, hn, hd, hl⟩
  · subst hd; subst hl
    exact ⟨hz, hlast⟩
  · rw [hlast, slist_append_last] at hd hl
    subst hd; subst hl
    refine ⟨?_, rfl⟩
    intro d hd
    rcases List.mem_append.1 hd with e | e
    · exact hz d e
    · rw [List.mem_singleton.1 e]; exact hn

theorem station_load_loop_fresh (tbl : StationTable) (len : Nat) :
    ∀ (fuel : Nat) (m : Mem) (so : Nat) (deps : departures_ptr) (last_added : Option Nat)
      (m' : Mem) (deps' : departures_ptr),
      (∀ d ∈ deps.list, d.next = 0) → last_added = last_of deps.list →
      station_load_loop tbl len fuel m so deps last_added = .ok (m', deps') →
      ∀ d ∈ deps'.list, d.next = 0 := by
  intro fuel
  induction fuel with
  | zero =>
    intro m so deps last_added m' deps' hz _ h
    simp only [station_load_loop, Except.ok.injEq, Prod.mk.injEq] at h
    rw [← h.2]; exact hz
  | succ fuel ih =>
    intro m so deps last_added m' deps' hz hlast h
    rw [station_load_loop] at h
    cases hr1 : regexec (find_open ['t', 'r']) m 0 so len with
    | none =>
      rw [hr1] at h
      simp only [Except.ok.injEq, Prod.mk.injEq] at h
      rw [← h.2]; exact hz
    | some a =>
      rw [hr1] at h
      simp only at h
      cases hr2 : regexec (find_lit ['<', '/', 't', 'r', '>']) m 0 a.2 len with
      | none =>
        rw [hr2] at h
        simp only [Except.ok.injEq, Prod.mk.injEq] at h
        rw [← h.2]; exact hz
      | some b =>
        rw [hr2] at h
        simp only at h
        cases hp : parse_tr tbl m a.2 (b.1 - a.2) deps last_added with
        | error e => rw [hp] at h; cases h
        | ok r =>
          obtain ⟨mr, depsr, lastr⟩ := r
          rw [hp] at h
          simp only at h
          obtain ⟨f1, f2⟩ := parse_tr_fresh tbl m a.2 (b.1 - a.2) deps last_added mr depsr lastr
            hz hlast hp
          exact ih mr b.2 depsr lastr m' deps' f1 f2 h

/-- A catalog that `station_load` returns has all its ranks at 0. -/
theorem station_load_fresh (tbl : StationTable) (text : Str) (d : departures)
    (h : station_load tbl text = .ok d) : ∀ x ∈ d.list, x.next = 0 := by
  unfold station_load at h
  cases hl : station_load_loop tbl text.length (text.length + 1) (text ++ [NUL]) 0
      { list := [], size := 0 } none with
  | error e => rw [hl] at h; cases h
  | ok r =>
    obtain ⟨m', deps'⟩ := r
    rw [hl] at h
    simp only [Except.ok.injEq] at h
    have hf := station_load_loop_fresh tbl text.length (text.length + 1) (text ++ [NUL]) 0
      { list := [], size := 0 } none m' deps' (fun d hd => by cases hd) rfl hl
    subst h
    intro x hx
    obtain ⟨p, hp, rfl⟩ := List.mem_map.1 hx
    exact hf p hp

/-- A result seen through `toOption` is the result itself. -/
theorem ok_of_toOption {ε α : Type} (x : Except ε α) (a : α) (h : x.toOption = some a) :
    x = .ok a := by
  cases x with
  | error e => cases h
  | ok b =>
    have hb : some b = some a := h
    injection hb with hb
    rw [hb]

/-- C15: the catalog invariant.  (1) A successful `parse_tr` on a catalog whose
size is the length of its list (with `*last_added` its last node) returns a
catalog with the same property, and either leaves the catalog unchanged or puts
exactly one departure at the end of the list and adds one to the size, the time
pointer of the new departure lying inside the row.  (2) A colspan row and (3) a
header row leave the list and the size unchanged.  (4) The row loop of
`station_load` keeps the size equal to the length, keeps what was in the list at
its head, and the time pointers increase along the list, which is the document
order of the rows.  (5) The catalog `station_load` returns has its size equal
to the length of its list and is read from such a list.  (6) The loop's result
is that of any larger fuel: the rounds end because the document does. -/
theorem catalog_invariant (tbl : StationTable) :
    (∀ (m : Mem) (text len : Nat) (deps : departures_ptr) (last_added : Option Nat) (m' : Mem)
        (deps' : departures_ptr) (last' : Option Nat),
        deps.size = deps.list.length → last_added = last_of deps.list →
        parse_tr tbl m text len deps last_added = .ok (m', deps', last') →
        deps'.size = deps'.list.length ∧ last' = last_of deps'.list ∧
        (deps' = deps ∨
          ∃ dep : departure_ptr, deps'.list = deps.list ++ [dep] ∧ deps'.size = deps.size + 1 ∧
            text + 4 ≤ dep.time ∧ dep.time + 5 ≤ text + len)) ∧
    (∀ (m : Mem) (text len : Nat) (deps : departures_ptr) (last_added : Option Nat),
        (strstr m text "<td colspan=".toList).isSome = true →
        parse_tr tbl m text len deps last_added = .ok (m, deps, last_added)) ∧
    (∀ (m : Mem) (text len : Nat) (deps : departures_ptr) (last_added : Option Nat) (m1 : Mem)
        (s1 : trscanner),
        (strstr m text "<td colspan=".toList).isSome = false →
        trscanner_next m (trscanner_create text len) = some (m1, s1) →
        "DEP".toList.isPrefixOf (cstr m1 s1.sbeg) = true →
        parse_tr tbl m text len deps last_added = .ok (m1, deps, last_added)) ∧
    (∀ (len fuel : Nat) (m : Mem) (so : Nat) (deps : departures_ptr) (last_added : Option Nat)
        (m' : Mem) (deps' : departures_ptr),
        deps.size = deps.list.length → last_added = last_of deps.list →
        (∀ d ∈ deps.list, d.time < so) →
        deps.list.Pairwise (fun a b => a.time < b.time) →
        station_load_loop tbl len fuel m so deps last_added = .ok (m', deps') →
        deps'.size = deps'.list.length ∧ deps.list <+: deps'.list ∧
        deps'.list.Pairwise (fun a b => a.time < b.time)) ∧
    (∀ (text : Str) (d : departures), station_load tbl text = .ok d →
        d.size = d.list.length ∧
        ∃ (m : Mem) (deps : departures_ptr),
          d.list = deps.list.map (departure_ptr.read m) ∧ d.size = deps.size ∧
          deps.list.Pairwise (fun a b => a.time < b.time)) ∧
    (∀ (text : Str) (fuel : Nat), text.length + 1 ≤ fuel →
        station_load_loop tbl text.length fuel (text ++ [NUL]) 0 { list := [], size := 0 } none =
        station_load_loop tbl text.length (text.length + 1) (text ++ [NUL]) 0
          { list := [], size := 0 } none) := by
  refine ⟨?_, ?_, ?_, ?_, ?_, ?_⟩
  · intro m text len deps last_added m' deps' last' hsize hlast h
    exact parse_tr_invariant tbl m text len deps last_added m' deps' last' hsize hlast h
  · intro m text len deps last_added hcol
    exact parse_tr_colspan tbl m text len deps last_added hcol
  · intro m text len deps last_added m1 s1 hcol h1 hhdr
    exact parse_tr_header tbl m text len deps last_added m1 s1 hcol h1 hhdr
  · intro len fuel m so deps last_added m' deps' hsize hlast hbefore hord h
    exact station_load_loop_invariant tbl len fuel m so deps last_added m' deps' hsize hlast
      hbefore hord h
  · intro text d h
    unfold station_load at h
    cases hl : station_load_loop tbl text.length (text.length + 1) (text ++ [NUL]) 0
        { list := [], size := 0 } none with
    | error e => rw [hl] at h; cases h
    | ok r =>
      obtain ⟨m', deps'⟩ := r
      rw [hl] at h
      simp only [Except.ok.injEq] at h
      obtain ⟨r1, _, r3⟩ := station_load_loop_invariant tbl text.length (text.length + 1)
        (text ++ [NUL]) 0 { list := [], size := 0 } none m' deps' rfl rfl
        (fun d hd => by cases hd) List.Pairwise.nil hl
      subst h
      exact ⟨by simp [r1], m', deps', rfl, rfl, r3⟩
  · intro text fuel hf
    exact station_load_loop_fuel tbl text.length fuel (text.length + 1) (text ++ [NUL]) 0
      { list := [], size := 0 } none (by omega) (by omega)

set_option maxRecDepth 100000 in
theorem catalog_invariant_witness :
    ex_loaded = some (2, [("5:10".toList, "T1".toList), ("5:30".toList, "T2".toList)]) ∧
    ∀ d : departures,
      station_load ex_tbl (ex_tr_header ++ ex_tr_data ++ ex_tr_data2).toList = .ok d →
      d.size = d.list.length :=
  ⟨by decide, fun d h => ((catalog_invariant ex_tbl).2.2.2.2.1 _ d h).1⟩
/-! ## The slice of a cell -/

theorem isspace_ne_nul (c : Char) (h : isspace c = true) : c ≠ NUL := by
  intro hc
  subst hc
  revert h
  decide

theorem skip_space_eq : ∀ (l : List Char) (sbeg mlen : Nat),
    (skip_space l sbeg mlen).1 = sbeg + (l.takeWhile isspace).length := by
  intro l
  induction l with
  | nil => intro sbeg mlen; simp [skip_space]
  | cons c cs ih =>
    intro sbeg mlen
    by_cases h : isspace c = true
    · simp only [skip_space, h, if_true, List.takeWhile_cons_of_pos, List.length_cons, ih]
      omega
    · simp [skip_space, h]

theorem dropWhile_takeWhile_nul : ∀ (l : List Char),
    (l.dropWhile isspace).takeWhile (fun c => c != NUL) =
      (l.takeWhile (fun c => c != NUL)).dropWhile isspace := by
  intro l
  induction l with
  | nil => rfl
  | cons c cs ih =>
    by_cases h : isspace c = true
    · have hc : (c != NUL) = true := by simpa using isspace_ne_nul c h
      simp only [List.dropWhile_cons, List.takeWhile_cons, h, hc, if_true, ih]
    · by_cases hc : (c != NUL) = true
      · simp [List.dropWhile_cons, List.takeWhile_cons, h, hc]
      · simp [List.dropWhile_cons, List.takeWhile_cons, h, hc]

theorem takeWhile_append_nul (inner rest : List Char) :
    (inner ++ NUL :: rest).takeWhile (fun c => c != NUL) =
      inner.takeWhile (fun c => c != NUL) := by
  induction inner with
  | nil => simp
  | cons c cs ih =>
    by_cases hc : (c != NUL) = true
    · simp only [List.cons_append, List.takeWhile_cons, hc, if_true, ih]
    · simp [List.takeWhile_cons, hc]

theorem drop_takeWhile_length (l : List Char) (p : Char → Bool) :
    l.drop (l.takeWhile p).length = l.dropWhile p := by
  induction l with
  | nil => rfl
  | cons c cs ih =>
    by_cases h : p c = true
    · rw [List.takeWhile_cons_of_pos h, List.dropWhile_cons_of_pos h, List.length_cons,
        List.drop_succ_cons, ih]
    · rw [List.takeWhile_cons_of_neg h, List.dropWhile_cons_of_neg h]; rfl

theorem drop_poke (m : Mem) (d n : Nat) (h : d + n < m.length) :
    (poke m (d + n) NUL).drop d = (m.drop d).take n ++ NUL :: (m.drop d).drop (n + 1) := by
  unfold poke
  induction m generalizing d with
  | nil => simp at h
  | cons c cs ih =>
    cases d with
    | zero =>
      simp only [Nat.zero_add, List.drop_zero]
      rw [List.set_eq_take_append_cons_drop]
      simp only [Nat.zero_add] at h
      rw [if_pos h]
    | succ d =>
      have e : d + 1 + n = (d + n) + 1 := by omega
      rw [e, List.set_cons_succ, List.drop_succ_cons, List.drop_succ_cons]
      exact ih d (by simp only [List.length_cons] at h; omega)

theorem cstr_of_bytes (m : Mem) : ∀ (l : Str) (d : Nat),
    (∀ i c, l[i]? = some c → peek m (d + i) = c) → (∀ c ∈ l, c ≠ NUL) →
    peek m (d + l.length) = NUL → cstr m d = l := by
  intro l
  induction l with
  | nil =>
    intro d _ _ hend
    rw [cstr_unfold, if_pos (by simpa using hend)]
  | cons c cs ih =>
    intro d hb hn hend
    have h0 : peek m d = c := by simpa using hb 0 c (by simp)
    have hc : c ≠ NUL := hn c (List.mem_cons_self _ _)
    rw [cstr_unfold, if_neg (by rw [h0]; exact hc), h0]
    congr 1
    apply ih (d + 1)
    · intro i x hx
      have := hb (i + 1) x (by simpa using hx)
      rw [← this]; congr 1; omega
    · intro x hx
      exact hn x (List.mem_cons_of_mem _ hx)
    · rw [← hend]; congr 1; simp only [List.length_cons]; omega

theorem peek_cstr (m : Mem) : ∀ (i d : Nat) (c : Char), (cstr m d)[i]? = some c →
    peek m (d + i) = c := by
  intro i
  induction i with
  | zero =>
    intro d c h
    rw [cstr_unfold] at h
    by_cases h0 : peek m d = NUL
    · rw [if_pos h0] at h; cases h
    · rw [if_neg h0] at h
      simpa using h
  | succ i ih =>
    intro d c h
    rw [cstr_unfold] at h
    by_cases h0 : peek m d = NUL
    · rw [if_pos h0] at h; cases h
    · rw [if_neg h0] at h
      have := ih (d + 1) c (by simpa using h)
      rw [← this]; congr 1; omega

theorem trim_end_stop (p : Nat) (m : Mem) (mlen : Nat)
    (h : (isspace (peek m p) || peek m p == '<') = false) : trim_end p m mlen = (m, mlen) := by
  cases p with
  | zero => rw [trim_end_zero, if_neg (by rw [h]; decide)]
  | succ p => rw [trim_end_succ, if_neg (by rw [h]; decide)]

theorem trim_end_zeroes : ∀ (p : Nat) (m : Mem) (mlen i : Nat), i ≤ p → p < m.length →
    (∀ x, i ≤ x → x ≤ p → (isspace (peek m x) || peek m x == '<') = true) →
    peek (trim_end p m mlen).1 i = NUL := by
  intro p
  induction p with
  | zero =>
    intro m mlen i hi hp hc
    have hi0 : i = 0 := by omega
    subst hi0
    rw [trim_end_zero, if_pos (hc 0 (Nat.le_refl _) (Nat.le_refl _))]
    rw [peek_poke, if_pos ⟨rfl, hp⟩]
  | succ p ih =>
    intro m mlen i hi hp hc
    rw [trim_end_succ, if_pos (hc (p + 1) hi (Nat.le_refl _))]
    by_cases hip : i = p + 1
    · subst hip
      rw [trim_end_high p _ _ (p + 1) (Nat.lt_succ_self p), peek_poke, if_pos ⟨rfl, hp⟩]
    · apply ih _ _ i (by omega) (by rw [poke_length]; omega)
      intro x hx1 hx2
      rw [peek_poke, if_neg (by omega)]
      exact hc x hx1 (by omega)

theorem find_sub_single_none (c : Char) : ∀ (l : Str), find_sub [c] l = none → c ∉ l := by
  intro l
  induction l with
  | nil => intro _ h; cases h
  | cons x xs ih =>
    intro h
    rw [find_sub] at h
    by_cases hx : List.isPrefixOf [c] (x :: xs) = true
    · rw [if_pos hx] at h; cases h
    · rw [if_neg hx] at h
      have hne : ¬ c = x := by
        intro e; apply hx; subst e; simp [List.isPrefixOf]
      cases hr : find_sub [c] xs with
      | none =>
        intro hm
        rcases List.mem_cons.1 hm with e | e
        · exact hne e
        · exact ih hr e
      | some k => rw [hr] at h; cases h

theorem find_sub_single_some (c : Char) : ∀ (l : Str) (j : Nat), find_sub [c] l = some j →
    l.takeWhile (fun x => x != c) = l.take j ∧ l[j]? = some c := by
  intro l
  induction l with
  | nil => intro j h; simp [find_sub] at h
  | cons x xs ih =>
    intro j h
    rw [find_sub] at h
    by_cases hx : List.isPrefixOf [c] (x :: xs) = true
    · rw [if_pos hx] at h
      injection h with h
      subst h
      have e : c = x := by simpa [List.isPrefixOf] using hx
      subst e
      simp
    · rw [if_neg hx] at h
      have hne : ¬ c = x := by
        intro e; apply hx; subst e; simp [List.isPrefixOf]
      cases hr : find_sub [c] xs with
      | none => rw [hr] at h; cases h
      | some k =>
        rw [hr] at h
        simp only [Option.map_some', Option.some.injEq] at h
        subst h
        obtain ⟨i1, i2⟩ := ih k hr
        have hxc : (x != c) = true := by simpa using fun e : x = c => hne e.symm
        refine ⟨?_, by simpa using i2⟩
        simp only [List.takeWhile_cons, hxc, if_true, List.take_succ_cons, i1]
theorem rdropWhile_rest (p : Char → Bool) : ∀ (l : List Char) (y : Nat) (c : Char),
    (l.rdropWhile p).length ≤ y → l[y]? = some c → p c = true := by
  intro l
  induction l using List.reverseRecOn with
  | nil => intro y c _ h; simp at h
  | append_singleton l x ih =>
    intro y c hy h
    by_cases hx : p x = true
    · rw [List.rdropWhile_concat_pos _ _ _ hx] at hy
      by_cases hyl : y < l.length
      · rw [List.getElem?_append_left hyl] at h
        exact ih y c hy h
      · by_cases hye : y = l.length
        · subst hye
          simp at h
          rw [← h]; exact hx
        · have : (l ++ [x]).length ≤ y := by simp; omega
          rw [List.getElem?_eq_none this] at h; cases h
    · rw [List.rdropWhile_concat_neg _ _ _ hx] at hy
      rw [List.getElem?_eq_none hy] at h; cases h

theorem prefix_getElem? {l1 l2 : List Char} (hp : l1 <+: l2) (i : Nat) (c : Char)
    (h : l1[i]? = some c) : l2[i]? = some c := by
  obtain ⟨t, rfl⟩ := hp
  have hi : i < l1.length := by
    by_contra hn
    rw [List.getElem?_eq_none (by omega)] at h; cases h
  rw [List.getElem?_append_left hi]; exact h

theorem peek_lt_length (m : Mem) (i : Nat) (h : peek m i ≠ NUL) : i < m.length := by
  by_contra hn
  apply h
  rw [peek_eq, List.getElem?_eq_none (by omega)]; rfl

theorem slice_text_plain (X : Str) (h : find_sub ['<'] (X.dropWhile isspace) = none) :
    slice_text X = X.dropWhile isspace := by
  unfold slice_text
  simp only
  rw [if_neg (find_sub_single_none '<' _ h)]

theorem slice_text_cut (X : Str) (j : Nat)
    (h : find_sub ['<'] (X.dropWhile isspace) = some j) :
    slice_text X = ((X.dropWhile isspace).take j).rdropWhile isspace := by
  obtain ⟨h1, h2⟩ := find_sub_single_some '<' _ j h
  unfold slice_text
  simp only
  rw [if_pos (List.getElem?_mem h2), h1]

theorem slice_text_no_lt (X : Str) : '<' ∉ slice_text X := by
  unfold slice_text
  simp only
  by_cases h : '<' ∈ X.dropWhile isspace
  · rw [if_pos h]
    intro hm
    have h1 := (List.rdropWhile_prefix isspace _).subset hm
    have h2 := List.mem_takeWhile_imp h1
    simp at h2
  · rw [if_neg h]; exact h

theorem slice_text_head (X : Str) (c : Char) (h : (slice_text X).head? = some c) :
    isspace c = false := by
  have hR : ∀ c, (X.dropWhile isspace).head? = some c → isspace c = false := by
    intro c hc
    have := List.head?_dropWhile_not isspace X
    rw [hc] at this
    simpa using this
  unfold slice_text at h
  simp only at h
  by_cases hl : '<' ∈ X.dropWhile isspace
  · rw [if_pos hl] at h
    apply hR
    have hp : List.rdropWhile isspace (List.takeWhile (fun c => c != '<') (X.dropWhile isspace))
        <+: X.dropWhile isspace :=
      (List.rdropWhile_prefix isspace _).trans (List.takeWhile_prefix _)
    rw [List.head?_eq_getElem?] at h ⊢
    exact prefix_getElem? hp 0 c h
  · rw [if_neg hl] at h
    exact hR c h

/-- The end trim from an embedded `<`: the string at `sbeg` becomes the text
before the `<` without the white space at its end. -/
theorem trim_cut (ma : Mem) (sbeg j mlen : Nat)
    (hj : find_sub ['<'] (cstr ma sbeg) = some j) :
    cstr (trim_end (sbeg + j) ma mlen).1 sbeg =
      ((cstr ma sbeg).take j).rdropWhile isspace := by
  obtain ⟨hA, hlt⟩ := find_sub_single_some '<' _ j hj
  have hpj : peek ma (sbeg + j) = '<' := peek_cstr ma j sbeg '<' hlt
  have hlen : sbeg + j < ma.length := peek_lt_length ma _ (by rw [hpj]; decide)
  have hpre : List.rdropWhile isspace ((cstr ma sbeg).take j) <+: cstr ma sbeg :=
    (List.rdropWhile_prefix isspace _).trans (List.take_prefix _ _)
  have htj : (List.rdropWhile isspace ((cstr ma sbeg).take j)).length ≤ j := by
    have h1 := (List.rdropWhile_prefix isspace ((cstr ma sbeg).take j)).length_le
    have h2 := List.length_take_le j (cstr ma sbeg)
    omega
  apply cstr_of_bytes
  · intro i c hi
    have hR := prefix_getElem? hpre i c hi
    have hne : List.rdropWhile isspace ((cstr ma sbeg).take j) ≠ [] := by
      intro e; rw [e] at hi; simp at hi
    have hil : i < (List.rdropWhile isspace ((cstr ma sbeg).take j)).length := by
      by_contra hn
      rw [List.getElem?_eq_none (by omega)] at hi; cases hi
    have hlast : (List.rdropWhile isspace ((cstr ma sbeg).take j))[
        (List.rdropWhile isspace ((cstr ma sbeg).take j)).length - 1]? =
        some ((List.rdropWhile isspace ((cstr ma sbeg).take j)).getLast hne) := by
      rw [List.getLast_eq_getElem, List.getElem?_eq_getElem]
    have hq := peek_cstr ma _ sbeg _ (prefix_getElem? hpre _ _ hlast)
    have hns := List.rdropWhile_last_not isspace ((cstr ma sbeg).take j) hne
    have hnl : (List.rdropWhile isspace ((cstr ma sbeg).take j)).getLast hne ≠ '<' := by
      intro e
      have hm := (List.rdropWhile_prefix isspace _).subset (List.getLast_mem hne)
      have hm2 : (List.rdropWhile isspace ((cstr ma sbeg).take j)).getLast hne ∈
          List.takeWhile (fun x => x != '<') (cstr ma sbeg) := by rw [hA]; exact hm
      have := List.mem_takeWhile_imp hm2
      simp only [bne_iff_ne, ne_eq] at this
      exact this e
    rw [trim_end_low (sbeg + j) ma mlen
      (sbeg + ((List.rdropWhile isspace ((cstr ma sbeg).take j)).length - 1)) (by omega)
      (by rw [hq]; simp [hns, hnl]) (sbeg + i) (by omega)]
    exact peek_cstr ma i sbeg c hR
  · intro c hc
    exact cstr_no_nul ma sbeg c (hpre.subset hc)
  · apply trim_end_zeroes _ _ _ _ (by omega) hlen
    intro x hx1 hx2
    by_cases hxj : x = sbeg + j
    · rw [hxj, hpj]; decide
    · have hy : x - sbeg < j := by omega
      have hst : j ≤ (cstr ma sbeg).length := by
        by_contra hn
        rw [List.getElem?_eq_none (by omega)] at hlt; cases hlt
      have hget : ((cstr ma sbeg).take j)[x - sbeg]? = some ((cstr ma sbeg)[x - sbeg]) := by
        rw [List.getElem?_take_of_lt hy, List.getElem?_eq_getElem]
      have hsp := rdropWhile_rest isspace _ (x - sbeg) _ (by omega) hget
      have hpx : peek ma x = (cstr ma sbeg)[x - sbeg] := by
        have := peek_cstr ma (x - sbeg) sbeg _ (List.getElem?_eq_getElem (by omega))
        rw [← this]; congr 1; omega
      rw [hpx, hsp]; rfl
theorem regexec_lit_in_mem (lit : Str) (m : Mem) (text so eo a b : Nat)
    (hlit : 0 < lit.length)
    (h : regexec (find_lit lit) m text so eo = some (a, b)) : text + b ≤ m.length := by
  unfold regexec at h
  cases hf : find_lit lit ((m.drop (text + so)).take (eo - so)) with
  | none => rw [hf] at h; cases h
  | some r =>
    obtain ⟨a', b'⟩ := r
    rw [hf] at h
    simp only [Option.map_some', Option.some.injEq, Prod.mk.injEq] at h
    obtain ⟨rfl, rfl⟩ := h
    obtain ⟨h1, h2⟩ := find_lit_spec lit _ a' b' hf
    have hlen : ((m.drop (text + so)).take (eo - so)).length ≤ m.length - (text + so) := by
      simp only [List.length_take, List.length_drop]
      omega
    show text + (so + b') ≤ m.length
    omega

/-- The parts of a successful `trscanner_next`: the two matches, the start of
the slice after the leading white space, and the memory after the end trim. -/
theorem trscanner_next_parts (m : Mem) (s : trscanner) (m' : Mem) (s' : trscanner)
    (h : trscanner_next m s = some (m', s')) :
    ∃ (o : Nat × Nat) (mlen : Nat),
      regexec (find_open ['t', 'd']) m s.text s.m1.1 s.m1.2 = some o ∧
      regexec (find_lit ['<', '/', 't', 'd', '>']) m s.text o.2 s.len = some s'.m2 ∧
      s'.sbeg = s.text + o.2 +
        (((poke m (s.text + s'.m2.1) NUL).drop (s.text + o.2)).takeWhile isspace).length ∧
      m' = (trim_end
        (match strchr (poke m (s.text + s'.m2.1) NUL) s'.sbeg '<' with
          | some p => p
          | none => s.text + s'.m2.1)
        (poke m (s.text + s'.m2.1) NUL) mlen).1 := by
  rw [trscanner_next_eq] at h
  cases h1 : regexec (find_open ['t', 'd']) m s.text s.m1.1 s.m1.2 with
  | none => rw [h1] at h; cases h
  | some r1 =>
    obtain ⟨a1, b1⟩ := r1
    rw [h1] at h
    simp only at h
    cases h2 : regexec (find_lit ['<', '/', 't', 'd', '>']) m s.text b1 s.len with
    | none => rw [h2] at h; cases h
    | some r2 =>
      obtain ⟨a2, b2⟩ := r2
      rw [h2] at h
      simp only [Option.some.injEq, Prod.mk.injEq] at h
      obtain ⟨hm, hs⟩ := h
      subst hs
      subst hm
      exact ⟨(a1, b1), _, rfl, h2, skip_space_eq _ _ _, rfl⟩

/-- The string at the start of the slice, before the end trim: the text between
the tags up to its first NUL, without its leading white space. -/
theorem cstr_after_skip (m : Mem) (d n : Nat) (h : d + n < m.length) :
    cstr (poke m (d + n) NUL)
        (d + (((poke m (d + n) NUL).drop d).takeWhile isspace).length) =
      (((m.drop d).take n).takeWhile (fun c => c != NUL)).dropWhile isspace := by
  unfold cstr
  rw [← List.drop_drop, drop_takeWhile_length, dropWhile_takeWhile_nul, drop_poke m d n h,
    takeWhile_append_nul]

/-- C16: on a successful `trscanner_next`, with `o` the open match and
`s'.m2` the close match it used, the slice (the string at `sbeg` when the call
returns) is `slice_text` of the text between the two matches: that text without
its leading white space and, when a `<` remains, cut at the first `<` with the
white space before the cut removed too.  The text between the tags is taken up
to its first NUL, which is all of it for a text free of NUL bytes.  The slice
holds no `<` and does not start with white space. -/
theorem slice_is_slice_text (m : Mem) (s : trscanner) (m' : Mem) (s' : trscanner)
    (h : trscanner_next m s = some (m', s')) :
    ∃ o : Nat × Nat,
      regexec (find_open ['t', 'd']) m s.text s.m1.1 s.m1.2 = some o ∧
      regexec (find_lit ['<', '/', 't', 'd', '>']) m s.text o.2 s.len = some s'.m2 ∧
      cstr m' s'.sbeg =
        slice_text ((cell_inner m s.text o s'.m2).takeWhile (fun c => c != NUL)) ∧
      (NUL ∉ cell_inner m s.text o s'.m2 →
        cstr m' s'.sbeg = slice_text (cell_inner m s.text o s'.m2)) ∧
      '<' ∉ cstr m' s'.sbeg ∧
      ∀ c, (cstr m' s'.sbeg).head? = some c → isspace c = false := by
  obtain ⟨o, mlen, ho, hc, hsbeg, hm⟩ := trscanner_next_parts m s m' s' h
  have hl : o.2 ≤ s'.m2.1 ∧ s'.m2.2 = s'.m2.1 + 5 ∧ s'.m2.2 ≤ o.2 + (s.len - o.2) :=
    regexec_lit_spec ['<', '/', 't', 'd', '>'] m s.text o.2 s.len s'.m2.1 s'.m2.2 hc
  have hin : s.text + s'.m2.2 ≤ m.length :=
    regexec_lit_in_mem ['<', '/', 't', 'd', '>'] m s.text o.2 s.len s'.m2.1 s'.m2.2
      (by decide) hc
  obtain ⟨hl1, hl2, _⟩ := hl
  have hsend : s.text + s'.m2.1 = s.text + o.2 + (s'.m2.1 - o.2) := by omega
  have hlt : s.text + o.2 + (s'.m2.1 - o.2) < m.length := by omega
  have hR := cstr_after_skip m (s.text + o.2) (s'.m2.1 - o.2) hlt
  rw [← hsend, ← hsbeg] at hR
  have key : cstr m' s'.sbeg =
      slice_text ((cell_inner m s.text o s'.m2).takeWhile (fun c => c != NUL)) := by
    unfold cell_inner
    cases hch : strchr (poke m (s.text + s'.m2.1) NUL) s'.sbeg '<' with
    | none =>
      rw [hch] at hm
      simp only at hm
      have hnul : peek (poke m (s.text + s'.m2.1) NUL) (s.text + s'.m2.1) = NUL := by
        rw [peek_poke, if_pos ⟨rfl, by omega⟩]
      rw [trim_end_stop _ _ _ (by rw [hnul]; decide)] at hm
      subst hm
      unfold strchr at hch
      rw [Option.map_eq_none'] at hch
      rw [hR] at hch ⊢
      exact (slice_text_plain _ hch).symm
    | some p =>
      rw [hch] at hm
      simp only at hm
      unfold strchr at hch
      rw [Option.map_eq_some'] at hch
      obtain ⟨j, hj, hp⟩ := hch
      subst hp
      subst hm
      rw [trim_cut _ _ _ _ hj]
      rw [hR] at hj ⊢
      exact (slice_text_cut _ j hj).symm
  refine ⟨o, ho, hc, key, ?_, ?_, ?_⟩
  · intro hn
    rw [key]
    congr 1
    rw [List.takeWhile_eq_self_iff]
    intro x hx
    simp only [bne_iff_ne, ne_eq]
    intro e
    exact hn (e ▸ hx)
  · rw [key]; exact slice_text_no_lt _
  · rw [key]; exact slice_text_head _
set_option maxRecDepth 100000 in
theorem slice_is_slice_text_witness :
    (trscanner_next ex_cell (trscanner_create 0 (ex_cell.length - 1)) =
        some (ex_cell1.1, ex_cell1.2) ∧
      cstr ex_cell1.1 ex_cell1.2.sbeg = "ab".toList ∧
      cell_inner ex_cell 0 (0, 4) ex_cell1.2.m2 = "  ab <b>x</b>".toList ∧
      slice_text "  ab <b>x</b>".toList = "ab".toList) ∧
    ∃ o : Nat × Nat,
      regexec (find_open ['t', 'd']) ex_cell 0 0 (ex_cell.length - 1) = some o ∧
      regexec (find_lit ['<', '/', 't', 'd', '>']) ex_cell 0 o.2 (ex_cell.length - 1) =
        some ex_cell1.2.m2 ∧
      cstr ex_cell1.1 ex_cell1.2.sbeg =
        slice_text ((cell_inner ex_cell 0 o ex_cell1.2.m2).takeWhile (fun c => c != NUL)) ∧
      (NUL ∉ cell_inner ex_cell 0 o ex_cell1.2.m2 →
        cstr ex_cell1.1 ex_cell1.2.sbeg = slice_text (cell_inner ex_cell 0 o ex_cell1.2.m2)) ∧
      '<' ∉ cstr ex_cell1.1 ex_cell1.2.sbeg ∧
      ∀ c, (cstr ex_cell1.1 ex_cell1.2.sbeg).head? = some c → isspace c = false :=
  have h : trscanner_next ex_cell (trscanner_create 0 (ex_cell.length - 1)) =
      some (ex_cell1.1, ex_cell1.2) := by decide
  ⟨⟨h, by decide, by decide, by decide⟩,
    slice_is_slice_text ex_cell (trscanner_create 0 (ex_cell.length - 1)) ex_cell1.1 ex_cell1.2 h⟩
/-! ## The cursor of the scanner -/

/-- One successful call moves the cursor to the end of the close match, at
least nine bytes further and not beyond `len`. -/
theorem cursor_step (m : Mem) (s : trscanner) (m' : Mem) (s' : trscanner)
    (h : trscanner_next m s = some (m', s')) :
    s'.m1.1 = s'.m2.2 ∧ s.m1.1 + 9 ≤ s'.m1.1 ∧ s'.m1.1 ≤ s.len ∧ s'.text = s.text ∧
    s'.len = s.len := by
  obtain ⟨o, _, hc, hm1, _, _, ho, _, h5, _, _⟩ := trscanner_next_matches m s m' s' h
  have hl : o.2 ≤ s'.m2.1 ∧ s'.m2.2 = s'.m2.1 + 5 ∧ s'.m2.2 ≤ o.2 + (s.len - o.2) :=
    regexec_lit_spec ['<', '/', 't', 'd', '>'] m s.text o.2 s.len s'.m2.1 s'.m2.2 hc
  obtain ⟨ht, hlen, _⟩ := trscanner_next_spec m s m' s' h
  have e1 : s'.m1.1 = s'.m2.2 := by rw [hm1]
  refine ⟨e1, ?_, ?_, ht, hlen⟩
  · rw [e1]; omega
  · rw [e1]; omega

/-- After `n` successful calls the cursor has moved by at least `9 * n` and is
not beyond `len`. -/
theorem trscanner_run_cursor : ∀ (n : Nat) (m : Mem) (s : trscanner) (mn : Mem) (sn : trscanner),
    trscanner_run n m s = some (mn, sn) →
    s.m1.1 + 9 * n ≤ sn.m1.1 ∧ sn.len = s.len ∧ (0 < n → sn.m1.1 ≤ s.len) := by
  intro n
  induction n with
  | zero =>
    intro m s mn sn h
    simp only [trscanner_run, Option.some.injEq, Prod.mk.injEq] at h
    obtain ⟨_, hs⟩ := h
    subst hs
    exact ⟨by omega, rfl, fun h0 => absurd h0 (Nat.lt_irrefl 0)⟩
  | succ n ih =>
    intro m s mn sn h
    rw [trscanner_run] at h
    cases h1 : trscanner_next m s with
    | none => rw [h1] at h; cases h
    | some r =>
      obtain ⟨m1, s1⟩ := r
      rw [h1] at h
      simp only at h
      obtain ⟨_, c2, c3, _, c5⟩ := cursor_step m s m1 s1 h1
      obtain ⟨i1, i2, i3⟩ := ih m1 s1 mn sn h
      refine ⟨by omega, by rw [i2, c5], fun _ => ?_⟩
      cases n with
      | zero =>
        simp only [trscanner_run, Option.some.injEq, Prod.mk.injEq] at h
        obtain ⟨_, hs⟩ := h
        subst hs
        exact c3
      | succ k =>
        have := i3 (Nat.succ_pos k)
        omega

/-- C17: a successful `trscanner_next` leaves the cursor `m1.rm_so` at the end
of the close match it used, at least nine bytes beyond the cursor before the
call and not beyond `len`; the slice starts after the cursor before the call
and ends, with its string, before the close match, so inside
`[text, text + len)`.  The slice of a following successful call starts after
the end of this close match and leaves the string of this slice as it is.  Any
`n` successful calls in a row move the cursor by at least `9 * n` within `len`,
so there are at most `len / 9` of them. -/
theorem cursor_after_close (m : Mem) (s : trscanner) (m' : Mem) (s' : trscanner)
    (h : trscanner_next m s = some (m', s')) :
    (∃ o : Nat × Nat,
      regexec (find_open ['t', 'd']) m s.text s.m1.1 s.m1.2 = some o ∧
      regexec (find_lit ['<', '/', 't', 'd', '>']) m s.text o.2 s.len = some s'.m2) ∧
    s'.m1.1 = s'.m2.2 ∧ s.m1.1 < s'.m1.1 ∧ s'.m1.1 ≤ s.len ∧
    s.text + s.m1.1 + 4 ≤ s'.sbeg ∧ s'.sbeg + strlen m' s'.sbeg ≤ s'.send ∧
    s'.send = s.text + s'.m2.1 ∧ s'.send + 5 ≤ s.text + s.len ∧
    (∀ (m'' : Mem) (s'' : trscanner), trscanner_next m' s' = some (m'', s'') →
      s.text + s'.m2.2 + 4 ≤ s''.sbeg ∧ s'.m1.1 < s''.m1.1 ∧
      cstr m'' s'.sbeg = cstr m' s'.sbeg) ∧
    (∀ (n : Nat) (mn : Mem) (sn : trscanner), trscanner_run n m s = some (mn, sn) →
      s.m1.1 + 9 * n ≤ sn.m1.1 ∧ (0 < n → sn.m1.1 ≤ s.len ∧ 9 * n ≤ s.len - s.m1.1)) := by
  obtain ⟨o, ho, hc, _, hsend, _, _, _, _, _, _⟩ := trscanner_next_matches m s m' s' h
  obtain ⟨c1, c2, c3, c4, c5⟩ := cursor_step m s m' s' h
  obtain ⟨_, _, _, p4, _, p6, _, _, _⟩ := trscanner_next_spec m s m' s' h
  have hend := slice_end m s m' s' h
  refine ⟨⟨o, ho, hc⟩, c1, by omega, c3, p4, hend, hsend, by omega, ?_, ?_⟩
  · intro m'' s'' h2
    obtain ⟨d1, d2, _, _, _⟩ := cursor_step m' s' m'' s'' h2
    obtain ⟨_, _, _, q4, _, _, _, q8, _⟩ := trscanner_next_spec m' s' m'' s'' h2
    refine ⟨by rw [← c1, ← c4]; exact q4, by omega, ?_⟩
    exact cstr_kept m' m'' s'.sbeg s'.send hend (fun i hi => q8 i (by omega))
  · intro n mn sn hr
    obtain ⟨r1, _, r3⟩ := trscanner_run_cursor n m s mn sn hr
    refine ⟨r1, fun hn => ?_⟩
    have := r3 hn
    exact ⟨this, by omega⟩

set_option maxRecDepth 100000 in
theorem cursor_after_close_witness :
    trscanner_next ex_row (trscanner_create 0 (ex_row.length - 1)) =
      some (ex_scan1.1, ex_scan1.2) ∧
    ex_scan1.2.m1.1 = ex_scan1.2.m2.2 ∧ ex_scan1.2.m2.2 = 13 ∧
    (trscanner_create 0 (ex_row.length - 1)).m1.1 < ex_scan1.2.m1.1 ∧
    ex_scan1.2.m1.1 ≤ (trscanner_create 0 (ex_row.length - 1)).len :=
  have h : trscanner_next ex_row (trscanner_create 0 (ex_row.length - 1)) =
      some (ex_scan1.1, ex_scan1.2) := by decide
  ⟨h, (cursor_after_close ex_row (trscanner_create 0 (ex_row.length - 1)) ex_scan1.1
      ex_scan1.2 h).2.1, by decide,
    (cursor_after_close ex_row (trscanner_create 0 (ex_row.length - 1)) ex_scan1.1
      ex_scan1.2 h).2.2.1,
    (cursor_after_close ex_row (trscanner_create 0 (ex_row.length - 1)) ex_scan1.1
      ex_scan1.2 h).2.2.2.1⟩
/-! ## The failures of the scanner -/

set_option maxRecDepth 100000 in
/-- C19 (evaluation): in the document of the two rows `Ramsey` (no marker) and
`Hoboken&nbsp;&nbsp;at 5:10`, the stop Ramsey gets the status `at 5:10`, the
marker found being that of the row after it, and the stop Hoboken, whose own
marker has been zeroed by then, gets the pointer `NULL + 12`.  The row Ramsey
alone gets `NULL + 12` too, and the row Hoboken alone gets its status. -/
theorem marker_of_later_row_taken :
    ex_stops_of (ex_tr_plain_stop ++ ex_tr_status_stop) =
      [("Ramsey".toList, some "RY".toList, stop_status.text "at 5:10".toList),
       ("Hoboken".toList, some "HB".toList, stop_status.wild)] ∧
    ex_stops_of ex_tr_plain_stop = [("Ramsey".toList, some "RY".toList, stop_status.wild)] ∧
    ex_stops_of ex_tr_status_stop =
      [("Hoboken".toList, some "HB".toList, stop_status.text "at 5:10".toList)] := by
  decide
/-! ## The stops of a route -/

/-- The append of `parse_train_stops` puts the stop at the end of the list. -/
theorem stop_append_last {α : Type} (list : List α) (x : α) :
    (if list.isEmpty then (x :: list, some 0) else slist_append list (last_of list) x) =
      (list ++ [x], last_of (list ++ [x])) := by
  cases list with
  | nil => rfl
  | cons a l =>
    have h : (a :: l).isEmpty = false := rfl
    rw [h, slist_append_last]
    rfl

/-- One round of the row loop of `parse_train_stops` on a row with a paragraph. -/
theorem parse_train_stops_loop_round (tbl : StationTable) (len fuel : Nat) (m : Mem) (so : Nat)
    (list : List stop_ptr) (a b : Nat × Nat) (m2 : Mem) (name : Nat) (status : status_ptr)
    (hr1 : regexec (find_open ['t', 'r']) m 0 so len = some a)
    (hr2 : regexec (find_lit ['<', '/', 't', 'r', '>']) m 0 a.2 len = some b)
    (hp : parse_par m a.2 (b.1 - a.2) = (m2, some (name, status))) :
    parse_train_stops_loop tbl len (fuel + 1) m so list (last_of list) =
      parse_train_stops_loop tbl len fuel m2 b.2
        (list ++ [{ name := name, code := station_code tbl (cstr m2 name), status := status }])
        (last_of (list ++
          [{ name := name, code := station_code tbl (cstr m2 name), status := status }])) := by
  rw [parse_train_stops_loop, hr1]
  simp only
  rw [hr2]
  simp only
  rw [hp]
  simp only
  rw [stop_append_last]

/-- The row loop of `parse_train_stops` only adds stops at the end of the list. -/
theorem parse_train_stops_loop_prefix (tbl : StationTable) (len : Nat) :
    ∀ (fuel : Nat) (m : Mem) (so : Nat) (list : List stop_ptr),
      list <+: (parse_train_stops_loop tbl len fuel m so list (last_of list)).2 := by
  intro fuel
  induction fuel with
  | zero => intro m so list; exact List.prefix_refl _
  | succ fuel ih =>
    intro m so list
    cases hr1 : regexec (find_open ['t', 'r']) m 0 so len with
    | none =>
      rw [parse_train_stops_loop, hr1]
    | some a =>
      cases hr2 : regexec (find_lit ['<', '/', 't', 'r', '>']) m 0 a.2 len with
      | none =>
        rw [parse_train_stops_loop, hr1]
        simp only
        rw [hr2]
      | some b =>
        cases hp : parse_par m a.2 (b.1 - a.2) with
        | mk m2 r =>
          cases r with
          | none =>
            rw [parse_train_stops_loop, hr1]
            simp only
            rw [hr2]
            simp only
            rw [hp]
            exact ih m2 b.2 list
          | some ns =>
            obtain ⟨name, status⟩ := ns
            rw [parse_train_stops_loop_round tbl len fuel m so list a b m2 name status hr1 hr2
              hp]
            exact (List.prefix_append _ _).trans (ih m2 b.2 _)

set_option maxRecDepth 100000 in
/-- C20 (counterexample): in the route document `Atlantis`, `Ramsey`, with a
table that has no `Atlantis`, the stop Atlantis is not skipped: it is the first
stop of the sequence, with a `NULL` code. -/
theorem unresolved_stop_appended :
    station_code ex_tbl "Atlantis".toList = none ∧
    ex_stops_of ex_unknown_stop_doc =
      [("Atlantis".toList, none, stop_status.wild),
       ("Ramsey".toList, some "RY".toList, stop_status.wild)] := by
  decide

/-- C20 (amended): every row in which `parse_par` finds a paragraph adds one
stop at the end of the sequence, whether its name is in the station table or
not; the code stored is `station_code` of the name, `NULL` exactly when no
table entry has the name; the loop goes on with the next row, and the stop
stays in the sequence the loop returns. -/
theorem parse_train_stops_appends (tbl : StationTable) (len fuel : Nat) (m : Mem) (so : Nat)
    (list : List stop_ptr) (a b : Nat × Nat) (m2 : Mem) (name : Nat) (status : status_ptr)
    (hr1 : regexec (find_open ['t', 'r']) m 0 so len = some a)
    (hr2 : regexec (find_lit ['<', '/', 't', 'r', '>']) m 0 a.2 len = some b)
    (hp : parse_par m a.2 (b.1 - a.2) = (m2, some (name, status))) :
    ∃ st : stop_ptr,
      st.name = name ∧ st.status = status ∧ st.code = station_code tbl (cstr m2 name) ∧
      (st.code = none ↔ ∀ e ∈ tbl, e.1 ≠ cstr m2 name) ∧
      parse_train_stops_loop tbl len (fuel + 1) m so list (last_of list) =
        parse_train_stops_loop tbl len fuel m2 b.2 (list ++ [st]) (last_of (list ++ [st])) ∧
      list ++ [st] <+: (parse_train_stops_loop tbl len (fuel + 1) m so list (last_of list)).2 := by
  refine ⟨{ name := name, code := station_code tbl (cstr m2 name), status := status }, rfl, rfl,
    rfl, station_code_eq_none tbl _, ?_, ?_⟩
  · exact parse_train_stops_loop_round tbl len fuel m so list a b m2 name status hr1 hr2 hp
  · rw [parse_train_stops_loop_round tbl len fuel m so list a b m2 name status hr1 hr2 hp]
    exact parse_train_stops_loop_prefix tbl len fuel m2 b.2 _

set_option maxRecDepth 100000 in
theorem parse_train_stops_appends_witness :
    (regexec (find_open ['t', 'r']) ex_unknown_stop_mem 0 0 ex_unknown_stop_doc.length =
        some (0, 4) ∧
      regexec (find_lit ['<', '/', 't', 'r', '>']) ex_unknown_stop_mem 0 4
        ex_unknown_stop_doc.length = some (28, 33) ∧
      parse_par ex_unknown_stop_mem 4 (28 - 4) =
        (ex_unknown_stop_par.1, some (11, status_ptr.wild)) ∧
      cstr ex_unknown_stop_par.1 11 = "Atlantis".toList) ∧
    ∃ st : stop_ptr,
      st.name = 11 ∧ st.status = status_ptr.wild ∧
      st.code = station_code ex_tbl (cstr ex_unknown_stop_par.1 11) ∧
      (st.code = none ↔ ∀ e ∈ ex_tbl, e.1 ≠ cstr ex_unknown_stop_par.1 11) ∧
      parse_train_stops_loop ex_tbl ex_unknown_stop_doc.length (ex_unknown_stop_doc.length + 1)
          ex_unknown_stop_mem 0 [] (last_of ([] : List stop_ptr)) =
        parse_train_stops_loop ex_tbl ex_unknown_stop_doc.length ex_unknown_stop_doc.length
          ex_unknown_stop_par.1 33 ([] ++ [st]) (last_of ([] ++ [st])) ∧
      [] ++ [st] <+: (parse_train_stops_loop ex_tbl ex_unknown_stop_doc.length
          (ex_unknown_stop_doc.length + 1) ex_unknown_stop_mem 0 [] (last_of ([] : List stop_ptr))).2 :=
  have hr1 : regexec (find_open ['t', 'r']) ex_unknown_stop_mem 0 0 ex_unknown_stop_doc.length =
      some (0, 4) := by decide
  have hr2 : regexec (find_lit ['<', '/', 't', 'r', '>']) ex_unknown_stop_mem 0 4
      ex_unknown_stop_doc.length = some (28, 33) := by decide
  have hp : parse_par ex_unknown_stop_mem 4 (28 - 4) =
      (ex_unknown_stop_par.1, some (11, status_ptr.wild)) := by decide
  ⟨⟨hr1, hr2, hp, by decide⟩,
    parse_train_stops_appends ex_tbl ex_unknown_stop_doc.length ex_unknown_stop_doc.length
      ex_unknown_stop_mem 0 [] (0, 4) (28, 33) ex_unknown_stop_par.1 11 status_ptr.wild hr1 hr2
      hp⟩

/-- The row loop of `parse_train_stops` does not depend on its fuel once the
fuel is at least `len + 1 - so`: every round moves `so` forward, and no round
starts with `so` beyond `len`. -/
theorem parse_train_stops_loop_fuel (tbl : StationTable) (len : Nat) :
    ∀ (f1 f2 : Nat) (m : Mem) (so : Nat) (list : List stop_ptr) (last : Option Nat),
      len + 1 - so ≤ f1 → len + 1 - so ≤ f2 →
      parse_train_stops_loop tbl len f1 m so list last =
        parse_train_stops_loop tbl len f2 m so list last := by
  have stop : ∀ (m : Mem) (so : Nat), len + 1 - so ≤ 0 →
      regexec (find_open ['t', 'r']) m 0 so len = none := by
    intro m so hso
    cases hr1 : regexec (find_open ['t', 'r']) m 0 so len with
    | none => rfl
    | some a =>
      have ha := regexec_open_spec ['t', 'r'] m 0 so len a.1 a.2 hr1
      have hlen2 : (['t', 'r'] : Str).length = 2 := rfl
      rw [hlen2] at ha
      omega
  intro f1
  induction f1 with
  | zero =>
    intro f2 m so list last h1 _
    cases f2 with
    | zero => rfl
    | succ k =>
      rw [parse_train_stops_loop, parse_train_stops_loop, stop m so h1]
  | succ f1 ih =>
    intro f2 m so list last h1 h2
    cases f2 with
    | zero =>
      rw [parse_train_stops_loop, parse_train_stops_loop, stop m so h2]
    | succ k =>
      rw [parse_train_stops_loop, parse_train_stops_loop]
      cases hr1 : regexec (find_open ['t', 'r']) m 0 so len with
      | none => rfl
      | some a =>
        simp only
        cases hr2 : regexec (find_lit ['<', '/', 't', 'r', '>']) m 0 a.2 len with
        | none => rfl
        | some b =>
          simp only
          have ha := regexec_open_spec ['t', 'r'] m 0 so len a.1 a.2 hr1
          have hb := regexec_lit_spec ['<', '/', 't', 'r', '>'] m 0 a.2 len b.1 b.2 hr2
          have hlen2 : (['t', 'r'] : Str).length = 2 := rfl
          have hlen5 : (['<', '/', 't', 'r', '>'] : Str).length = 5 := rfl
          rw [hlen2] at ha
          rw [hlen5] at hb
          cases hp : parse_par m a.2 (b.1 - a.2) with
          | mk m2 r =>
            cases r with
            | none =>
              simp only
              exact ih k m2 b.2 list last (by omega) (by omega)
            | some ns =>
              obtain ⟨name, status⟩ := ns
              simp only
              exact ih k m2 b.2 _ _ (by omega) (by omega)
/-! ## The origin in the route -/

/-- No stop with the code, all codes resolved: `stop_find` returns `NULL`. -/
theorem stop_find_none (from_code : Str) : ∀ (l : List stop),
    (∀ s ∈ l, s.code ≠ none) → (∀ s ∈ l, s.code ≠ some from_code) →
    stop_find l from_code = .ok none := by
  intro l
  induction l with
  | nil => intro _ _; rfl
  | cons s rest ih =>
    intro hres hno
    have h1 := hres s (List.mem_cons_self _ _)
    have h2 := hno s (List.mem_cons_self _ _)
    cases hc : s.code with
    | none => exact absurd hc h1
    | some c =>
      have hne : ¬ c = from_code := fun e => h2 (by rw [hc, e])
      rw [stop_find]
      simp only [hc, if_neg hne]
      exact ih (fun x hx => hres x (List.mem_cons_of_mem _ hx))
        (fun x hx => hno x (List.mem_cons_of_mem _ hx))

/-- The first stop with the code, the stops before it having other, resolved
codes: `stop_find` returns it, with its successors. -/
theorem stop_find_split (from_code : Str) (s : stop) (rest : List stop)
    (hs : s.code = some from_code) : ∀ (P : List stop),
    (∀ x ∈ P, x.code ≠ none) → (∀ x ∈ P, x.code ≠ some from_code) →
    stop_find (P ++ s :: rest) from_code = .ok (some (s :: rest)) := by
  intro P
  induction P with
  | nil =>
    intro _ _
    rw [List.nil_append, stop_find]
    simp only [hs, if_true]
  | cons x xs ih =>
    intro hres hno
    have h1 := hres x (List.mem_cons_self _ _)
    have h2 := hno x (List.mem_cons_self _ _)
    cases hc : x.code with
    | none => exact absurd hc h1
    | some c =>
      have hne : ¬ c = from_code := fun e => h2 (by rw [hc, e])
      rw [List.cons_append, stop_find]
      simp only [hc, if_neg hne]
      exact ih (fun y hy => hres y (List.mem_cons_of_mem _ hy))
        (fun y hy => hno y (List.mem_cons_of_mem _ hy))

/-- All codes resolved and some stop with the code: `stop_find` returns a stop. -/
theorem stop_find_some (from_code : Str) : ∀ (l : List stop),
    (∀ s ∈ l, s.code ≠ none) → (∃ s ∈ l, s.code = some from_code) →
    ∃ origin, stop_find l from_code = .ok (some origin) := by
  intro l
  induction l with
  | nil => intro _ h; obtain ⟨s, hs, _⟩ := h; cases hs
  | cons s rest ih =>
    intro hres hex
    have h1 := hres s (List.mem_cons_self _ _)
    cases hc : s.code with
    | none => exact absurd hc h1
    | some c =>
      rw [stop_find]
      simp only [hc]
      by_cases he : c = from_code
      · rw [if_pos he]; exact ⟨_, rfl⟩
      · rw [if_neg he]
        apply ih (fun x hx => hres x (List.mem_cons_of_mem _ hx))
        obtain ⟨x, hx, hxc⟩ := hex
        rcases List.mem_cons.1 hx with e | e
        · subst e
          rw [hc] at hxc
          injection hxc with hxc
          exact absurd hxc he
        · exact ⟨x, e, hxc⟩

/-- The errors of `parse_tr` are its own five messages. -/
theorem parse_tr_error (tbl : StationTable) (m : Mem) (text len : Nat)
    (deps : departures_ptr) (last_added : Option Nat) (e : Fault)
    (h : parse_tr tbl m text len deps last_added = .error e) : e ≠ route_error := by
  cases hcol : (strstr m text "<td colspan=".toList).isSome with
  | true => rw [parse_tr_colspan tbl m text len deps last_added hcol] at h; cases h
  | false =>
  cases h1 : trscanner_next m (trscanner_create text len) with
  | none =>
    rw [parse_tr_no_time tbl m text len deps last_added hcol h1] at h
    injection h with h
    rw [← h]; decide
  | some r1 =>
  obtain ⟨m1, s1⟩ := r1
  cases hhdr : "DEP".toList.isPrefixOf (cstr m1 s1.sbeg) with
  | true => rw [parse_tr_header tbl m text len deps last_added m1 s1 hcol h1 hhdr] at h; cases h
  | false =>
  cases h2 : trscanner_next m1 s1 with
  | none =>
    rw [parse_tr_no_destination tbl m text len deps last_added m1 s1 hcol h1 hhdr h2] at h
    injection h with h
    rw [← h]; decide
  | some r2 =>
  obtain ⟨m2, s2⟩ := r2
  cases h3 : trscanner_next (parse_tr_destination m2 s2.sbeg) s2 with
  | none =>
    rw [parse_tr_no_track tbl m text len deps last_added m1 s1 m2 s2 hcol h1 hhdr h2 h3] at h
    injection h with h
    rw [← h]; decide
  | some r3 =>
  obtain ⟨m3, s3⟩ := r3
  cases h4 : trscanner_next (parse_tr_track m3 s3.sbeg) s3 with
  | none =>
    rw [parse_tr_no_line tbl m text len deps last_added m1 s1 m2 s2 m3 s3 hcol h1 hhdr h2 h3
      h4] at h
    injection h with h
    rw [← h]; decide
  | some r4 =>
  obtain ⟨m4, s4⟩ := r4
  cases h5 : trscanner_next m4 s4 with
  | none =>
    rw [parse_tr_no_train tbl m text len deps last_added m1 s1 m2 s2 m3 s3 m4 s4 hcol h1 hhdr
      h2 h3 h4 h5] at h
    injection h with h
    rw [← h]; decide
  | some r5 =>
  obtain ⟨m5, s5⟩ := r5
  cases h6 : trscanner_next m5 s5 with
  | none =>
    rw [parse_tr_five tbl m text len deps last_added m1 s1 m2 s2 m3 s3 m4 s4 m5 s5 hcol h1 hhdr
      h2 h3 h4 h5 h6] at h
    cases h
  | some r6 =>
    obtain ⟨m6, s6⟩ := r6
    rw [parse_tr_six tbl m text len deps last_added m1 s1 m2 s2 m3 s3 m4 s4 m5 s5 m6 s6 hcol h1
      hhdr h2 h3 h4 h5 h6] at h
    cases h

theorem station_load_loop_error (tbl : StationTable) (len : Nat) :
    ∀ (fuel : Nat) (m : Mem) (so : Nat) (deps : departures_ptr) (last_added : Option Nat)
      (e : Fault), station_load_loop tbl len fuel m so deps last_added = .error e →
      e ≠ route_error := by
  intro fuel
  induction fuel with
  | zero => intro m so deps last_added e h; rw [station_load_loop] at h; cases h
  | succ fuel ih =>
    intro m so deps last_added e h
    rw [station_load_loop] at h
    cases hr1 : regexec (find_open ['t', 'r']) m 0 so len with
    | none => rw [hr1] at h; cases h
    | some a =>
      rw [hr1] at h
      simp only at h
      cases hr2 : regexec (find_lit ['<', '/', 't', 'r', '>']) m 0 a.2 len with
      | none => rw [hr2] at h; cases h
      | some b =>
        rw [hr2] at h
        simp only at h
        cases hp : parse_tr tbl m a.2 (b.1 - a.2) deps last_added with
        | error e' =>
          rw [hp] at h
          injection h with h
          rw [← h]
          exact parse_tr_error tbl m a.2 (b.1 - a.2) deps last_added e' hp
        | ok r =>
          obtain ⟨mr, depsr, lastr⟩ := r
          rw [hp] at h
          exact ih mr b.2 depsr lastr e h

theorem station_create_error (tbl : StationTable) (w : World) (code : Option Str) (e : Fault)
    (h : station_create tbl w code = .error e) : e ≠ route_error := by
  unfold station_create at h
  cases code with
  | none => injection h with h; rw [← h]; decide
  | some c =>
    simp only at h
    cases hn : station_name tbl c with
    | none => rw [hn] at h; injection h with h; rw [← h]; decide
    | some name =>
      rw [hn] at h
      simp only at h
      cases hd : w.station_doc c with
      | none => rw [hd] at h; injection h with h; rw [← h]; decide
      | some text =>
        rw [hd] at h
        simp only at h
        cases hl : station_load tbl text with
        | ok d => rw [hl] at h; cases h
        | error e' =>
          rw [hl] at h
          injection h with h
          rw [← h]
          unfold station_load at hl
          cases hll : station_load_loop tbl text.length (text.length + 1) (text ++ [NUL]) 0
              { list := [], size := 0 } none with
          | ok r => rw [hll] at hl; cases hl
          | error e'' =>
            rw [hll] at hl
            injection hl with hl
            rw [← hl]
            exact station_load_loop_error tbl _ _ _ _ _ _ e'' hll

theorem train_append_status_loop_error (tbl : StationTable) (st_code train : Str) :
    ∀ (l : List departure) (b : List Str) (appended : Bool) (e : Fault),
      train_append_status_loop tbl st_code train l b appended = .error e → e ≠ route_error := by
  intro l
  induction l with
  | nil => intro b appended e h; rw [train_append_status_loop] at h; cases h
  | cons dep rest ih =>
    intro b appended e h
    rw [train_append_status_loop] at h
    by_cases ht : train ≠ dep.train
    · rw [if_pos ht] at h; exact ih _ _ e h
    · rw [if_neg ht] at h
      cases hs : dep.status with
      | none => rw [hs] at h; exact ih _ _ e h
      | some status =>
        rw [hs] at h
        simp only at h
        by_cases hnil : status = []
        · rw [if_pos hnil] at h; exact ih _ _ e h
        · rw [if_neg hnil] at h
          unfold snprintf at h
          by_cases hfit : (status_line tbl st_code status).length < 1024
          · rw [if_pos hfit] at h
            exact ih _ _ e h
          · rw [if_neg hfit] at h
            injection h with h
            rw [← h]; decide

theorem prev_stops_loop_error (tbl : StationTable) (w : World) (train : Str) :
    ∀ (l : List stop) (r : Report) (appended : Bool) (e : Fault),
      prev_stops_loop tbl w train l r appended = .error e → e ≠ route_error := by
  intro l
  induction l with
  | nil => intro r appended e h; rw [prev_stops_loop] at h; cases h
  | cons s rest ih =>
    intro r appended e h
    rw [prev_stops_loop] at h
    cases hc : station_create tbl w s.code with
    | error e' =>
      rw [hc] at h
      injection h with h
      rw [← h]
      exact station_create_error tbl w s.code e' hc
    | ok st =>
      rw [hc] at h
      simp only at h
      cases ha : train_append_status tbl r.b st train appended with
      | error e' =>
        rw [ha] at h
        injection h with h
        rw [← h]
        exact train_append_status_loop_error tbl st.code train st.deps.list r.b appended e' ha
      | ok ba =>
        obtain ⟨b', a'⟩ := ba
        rw [ha] at h
        exact ih _ _ e h
set_option maxRecDepth 100000 in
/-- C21 (evaluation): the route `Atlantis`, `Ramsey` is not empty and none of
its stops has the origin's code `HB`; the stop Atlantis has a `NULL` code, and
the round ends in `strcmp` on that code inside `stop_find`, not with the error
of line 710. -/
theorem null_code_faults_before_route_error :
    get_prev_stations ex_tbl ex_world_unknown "HB".toList ex_dep_t1.train =
      [{ name := "Atlantis".toList, code := none, status := stop_status.wild },
       { name := "Ramsey".toList, code := some "RY".toList, status := stop_status.wild }] ∧
    fault_of (upcoming_train ex_tbl ex_world_unknown "HB".toList "NY".toList ex_dep_t1
      { b := [], log := [] }) = some Fault.nullDeref ∧
    Fault.nullDeref ≠ route_error := by
  decide

/-- The origin missing from a route whose stops all resolve: for a processed train whose stop sequence is not empty and
whose stops all carry a resolved code: when no stop has the origin's code the
round ends with the error of line 710, whatever the station documents are (no
station is visited before it); when some stop has the origin's code, `stop_find`
returns a stop and the round does not end with that error. -/
theorem route_without_origin (tbl : StationTable) (w : World) (from_code dest_code : Str)
    (dep : departure) (r : Report) (route : List stop) (head : List Str)
    (hhead : train_head dep = .ok head)
    (hroute : get_prev_stations tbl w from_code dep.train = route) (hne : route ≠ [])
    (hres : ∀ s ∈ route, s.code ≠ none) :
    ((∀ s ∈ route, s.code ≠ some from_code) →
      stop_find (reversed route) from_code = .ok none ∧
      ∀ w' : World, w'.train_doc = w.train_doc →
        upcoming_train tbl w' from_code dest_code dep r = .error route_error) ∧
    ((∃ s ∈ route, s.code = some from_code) →
      (∃ origin, stop_find (reversed route) from_code = .ok (some origin)) ∧
      upcoming_train tbl w from_code dest_code dep r ≠ .error route_error) := by
  have hempty : route.isEmpty = false := by
    cases route with
    | nil => exact absurd rfl hne
    | cons _ _ => rfl
  have hres' : ∀ s ∈ reversed route, s.code ≠ none := by
    intro s hs
    rw [reversed_eq_reverse] at hs
    exact hres s (List.mem_reverse.1 hs)
  constructor
  · intro hno
    have hfind : stop_find (reversed route) from_code = .ok none := by
      apply stop_find_none from_code _ hres'
      intro s hs
      rw [reversed_eq_reverse] at hs
      exact hno s (List.mem_reverse.1 hs)
    refine ⟨hfind, ?_⟩
    intro w' hw
    have hroute' : get_prev_stations tbl w' from_code dep.train = route := by
      rw [← hroute]
      unfold get_prev_stations
      rw [hw]
    simp only [upcoming_train, hhead, hroute', hempty, hfind]
    rfl
  · intro hex
    have hfind : ∃ origin, stop_find (reversed route) from_code = .ok (some origin) := by
      apply stop_find_some from_code _ hres'
      obtain ⟨s, hs, hc⟩ := hex
      exact ⟨s, by rw [reversed_eq_reverse]; exact List.mem_reverse.2 hs, hc⟩
    refine ⟨hfind, ?_⟩
    obtain ⟨origin, ho⟩ := hfind
    simp only [upcoming_train, hhead, hroute, hempty, ho]
    cases hl : prev_stops_loop tbl w dep.train origin.tail
        { b := r.b ++ head, log := r.log ++ [Event.route from_code dep.train] } false with
    | error e =>
      intro h
      injection h with h
      exact prev_stops_loop_error tbl w dep.train _ _ _ e hl h
    | ok ra =>
      intro h
      cases h

set_option maxRecDepth 100000 in
theorem route_without_origin_witness :
    (train_head ex_dep_t1 = .ok [head_line ex_dep_t1, ".".toList] ∧
      get_prev_stations ex_tbl ex_world "RY".toList ex_dep_t1.train = ex_route ∧ ex_route ≠ [] ∧
      (∀ s ∈ ex_route, s.code ≠ none) ∧ (∀ s ∈ ex_route, s.code ≠ some "RY".toList)) ∧
    upcoming_train ex_tbl ex_world "RY".toList "NY".toList ex_dep_t1 { b := [], log := [] } =
      .error route_error :=
  have h1 : train_head ex_dep_t1 = .ok [head_line ex_dep_t1, ".".toList] := rfl
  have h2 : get_prev_stations ex_tbl ex_world "RY".toList ex_dep_t1.train = ex_route := by decide
  have h3 : ex_route ≠ [] := by decide
  have h4 : ∀ s ∈ ex_route, s.code ≠ none := by decide
  have h5 : ∀ s ∈ ex_route, s.code ≠ some "RY".toList := by decide
  ⟨⟨h1, h2, h3, h4, h5⟩,
    ((route_without_origin ex_tbl ex_world "RY".toList "NY".toList ex_dep_t1
      { b := [], log := [] } ex_route [head_line ex_dep_t1, ".".toList] h1 h2 h3 h4).1 h5).2
      ex_world rfl⟩
/-! ## The walk over the stops before the origin -/

/-- A station that `station_create` returns has the code it was asked for. -/
theorem station_create_code (tbl : StationTable) (w : World) (code : Option Str) (st : station)
    (h : station_create tbl w code = .ok st) : code = some st.code := by
  unfold station_create at h
  cases code with
  | none => cases h
  | some c =>
    simp only at h
    cases hn : station_name tbl c with
    | none => rw [hn] at h; cases h
    | some name =>
      rw [hn] at h
      simp only at h
      cases hd : w.station_doc c with
      | none => rw [hd] at h; cases h
      | some text =>
        rw [hd] at h
        simp only at h
        cases hl : station_load tbl text with
        | error e => rw [hl] at h; cases h
        | ok d =>
          rw [hl] at h
          simp only [Except.ok.injEq] at h
          rw [← h]

/-- The walk for a route whose stops all resolve: for a route `A ++ [s] ++ B` in chronological order in which `s` has
the origin's code and the stops of `B` have other (resolved) codes, `stop_find`
on the reversed route returns `s`, followed by the stops of `A` in reverse
order.  The stations of `A` loading without error and the lines fitting the
scratch array, the round requests, after the route, exactly the stations of
the stops of `A`, each once, the most recent first, and none of `B`; it appends
after the departure's own pieces the status lines of these stations in that
order, `status_lines` giving for a station one line `    name(code): status`
per departure with the train's identifier and a non-empty status, under the
header when there is a line and the text ` No previous stops status.`
otherwise. -/
theorem walk_before_origin (tbl : StationTable) (w : World) (from_code dest_code : Str)
    (dep : departure) (r : Report) (A : List stop) (s : stop) (B : List stop)
    (stations : List station) (head : List Str)
    (hhead : train_head dep = .ok head)
    (hroute : get_prev_stations tbl w from_code dep.train = A ++ s :: B)
    (hs : s.code = some from_code)
    (hB : ∀ x ∈ B, x.code ≠ none) (hBno : ∀ x ∈ B, x.code ≠ some from_code)
    (hst : List.Forall₂ (fun (s : stop) (st : station) => station_create tbl w s.code = .ok st)
      A.reverse stations)
    (hfit : ∀ st ∈ stations, ∀ l ∈ status_lines tbl st dep.train, l.length < 1024) :
    stop_find (reversed (A ++ s :: B)) from_code = .ok (some (s :: A.reverse)) ∧
    List.Forall₂ (fun (s : stop) (st : station) => s.code = some st.code) A.reverse stations ∧
    upcoming_train tbl w from_code dest_code dep r =
      .ok ({ b := r.b ++ head ++
                (if stations.flatMap (fun st => status_lines tbl st dep.train) = [] then
                  [negative]
                else positive :: stations.flatMap (fun st => status_lines tbl st dep.train)) ++
                ["\n".toList],
             log := r.log ++ Event.route from_code dep.train ::
               A.reverse.map (fun s => Event.station s.code) }, true) ∧
    (∀ st : station, status_lines tbl st dep.train =
      st.deps.list.filterMap (fun d =>
        if dep.train = d.train then
          match d.status with
          | some status =>
            if status = [] then none
            else some ("    ".toList ++ fmt_s (station_name tbl st.code) ++ "(".toList ++ st.code ++
              "): ".toList ++ status ++ "\n".toList)
          | none => none
        else none)) := by
  have hrev : reversed (A ++ s :: B) = B.reverse ++ s :: A.reverse := by
    rw [reversed_eq_reverse, List.reverse_append, List.reverse_cons, List.append_assoc]
    rfl
  have hfind : stop_find (reversed (A ++ s :: B)) from_code = .ok (some (s :: A.reverse)) := by
    rw [hrev]
    exact stop_find_split from_code s A.reverse hs B.reverse
      (fun x hx => hB x (List.mem_reverse.1 hx)) (fun x hx => hBno x (List.mem_reverse.1 hx))
  have hempty : (A ++ s :: B).isEmpty = false := by
    cases A <;> rfl
  have hloop := prev_stops_loop_spec tbl w dep.train A.reverse stations
    { b := r.b ++ head, log := r.log ++ [Event.route from_code dep.train] } false hst hfit
  refine ⟨hfind, ?_, ?_, fun st => rfl⟩
  · exact List.Forall₂.imp (fun a b h => station_create_code tbl w a.code b h) hst
  · simp only [upcoming_train, hhead, hroute, hempty, hfind, List.tail_cons, hloop]
    by_cases hL : stations.flatMap (fun st => status_lines tbl st dep.train) = []
    · simp [hL]
    · simp [hL]

set_option maxRecDepth 100000 in
theorem walk_before_origin_witness :
    (train_head ex_dep_t1 = .ok [head_line ex_dep_t1, ".".toList] ∧
      get_prev_stations ex_tbl ex_world "HB".toList ex_dep_t1.train =
        [ex_route.get ⟨0, by decide⟩] ++ ex_route.get ⟨1, by decide⟩ ::
          [ex_route.get ⟨2, by decide⟩] ∧
      station_create ex_tbl ex_world (some "SF".toList) = .ok ex_sf_station) ∧
    upcoming_train ex_tbl ex_world "HB".toList "NY".toList ex_dep_t1 { b := [], log := [] } =
      .ok ({ b := [head_line ex_dep_t1, ".".toList, positive,
                   "    Suffern(SF): DEPARTED\n".toList, "\n".toList],
             log := [Event.route "HB".toList "T1".toList, Event.station (some "SF".toList)] },
           true) :=
  have h1 : train_head ex_dep_t1 = .ok [head_line ex_dep_t1, ".".toList] := rfl
  have h2 : get_prev_stations ex_tbl ex_world "HB".toList ex_dep_t1.train =
      [ex_route.get ⟨0, by decide⟩] ++ ex_route.get ⟨1, by decide⟩ ::
        [ex_route.get ⟨2, by decide⟩] := by decide
  have h5 : station_create ex_tbl ex_world (some "SF".toList) = .ok ex_sf_station := by rfl
  ⟨⟨h1, h2, h5⟩,
    (walk_before_origin ex_tbl ex_world "HB".toList "NY".toList ex_dep_t1 { b := [], log := [] }
      [ex_route.get ⟨0, by decide⟩] (ex_route.get ⟨1, by decide⟩) [ex_route.get ⟨2, by decide⟩]
      [ex_sf_station] [head_line ex_dep_t1, ".".toList] h1 h2 rfl (by decide) (by decide)
      (List.Forall₂.cons h5 List.Forall₂.nil) (by decide)).2.2.1⟩
/-! ## The cursor of the loop over the ranked departures -/

theorem ranks_cons_zero (d : departure) (l : List departure) (h : d.next = 0) :
    ranks (d :: l) = ranks l := by
  unfold ranks
  rw [List.filter_cons_of_neg (by simpa using h)]

theorem ranks_cons_pos (d : departure) (l : List departure) (h : d.next ≠ 0) :
    ranks (d :: l) = d.next :: ranks l := by
  unfold ranks
  rw [List.filter_cons_of_pos (by simpa using h), List.map_cons]

/-- On a catalog whose ranks are all 0, the ranking loop hands out the ranks
`num + 1`, ..., `n` in list order, `n` being the count it returns. -/
theorem calculate_next_loop_ranks (dest_code : Str) :
    ∀ (l : List departure) (num : Nat) (l' : List departure) (n : Nat),
      (∀ d ∈ l, d.next = 0) → calculate_next_loop dest_code l num = .ok (l', n) →
      num ≤ n ∧ ranks l' = List.range' (num + 1) (n - num) := by
  intro l
  induction l with
  | nil =>
    intro num l' n _ h
    simp only [calculate_next_loop, Except.ok.injEq, Prod.mk.injEq] at h
    obtain ⟨h1, h2⟩ := h
    subst h1; subst h2
    exact ⟨Nat.le_refl _, by simp [ranks]⟩
  | cons d rest ih =>
    intro num l' n hz h
    have hz' : ∀ x ∈ rest, x.next = 0 := fun x hx => hz x (List.mem_cons_of_mem _ hx)
    rw [calculate_next_loop] at h
    cases hc : d.code with
    | none => rw [hc] at h; cases h
    | some c =>
      rw [hc] at h
      simp only at h
      by_cases he : c = dest_code
      · rw [if_pos he] at h
        cases hr : calculate_next_loop dest_code rest (num + 1) with
        | error e => rw [hr] at h; cases h
        | ok p =>
          obtain ⟨rest', n'⟩ := p
          rw [hr] at h
          simp only [Except.ok.injEq, Prod.mk.injEq] at h
          obtain ⟨h1, h2⟩ := h
          subst h1; subst h2
          obtain ⟨i1, i2⟩ := ih (num + 1) rest' n' hz' hr
          refine ⟨by omega, ?_⟩
          rw [ranks_cons_pos _ _ (by simp), i2]
          have e : n' - num = (n' - (num + 1)) + 1 := by omega
          rw [e, List.range'_succ]
      · rw [if_neg he] at h
        cases hr : calculate_next_loop dest_code rest num with
        | error e => rw [hr] at h; cases h
        | ok p =>
          obtain ⟨rest', n'⟩ := p
          rw [hr] at h
          simp only [Except.ok.injEq, Prod.mk.injEq] at h
          obtain ⟨h1, h2⟩ := h
          subst h1; subst h2
          obtain ⟨i1, i2⟩ := ih num rest' n' hz' hr
          refine ⟨i1, ?_⟩
          rw [ranks_cons_zero _ _ (hz d (List.mem_cons_self _ _)), i2]

/-- The walk over the stops before the origin requests stations only. -/
theorem prev_stops_loop_routes (tbl : StationTable) (w : World) (train : Str) :
    ∀ (l : List stop) (r : Report) (appended : Bool) (r' : Report) (a : Bool),
      prev_stops_loop tbl w train l r appended = .ok (r', a) → routes r'.log = routes r.log := by
  intro l
  induction l with
  | nil =>
    intro r appended r' a h
    simp only [prev_stops_loop, Except.ok.injEq, Prod.mk.injEq] at h
    rw [← h.1]
  | cons s rest ih =>
    intro r appended r' a h
    rw [prev_stops_loop] at h
    cases hc : station_create tbl w s.code with
    | error e => rw [hc] at h; cases h
    | ok st =>
      rw [hc] at h
      simp only at h
      cases ha : train_append_status tbl r.b st train appended with
      | error e => rw [ha] at h; cases h
      | ok ba =>
        obtain ⟨b', a'⟩ := ba
        rw [ha] at h
        simp only at h
        rw [ih _ _ r' a h]
        simp [routes, List.countP_append]

/-- A round of the loop requests one route. -/
theorem upcoming_train_routes (tbl : StationTable) (w : World) (from_code dest_code : Str)
    (dep : departure) (r r' : Report) (c : Bool)
    (h : upcoming_train tbl w from_code dest_code dep r = .ok (r', c)) :
    routes r'.log = routes r.log + 1 := by
  unfold upcoming_train at h
  cases hh : train_head dep with
  | error e => rw [hh] at h; cases h
  | ok head =>
    rw [hh] at h
    simp only at h
    by_cases hempty : (get_prev_stations tbl w from_code dep.train).isEmpty = true
    · rw [if_pos hempty] at h
      cases hs : snprintf (no_route_line dep.train from_code dest_code) with
      | error e => rw [hs] at h; cases h
      | ok s =>
        rw [hs] at h
        simp only [Except.ok.injEq, Prod.mk.injEq] at h
        rw [← h.1]
        simp [routes, List.countP_append]
    · rw [if_neg hempty] at h
      cases hf : stop_find (reversed (get_prev_stations tbl w from_code dep.train)) from_code with
      | error e => rw [hf] at h; cases h
      | ok o =>
        rw [hf] at h
        cases o with
        | none => cases h
        | some origin =>
          simp only at h
          cases hl : prev_stops_loop tbl w dep.train origin.tail
              { b := r.b ++ head, log := r.log ++ [Event.route from_code dep.train] } false with
          | error e => rw [hl] at h; cases h
          | ok ra =>
            obtain ⟨r1, a⟩ := ra
            rw [hl] at h
            simp only [Except.ok.injEq, Prod.mk.injEq] at h
            rw [← h.1]
            have := prev_stops_loop_routes tbl w dep.train _ _ _ r1 a hl
            simp only at this ⊢
            rw [this]
            simp [routes, List.countP_append]

/-- The loop over the ranked departures, from a state in which the ranks still
ahead are `i + 1`, ..., `n`: the result does not depend on what follows the
list, a fault is the fault of a round on a departure of the list, and at most
`n - i` routes are requested. -/
theorem upcoming_loop_cursor (tbl : StationTable) (w : World) (from_code dest_code : Str)
    (n : Nat) : ∀ (rest : List departure) (i : Nat) (r : Report),
      i ≤ n → ranks rest = List.range' (i + 1) (n - i) →
      (∀ X : List departure,
        upcoming_loop tbl w from_code dest_code n (rest ++ X) i r =
          upcoming_loop tbl w from_code dest_code n rest i r) ∧
      (∀ e : Fault, upcoming_loop tbl w from_code dest_code n rest i r = .error e →
        ∃ d ∈ rest, ∃ r1 : Report, d.next ≠ 0 ∧
          upcoming_train tbl w from_code dest_code d r1 = .error e) ∧
      (∀ r' : Report, upcoming_loop tbl w from_code dest_code n rest i r = .ok r' →
        routes r'.log ≤ routes r.log + (n - i)) := by
  intro rest
  induction rest with
  | nil =>
    intro i r hi hr
    have hni : ¬ i < n := by
      intro hlt
      have e : n - i = (n - i - 1) + 1 := by omega
      rw [e, List.range'_succ] at hr
      cases hr
    refine ⟨?_, ?_, ?_⟩
    · intro X
      cases X with
      | nil => rfl
      | cons x xs =>
        rw [List.nil_append, upcoming_loop, upcoming_loop, if_neg hni, if_neg hni]
    · intro e h
      rw [upcoming_loop, if_neg hni] at h
      cases h
    · intro r' h
      rw [upcoming_loop, if_neg hni] at h
      injection h with h
      rw [← h]; omega
  | cons d rest ih =>
    intro i r hi hr
    by_cases hlt : i < n
    · by_cases hz : d.next = 0
      · rw [ranks_cons_zero d rest hz] at hr
        obtain ⟨i1, i2, i3⟩ := ih i r hi hr
        refine ⟨?_, ?_, ?_⟩
        · intro X
          rw [List.cons_append, upcoming_loop, upcoming_loop, if_pos hlt, if_pos hlt, if_pos hz,
            if_pos hz]
          exact i1 X
        · intro e h
          rw [upcoming_loop, if_pos hlt, if_pos hz] at h
          obtain ⟨x, hx, r1, h1, h2⟩ := i2 e h
          exact ⟨x, List.mem_cons_of_mem _ hx, r1, h1, h2⟩
        · intro r' h
          rw [upcoming_loop, if_pos hlt, if_pos hz] at h
          exact i3 r' h
      · rw [ranks_cons_pos d rest hz] at hr
        have e : n - i = (n - (i + 1)) + 1 := by omega
        rw [e, List.range'_succ] at hr
        injection hr with _ hr
        refine ⟨?_, ?_, ?_⟩
        · intro X
          rw [List.cons_append, upcoming_loop, upcoming_loop, if_pos hlt, if_pos hlt, if_neg hz,
            if_neg hz]
          cases ht : upcoming_train tbl w from_code dest_code d r with
          | error e => rfl
          | ok rc =>
            obtain ⟨r1, c⟩ := rc
            simp only
            by_cases hc : (c && decide (i + 1 > 2)) = true
            · rw [if_pos hc, if_pos hc]
            · rw [if_neg hc, if_neg hc]
              exact (ih (i + 1) r1 (by omega) hr).1 X
        · intro e h
          rw [upcoming_loop, if_pos hlt, if_neg hz] at h
          cases ht : upcoming_train tbl w from_code dest_code d r with
          | error e' =>
            rw [ht] at h
            injection h with h
            exact ⟨d, List.mem_cons_self _ _, r, hz, by rw [ht, h]⟩
          | ok rc =>
            obtain ⟨r1, c⟩ := rc
            rw [ht] at h
            simp only at h
            by_cases hc : (c && decide (i + 1 > 2)) = true
            · rw [if_pos hc] at h; cases h
            · rw [if_neg hc] at h
              obtain ⟨x, hx, r2, h1, h2⟩ := (ih (i + 1) r1 (by omega) hr).2.1 e h
              exact ⟨x, List.mem_cons_of_mem _ hx, r2, h1, h2⟩
        · intro r' h
          rw [upcoming_loop, if_pos hlt, if_neg hz] at h
          cases ht : upcoming_train tbl w from_code dest_code d r with
          | error e' => rw [ht] at h; cases h
          | ok rc =>
            obtain ⟨r1, c⟩ := rc
            rw [ht] at h
            simp only at h
            have hr1 := upcoming_train_routes tbl w from_code dest_code d r r1 c ht
            by_cases hc : (c && decide (i + 1 > 2)) = true
            · rw [if_pos hc] at h
              injection h with h
              rw [← h, hr1]; omega
            · rw [if_neg hc] at h
              have := (ih (i + 1) r1 (by omega) hr).2.2 r' h
              omega
    · refine ⟨?_, ?_, ?_⟩
      · intro X
        rw [List.cons_append, upcoming_loop, upcoming_loop, if_neg hlt, if_neg hlt]
      · intro e h
        rw [upcoming_loop, if_neg hlt] at h
        cases h
      · intro r' h
        rw [upcoming_loop, if_neg hlt] at h
        injection h with h
        rw [← h]; omega
/-- While `i < n`, the skip over the departures of rank 0 stops at a departure
of rank `i + 1`, and the loop does its round on that departure. -/
theorem upcoming_loop_reach (tbl : StationTable) (w : World) (from_code dest_code : Str)
    (n : Nat) : ∀ (rest : List departure) (i : Nat),
      i < n → ranks rest = List.range' (i + 1) (n - i) →
      ∃ (skipped : List departure) (d : departure) (rest' : List departure),
        rest = skipped ++ d :: rest' ∧ (∀ x ∈ skipped, x.next = 0) ∧ d.next = i + 1 ∧
        ranks rest' = List.range' (i + 1 + 1) (n - (i + 1)) ∧
        ∀ r : Report, upcoming_loop tbl w from_code dest_code n rest i r =
          match upcoming_train tbl w from_code dest_code d r with
          | .error e => .error e
          | .ok (r1, c) =>
            if c && decide (i + 1 > 2) then .ok r1
            else upcoming_loop tbl w from_code dest_code n rest' (i + 1) r1 := by
  intro rest
  induction rest with
  | nil =>
    intro i hlt hr
    have e : n - i = (n - i - 1) + 1 := by omega
    rw [e, List.range'_succ] at hr
    cases hr
  | cons d rest ih =>
    intro i hlt hr
    by_cases hz : d.next = 0
    · rw [ranks_cons_zero d rest hz] at hr
      obtain ⟨skipped, d', rest', h1, h2, h3, h4, h5⟩ := ih i hlt hr
      refine ⟨d :: skipped, d', rest', by rw [h1]; rfl, ?_, h3, h4, ?_⟩
      · intro x hx
        rcases List.mem_cons.1 hx with e | e
        · rw [e]; exact hz
        · exact h2 x e
      · intro r
        rw [upcoming_loop, if_pos hlt, if_pos hz]
        exact h5 r
    · rw [ranks_cons_pos d rest hz] at hr
      have e : n - i = (n - (i + 1)) + 1 := by omega
      rw [e, List.range'_succ] at hr
      injection hr with hd hr
      refine ⟨[], d, rest, rfl, (fun x hx => by cases hx), hd, hr, ?_⟩
      intro r
      rw [upcoming_loop, if_pos hlt, if_neg hz]

/-- C23: after `departures_calculate_next` on a catalog whose ranks are all 0,
with `n` the count it returns, the ranked departures carry the ranks 1, ..., `n`
in list order.  From any state of the loop of `departures_get_upcoming` in
which the ranks ahead of the cursor are `i + 1`, ..., `n` with `i < n`, the skip
over rank-0 departures stops inside the list at the departure of rank `i + 1`,
the round is done on it, and the ranks ahead are then `i + 2`, ..., `n`.  So
the loop over the ranked catalog gives the same result whatever follows the
catalog (the cursor is not moved past its end while `i < n`), a fault of the
loop is a fault of a round on a departure of the catalog, and at most `n`
routes are requested.  A catalog that `station_load` returns has all its ranks
at 0, which is the hypothesis on the catalog before the ranking. -/
theorem cursor_never_null (tbl : StationTable) (w : World) (from_code dest_code : Str)
    (fresh deps : departures) (n : Nat) (r : Report)
    (hfresh : ∀ d ∈ fresh.list, d.next = 0)
    (hcalc : departures_calculate_next fresh dest_code = .ok (deps, n)) :
    ranks deps.list = List.range' 1 n ∧
    (∀ (rest : List departure) (i : Nat),
      i < n → ranks rest = List.range' (i + 1) (n - i) →
      ∃ (skipped : List departure) (d : departure) (rest' : List departure),
        rest = skipped ++ d :: rest' ∧ (∀ x ∈ skipped, x.next = 0) ∧ d.next = i + 1 ∧
        ranks rest' = List.range' (i + 1 + 1) (n - (i + 1)) ∧
        ∀ r : Report, upcoming_loop tbl w from_code dest_code n rest i r =
          match upcoming_train tbl w from_code dest_code d r with
          | .error e => .error e
          | .ok (r1, c) =>
            if c && decide (i + 1 > 2) then .ok r1
            else upcoming_loop tbl w from_code dest_code n rest' (i + 1) r1) ∧
    (∀ X : List departure,
      upcoming_loop tbl w from_code dest_code n (deps.list ++ X) 0 r =
        upcoming_loop tbl w from_code dest_code n deps.list 0 r) ∧
    (∀ e : Fault, upcoming_loop tbl w from_code dest_code n deps.list 0 r = .error e →
      ∃ d ∈ deps.list, ∃ r1 : Report, d.next ≠ 0 ∧
        upcoming_train tbl w from_code dest_code d r1 = .error e) ∧
    (∀ r' : Report, upcoming_loop tbl w from_code dest_code n deps.list 0 r = .ok r' →
      routes r'.log ≤ routes r.log + n) ∧
    (∀ (text : Str) (d : departures), station_load tbl text = .ok d → ∀ x ∈ d.list, x.next = 0) := by
  have hranks : ranks deps.list = List.range' 1 n := by
    unfold departures_calculate_next at hcalc
    cases hl : calculate_next_loop dest_code fresh.list 0 with
    | error e => rw [hl] at hcalc; cases hcalc
    | ok p =>
      obtain ⟨l', n'⟩ := p
      rw [hl] at hcalc
      simp only [Except.ok.injEq, Prod.mk.injEq] at hcalc
      obtain ⟨h1, h2⟩ := hcalc
      subst h1; subst h2
      exact (calculate_next_loop_ranks dest_code fresh.list 0 l' n' hfresh hl).2
  obtain ⟨c1, c2, c3⟩ := upcoming_loop_cursor tbl w from_code dest_code n deps.list 0 r
    (Nat.zero_le n) hranks
  exact ⟨hranks, upcoming_loop_reach tbl w from_code dest_code n, c1, c2, c3,
    station_load_fresh tbl⟩

set_option maxRecDepth 100000 in
theorem cursor_never_null_witness :
    ((∀ d ∈ ex_catalog.list, d.next = 0) ∧
      departures_calculate_next ex_catalog "NY".toList = .ok (ex_ranked.1, ex_ranked.2) ∧
      ex_ranked.2 = 2 ∧ ex_ranked.1.list.map (fun d => d.next) = [1, 0, 2]) ∧
    ranks ex_ranked.1.list = List.range' 1 ex_ranked.2 ∧
    ∀ X : List departure,
      upcoming_loop ex_tbl ex_world "HB".toList "NY".toList ex_ranked.2 (ex_ranked.1.list ++ X) 0
          { b := [], log := [] } =
        upcoming_loop ex_tbl ex_world "HB".toList "NY".toList ex_ranked.2 ex_ranked.1.list 0
          { b := [], log := [] } :=
  have h1 : ∀ d ∈ ex_catalog.list, d.next = 0 := by decide
  have h2 : departures_calculate_next ex_catalog "NY".toList = .ok (ex_ranked.1, ex_ranked.2) :=
    ok_of_toOption _ _ (by decide)
  ⟨⟨h1, h2, by decide, by decide⟩,
    (cursor_never_null ex_tbl ex_world "HB".toList "NY".toList ex_catalog ex_ranked.1
      ex_ranked.2 { b := [], log := [] } h1 h2).1,
    (cursor_never_null ex_tbl ex_world "HB".toList "NY".toList ex_catalog ex_ranked.1
      ex_ranked.2 { b := [], log := [] } h1 h2).2.2.1⟩
/-! ## Rows followed by a divider row, routes with an unresolved stop -/

set_option maxRecDepth 100000 in
/-- C11 (evaluation): the row `5:20 | Hoboken | 1 | Main | T9` has five
well-formed cells, no colspan marker in its own 63 bytes and a first cell that
does not start with `DEP`.  Alone in its buffer it gives one departure with the
fields taken by position.  Followed in the buffer by a divider row it gives no
departure: the test `strstr(text, "<td colspan=")` finds the marker of the
divider row and `parse_tr` returns with the catalog empty. -/
theorem data_row_before_divider_gives_no_departure :
    find_sub "<td colspan=".toList (ex_row_then_divider.take 63) = none ∧
    ex_row_then_divider.take 63 ++ [NUL] = ex_row_plain ∧
    (ex_parse_len ex_tbl ex_row_plain 63).toOption =
      some (1, [{ time := "5:20".toList, destination := "Hoboken".toList, line := "Main".toList,
                  train := "T9".toList, track := "1".toList, status := none,
                  code := some "HB".toList, next := 0 }]) ∧
    (ex_parse_len ex_tbl ex_row_then_divider 63).toOption = some (0, []) := by
  decide

set_option maxRecDepth 100000 in
/-- C12 (evaluation): the row `5:20 | Hoboken` has two complete cells, no
colspan marker in its own 29 bytes and is no header.  Alone in its buffer it
ends `parse_tr` with the fatal error `Cannot parse track`.  Followed in the
buffer by a divider row it raises no error at all: the test
`strstr(text, "<td colspan=")` finds the marker of the divider row and
`parse_tr` returns with the catalog unchanged. -/
theorem short_row_before_divider_raises_no_error :
    find_sub "<td colspan=".toList (ex_short_then_divider.take 29) = none ∧
    ex_short_then_divider.take 29 ++ [NUL] = ex_row_short ∧
    fault_of (ex_parse_len ex_tbl ex_row_short 29) = some (Fault.fatal "Cannot parse track") ∧
    fault_of (ex_parse_len ex_tbl ex_short_then_divider 29) = none ∧
    (ex_parse_len ex_tbl ex_short_then_divider 29).toOption = some (0, []) := by
  decide

set_option maxRecDepth 100000 in
/-- C8 (evaluation): the route `Atlantis`, `Hoboken`, `New York` is not empty and
holds the origin Hoboken, which `stop_find` returns; the stop before the origin
has a `NULL` code, its name not being in the table.  The walk over the stops
before the origin calls `station_create(NULL)`, which ends in `strdup(NULL)`:
the round faults and the train's section gets neither the header nor the text
` No previous stops status.`. -/
theorem null_code_stop_before_origin_faults :
    ex_names (get_prev_stations ex_tbl ex_world_null_before "HB".toList ex_dep_t1.train) =
      [("Atlantis".toList, none), ("Hoboken".toList, some "HB".toList),
       ("New York".toList, some "NY".toList)] ∧
    ((stop_find (reversed (get_prev_stations ex_tbl ex_world_null_before "HB".toList
        ex_dep_t1.train)) "HB".toList).toOption.map (fun o => o.map ex_names)) =
      some (some [("Hoboken".toList, some "HB".toList), ("Atlantis".toList, none)]) ∧
    fault_of (station_create ex_tbl ex_world_null_before none) = some Fault.nullDeref ∧
    fault_of (upcoming_train ex_tbl ex_world_null_before "HB".toList "NY".toList ex_dep_t1
      { b := [], log := [] }) = some Fault.nullDeref := by
  decide

set_option maxRecDepth 100000 in
/-- C22 (evaluation): the route `Suffern`, `Hoboken`, `Atlantis` is `A ++ [s] ++ B`
with `A` the stop Suffern, `s` the origin Hoboken and `B` the stop Atlantis,
whose code is `NULL`, so no stop of `B` has the origin's code.  On the reversed
route `stop_find` meets Atlantis first and hands its `NULL` code to `strcmp`:
the round faults there, and the station of Suffern is never visited. -/
theorem null_code_stop_after_origin_faults :
    ex_names (get_prev_stations ex_tbl ex_world_null_after "HB".toList ex_dep_t1.train) =
      [("Suffern".toList, some "SF".toList), ("Hoboken".toList, some "HB".toList),
       ("Atlantis".toList, none)] ∧
    fault_of (stop_find (reversed (get_prev_stations ex_tbl ex_world_null_after "HB".toList
      ex_dep_t1.train)) "HB".toList) = some Fault.nullDeref ∧
    fault_of (upcoming_train ex_tbl ex_world_null_after "HB".toList "NY".toList ex_dep_t1
      { b := [], log := [] }) = some Fault.nullDeref := by
  decide

/-- A stop with a `NULL` code met before any stop with the code: `stop_find`
hands the `NULL` to `strcmp`. -/
theorem stop_find_null (from_code : Str) (s : stop) (rest : List stop)
    (hs : s.code = none) : ∀ (P : List stop),
    (∀ x ∈ P, x.code ≠ none) → (∀ x ∈ P, x.code ≠ some from_code) →
    stop_find (P ++ s :: rest) from_code = .error .nullDeref := by
  intro P
  induction P with
  | nil =>
    intro _ _
    rw [List.nil_append, stop_find]
    simp only [hs]
  | cons x xs ih =>
    intro hres hno
    have h1 := hres x (List.mem_cons_self _ _)
    have h2 := hno x (List.mem_cons_self _ _)
    cases hc : x.code with
    | none => exact absurd hc h1
    | some c =>
      have hne : ¬ c = from_code := fun e => h2 (by rw [hc, e])
      rw [List.cons_append, stop_find]
      simp only [hc, if_neg hne]
      exact ih (fun y hy => hres y (List.mem_cons_of_mem _ hy))
        (fun y hy => hno y (List.mem_cons_of_mem _ hy))
end Departures
